import Mathlib

/-!
# skillrank: a verification development of `src/skillrank.go`

The Go program keeps a directed weighted graph in two maps and ranks its nodes
by damped power iteration.  This file embeds the program shallowly:

* a Go `map[uint32]V` is an association list `List (Nat × V)`; a real map never
  holds a key twice, which is the predicate `Graph.WF`; the `uint32` ids are natural
  numbers, no arithmetic being done on them;
* `float64` is modelled by exact rational arithmetic (`ℚ`), so sums are taken
  without rounding and the order in which a map is ranged over does not matter;
  where the rounding of `float64` decides a statement, `Link` and the normalisation
  of `Rank` are run again with the binary64 rounding `fl64` (`LinkR`, `rankInitR`);
* `*node` values are updated in place: a write through a missing map entry is a
  nil dereference, modelled by `none` (and by `Outcome.nilPanic`);
* the `for delta > epsilon` loop of `Rank` is run with fuel, `Outcome.noFuel`
  standing for "still running".
-/

namespace Skillrank

/-! ## Maps -/

/-- Map lookup `m[k]` with the `ok` flag: `none` when the key is absent. -/
def mget {V : Type} : List (Nat × V) → Nat → Option V
  | [], _ => none
  | (k', v) :: rest, k => if k' = k then some v else mget rest k

/-- Map store `m[k] = v`: overwrite the entry of `k`, or add a new one. -/
def mset {V : Type} : List (Nat × V) → Nat → V → List (Nat × V)
  | [], k, v => [(k, v)]
  | (k', v') :: rest, k, v =>
    if k' = k then (k, v) :: rest else (k', v') :: mset rest k v

/-- In-place change of the value stored under `k`; nothing changes when `k` is absent. -/
def mmodify {V : Type} (f : V → V) : List (Nat × V) → Nat → List (Nat × V)
  | [], _ => []
  | (k', v) :: rest, k =>
    if k' = k then (k', f v) :: rest else (k', v) :: mmodify f rest k

/-- The keys of a map, in the order the model ranges over them. -/
def keys {V : Type} (m : List (Nat × V)) : List Nat := m.map Prod.fst

/-! ## Data model -/

/-- The `node` struct of the source. -/
structure node where
  weight : ℚ
  outbound : ℚ
deriving DecidableEq

/-- The `Graph` struct of the source: adjacency map and node map. -/
structure Graph where
  edges : List (Nat × List (Nat × ℚ))
  nodes : List (Nat × node)
deriving DecidableEq

/-- `NewGraph`: both maps empty. -/
def NewGraph : Graph := ⟨[], []⟩

/-- `Reset`: both maps are replaced by empty ones. -/
def Reset (_g : Graph) : Graph := ⟨[], []⟩

/-- The `switch level` of `Link`: the tier weight of a level string. -/
def levelWeight (level : String) : ℚ :=
  if level = "basic" then 1
  else if level = "intermediate" then 2
  else if level = "advanced" then 4
  else 0

/-- A fresh node record `&node{weight: 0, outbound: 0}`. -/
def freshNode : node := ⟨0, 0⟩

/-- The step `if _, ok := nodes[id]; ok == false { nodes[id] = &node{0, 0} }`. -/
def ensureNode (nodes : List (Nat × node)) (id : Nat) : List (Nat × node) :=
  match mget nodes id with
  | some _ => nodes
  | none => mset nodes id freshNode

/-- The weight `self.edges[source][target]` with its `ok` flags:
    `none` when the source has no adjacency map or the map has no such target. -/
def edgeLookup (edges : List (Nat × List (Nat × ℚ))) (source target : Nat) : Option ℚ :=
  match mget edges source with
  | some inner => mget inner target
  | none => none

/-- `Link`: line by line.  The node of `source` exists when its `outbound` is
    written (it was created just above), so the in-place update is total here.  The
    arithmetic is exact; `LinkR` below rounds it as float64 does. -/
def Link (g : Graph) (source target : Nat) (level : String) : Graph :=
  let weight := levelWeight level
  let nodes1 := ensureNode g.nodes source
  let nodes2 :=
    match edgeLookup g.edges source target with
    | some old => mmodify (fun n => { n with outbound := n.outbound - old }) nodes1 source
    | none => nodes1
  let nodes3 := mmodify (fun n => { n with outbound := n.outbound + weight }) nodes2 source
  let nodes4 := ensureNode nodes3 target
  let edges1 :=
    match mget g.edges source with
    | some _ => g.edges
    | none => mset g.edges source []
  let edges2 := mmodify (fun inner => mset inner target weight) edges1 source
  ⟨edges2, nodes4⟩

/-- A call of `Link` with its three arguments. -/
structure LinkCall where
  source : Nat
  target : Nat
  level : String
deriving DecidableEq

/-- The graph obtained from a start graph by a sequence of `Link` calls. -/
def linkAll (g : Graph) (calls : List LinkCall) : Graph :=
  calls.foldl (fun acc c => Link acc c.source c.target c.level) g

/-- The graph built from the empty graph by a sequence of `Link` calls. -/
def build (calls : List LinkCall) : Graph := linkAll NewGraph calls

/-! ## Rank -/

/-- How a run of `Rank` ends: it returns, it dereferences a nil `*node`,
    or the fuel given to its loop runs out while `delta > epsilon`. -/
inductive Outcome (α : Type) where
  | ok : α → Outcome α
  | nilPanic : Outcome α
  | noFuel : Outcome α
deriving DecidableEq

/-- Write through the pointer `self.nodes[k]`: `none` is the nil dereference. -/
def nodeUpdate (f : node → node) (nodes : List (Nat × node)) (k : Nat) :
    Option (List (Nat × node)) :=
  match mget nodes k with
  | some _ => some (mmodify f nodes k)
  | none => none

/-- The body of the normalisation loop for one source: when `outbound > 0`, every
    weight of its adjacency map is divided by `outbound`; otherwise nothing is done. -/
def normalizeInner (outbound : ℚ) (inner : List (Nat × ℚ)) : List (Nat × ℚ) :=
  if outbound > 0 then inner.map (fun e => (e.1, e.2 / outbound)) else inner

/-- The normalisation loop of `Rank` over the adjacency map; reading the `outbound`
    of a source without node record is a nil dereference. -/
def normalizeEdges (nodes : List (Nat × node)) :
    List (Nat × List (Nat × ℚ)) → Option (List (Nat × List (Nat × ℚ)))
  | [] => some []
  | (source, inner) :: rest =>
    match mget nodes source with
    | none => none
    | some n =>
      (normalizeEdges nodes rest).map
        (fun rest' => (source, normalizeInner n.outbound inner) :: rest')

/-- The loop `for key := range self.nodes { self.nodes[key].weight = inverse }`. -/
def initWeights (inverse : ℚ) (nodes : List (Nat × node)) : List (Nat × node) :=
  nodes.map (fun e => (e.1, { e.2 with weight := inverse }))

/-- The local map `nodes` of the loop body: `nodes[key] = value.weight`. -/
def snapshot (nodes : List (Nat × node)) : List (Nat × ℚ) :=
  nodes.map (fun e => (e.1, e.2.weight))

/-- The value `nodes[k]` read from the snapshot: `0` for a missing key. -/
def prevOf (prev : List (Nat × ℚ)) (k : Nat) : ℚ := (mget prev k).getD 0

/-- The sum `leak += value.weight` over the nodes with `outbound == 0`. -/
def leakSum (nodes : List (Nat × node)) : ℚ :=
  (nodes.map (fun e => if e.2.outbound = 0 then e.2.weight else 0)).sum

/-- The writes `self.nodes[key].weight = 0` of the first loop of the body. -/
def zeroWeights (nodes : List (Nat × node)) : List (Nat × node) :=
  nodes.map (fun e => (e.1, { e.2 with weight := 0 }))

/-- The update `self.nodes[k].weight += x`. -/
def addWeight (nodes : List (Nat × node)) (k : Nat) (x : ℚ) : Option (List (Nat × node)) :=
  nodeUpdate (fun n => { n with weight := n.weight + x }) nodes k

/-- The inner loop `for target, weight := range self.edges[source]`,
    where `p` is `nodes[source]`. -/
def spread (alpha p : ℚ) : List (Nat × ℚ) → List (Nat × node) → Option (List (Nat × node))
  | [], ns => some ns
  | (target, weight) :: rest, ns =>
    (addWeight ns target (alpha * p * weight)).bind (spread alpha p rest)

/-- The adjacency `self.edges[source]` as it is ranged over: empty when absent. -/
def edgesFrom (edges : List (Nat × List (Nat × ℚ))) (source : Nat) : List (Nat × ℚ) :=
  (mget edges source).getD []

/-- The loop `for source := range self.nodes` of the body, over the node keys. -/
def distribute (alpha inverse leak : ℚ) (edges : List (Nat × List (Nat × ℚ)))
    (prev : List (Nat × ℚ)) : List Nat → List (Nat × node) → Option (List (Nat × node))
  | [], ns => some ns
  | source :: rest, ns =>
    (spread alpha (prevOf prev source) (edgesFrom edges source) ns).bind fun ns1 =>
      (addWeight ns1 source ((1 - alpha) * inverse + leak * inverse)).bind
        (distribute alpha inverse leak edges prev rest)

/-- The sum `delta += math.Abs(value.weight - nodes[key])`. -/
def l1Change (prev : List (Nat × ℚ)) (nodes : List (Nat × node)) : ℚ :=
  (nodes.map (fun e => |e.2.weight - prevOf prev e.1|)).sum

/-- One pass of the body of the loop of `Rank`: the new graph and the new `delta`. -/
def rankStep (alpha inverse : ℚ) (g : Graph) : Option (Graph × ℚ) :=
  let prev := snapshot g.nodes
  let leak := leakSum g.nodes * alpha
  (distribute alpha inverse leak g.edges prev (keys g.nodes) (zeroWeights g.nodes)).map
    fun ns => (⟨g.edges, ns⟩, l1Change prev ns)

/-- The loop `for delta > epsilon { ... }` run with fuel; it yields the graph
    and the `delta` it stops with. -/
def rankLoop (alpha epsilon inverse : ℚ) : Nat → ℚ → Graph → Outcome (Graph × ℚ)
  | fuel, delta, g =>
    if delta > epsilon then
      match fuel with
      | 0 => Outcome.noFuel
      | fuel' + 1 =>
        match rankStep alpha inverse g with
        | none => Outcome.nilPanic
        | some (g', delta') => rankLoop alpha epsilon inverse fuel' delta' g'
    else Outcome.ok (g, delta)

/-- The value `inverse := 1 / float64(len(self.nodes))`.  For an empty node map Go
    computes `+Inf` where the rationals give 0; the value is then never used, since it
    is only ever added to the weight of a node. -/
def inverseOf (g : Graph) : ℚ := 1 / (g.nodes.length : ℚ)

/-- The state of `Rank` when it enters its loop: edges normalised, weights uniform. -/
def rankInit (g : Graph) : Option Graph :=
  (normalizeEdges g.nodes g.edges).map fun edges' =>
    ⟨edges', initWeights (inverseOf g) g.nodes⟩

/-- The final loop `for key, value := range self.nodes { callback(key, value.weight) }`,
    the callback acting on a state of the caller. -/
def report {σ : Type} (callback : Nat → ℚ → σ → σ) (nodes : List (Nat × node)) (s0 : σ) : σ :=
  nodes.foldl (fun s e => callback e.1 e.2.weight s) s0

/-- `Rank`, with fuel for its loop: the final graph and the final callback state. -/
def Rank {σ : Type} (fuel : Nat) (g : Graph) (alpha epsilon : ℚ)
    (callback : Nat → ℚ → σ → σ) (s0 : σ) : Outcome (Graph × σ) :=
  match rankInit g with
  | none => Outcome.nilPanic
  | some g1 =>
    match rankLoop alpha epsilon (inverseOf g) fuel 1 g1 with
    | Outcome.ok (g2, _) => Outcome.ok (g2, report callback g2.nodes s0)
    | Outcome.nilPanic => Outcome.nilPanic
    | Outcome.noFuel => Outcome.noFuel

/-- The callback that records its calls, in order. -/
def recordCall (id : Nat) (rank : ℚ) (calls : List (Nat × ℚ)) : List (Nat × ℚ) :=
  calls ++ [(id, rank)]

/-! ## RankInJSON

A Go string is modelled by its list of characters.  Every character that `RankInJSON`
writes is ASCII, so the byte offsets of the source are character offsets here.  The
rendering of a `float64` by the verb `%f` belongs to the Go library; it is a parameter
`fmtF` of the model. -/

/-- How a call of `RankInJSON` ends: with a string, with one of the two ways `Rank` can
    fail to return, or with the slice `ranking[:len(ranking)-2]` out of range. -/
inductive JsonOutcome where
  | ok : List Char → JsonOutcome
  | nilPanic : JsonOutcome
  | slicePanic : JsonOutcome
  | noFuel : JsonOutcome
deriving DecidableEq

/-- The separator `, ` that the format string puts after every entry. -/
def jsonSep : List Char := [Char.ofNat 44, Char.ofNat 32]

/-- The text `"<id>": <rank>` written for one node: the verb `%d` gives the decimal
    digits of the id, the verb `%f` is rendered by `fmtF`. -/
def jsonEntry (fmtF : ℚ → List Char) (id : Nat) (rank : ℚ) : List Char :=
  [Char.ofNat 34] ++ Nat.toDigits 10 id ++ [Char.ofNat 34, Char.ofNat 58, Char.ofNat 32] ++
    fmtF rank

/-- The callback of `RankInJSON`: `ranking += fmt.Sprintf("\"%d\": %f, ", id, rank)`. -/
def jsonCallback (fmtF : ℚ → List Char) (id : Nat) (rank : ℚ) (ranking : List Char) :
    List Char :=
  ranking ++ (jsonEntry fmtF id rank ++ jsonSep)

/-- `RankInJSON`: the entries are collected by `Rank`, the last two characters are cut
    off (a slice out of range when there are fewer than two), and braces are put around. -/
def RankInJSON (fmtF : ℚ → List Char) (fuel : Nat) (g : Graph) (alpha epsilon : ℚ) :
    JsonOutcome :=
  match Rank fuel g alpha epsilon (jsonCallback fmtF) [] with
  | Outcome.ok (_, ranking) =>
    if ranking.length < 2 then JsonOutcome.slicePanic
    else JsonOutcome.ok ([Char.ofNat 123] ++ ranking.take (ranking.length - 2) ++ [Char.ofNat 125])
  | Outcome.nilPanic => JsonOutcome.nilPanic
  | Outcome.noFuel => JsonOutcome.noFuel

/-! ## The float64 reading of the arithmetic

The definitions above compute in exact rationals.  Where a statement depends on the
rounding of `float64`, the operation is run again with a rounding function `rnd` applied
to the result of every arithmetic statement of the source; `rnd := fl64` is the IEEE 754
binary64 rounding (to nearest, ties to even) on the normal range, which is where all
values of this development lie. -/

/-- Rounding of a rational to the nearest integer, ties to the even integer. -/
def roundHalfEven (q : ℚ) : ℤ :=
  if q - ⌊q⌋ < 1 / 2 then ⌊q⌋
  else if 1 / 2 < q - ⌊q⌋ then ⌊q⌋ + 1
  else if ⌊q⌋ % 2 = 0 then ⌊q⌋ else ⌊q⌋ + 1

/-- The binary64 value nearest to `x`: with `2^e ≤ |x| < 2^(e+1)` the grid has step
    `2^(e-52)` (53 significant bits) and `x` is rounded to it, ties to even. -/
def fl64 (x : ℚ) : ℚ :=
  if x = 0 then 0
  else (roundHalfEven (x / (2 : ℚ) ^ (Int.log 2 |x| - 52)) : ℚ) *
    (2 : ℚ) ^ (Int.log 2 |x| - 52)

/-- `Link` with every arithmetic statement rounded by `rnd`:
    `outbound -= old` and `outbound += weight`. -/
def LinkR (rnd : ℚ → ℚ) (g : Graph) (source target : Nat) (level : String) : Graph :=
  let weight := levelWeight level
  let nodes1 := ensureNode g.nodes source
  let nodes2 :=
    match edgeLookup g.edges source target with
    | some old => mmodify (fun n => { n with outbound := rnd (n.outbound - old) }) nodes1 source
    | none => nodes1
  let nodes3 := mmodify (fun n => { n with outbound := rnd (n.outbound + weight) }) nodes2 source
  let nodes4 := ensureNode nodes3 target
  let edges1 :=
    match mget g.edges source with
    | some _ => g.edges
    | none => mset g.edges source []
  let edges2 := mmodify (fun inner => mset inner target weight) edges1 source
  ⟨edges2, nodes4⟩

/-- The body of the normalisation loop with the division rounded by `rnd`. -/
def normalizeInnerR (rnd : ℚ → ℚ) (outbound : ℚ) (inner : List (Nat × ℚ)) : List (Nat × ℚ) :=
  if outbound > 0 then inner.map (fun e => (e.1, rnd (e.2 / outbound))) else inner

/-- The normalisation loop of `Rank` with the divisions rounded by `rnd`. -/
def normalizeEdgesR (rnd : ℚ → ℚ) (nodes : List (Nat × node)) :
    List (Nat × List (Nat × ℚ)) → Option (List (Nat × List (Nat × ℚ)))
  | [] => some []
  | (source, inner) :: rest =>
    match mget nodes source with
    | none => none
    | some n =>
      (normalizeEdgesR rnd nodes rest).map
        (fun rest' => (source, normalizeInnerR rnd n.outbound inner) :: rest')

/-- The state of `Rank` when it enters its loop, with `inverse` and the normalised
    weights rounded by `rnd`. -/
def rankInitR (rnd : ℚ → ℚ) (g : Graph) : Option Graph :=
  (normalizeEdgesR rnd g.nodes g.edges).map fun edges' =>
    ⟨edges', initWeights (rnd (1 / (g.nodes.length : ℚ))) g.nodes⟩

/-- The graph built from the empty graph by a sequence of `Link` calls, every
    arithmetic statement rounded by `rnd`. -/
def buildR (rnd : ℚ → ℚ) (calls : List LinkCall) : Graph :=
  calls.foldl (fun acc c => LinkR rnd acc c.source c.target c.level) NewGraph

/-! ## Notions used in the statements -/

/-- No map of the graph holds a key twice, as in every Go map. -/
def Graph.WF (g : Graph) : Prop :=
  (keys g.nodes).Nodup ∧ (keys g.edges).Nodup ∧ ∀ e ∈ g.edges, (keys e.2).Nodup

instance (g : Graph) : Decidable g.WF := by
  unfold Graph.WF
  infer_instance

/-- The stored edges as triples `(source, target, weight)`. -/
def edgeList (edges : List (Nat × List (Nat × ℚ))) : List (Nat × Nat × ℚ) :=
  (edges.map (fun e => e.2.map (fun f => (e.1, f.1, f.2)))).flatten

/-- Every source and every target of a stored edge has a node record. -/
def EndpointsPresent (g : Graph) : Prop :=
  ∀ e ∈ edgeList g.edges, (mget g.nodes e.1).isSome ∧ (mget g.nodes e.2.1).isSome

instance (g : Graph) : Decidable (EndpointsPresent g) := by
  unfold EndpointsPresent
  infer_instance

/-- The stored weight `w(s,t)` of the edge from `s` to `t`, `0` when there is none. -/
def edgeWeight (edges : List (Nat × List (Nat × ℚ))) (s t : Nat) : ℚ :=
  (edgeLookup edges s t).getD 0

/-- The weight field of node `k`, `0` when there is no such node. -/
def weightOf (nodes : List (Nat × node)) (k : Nat) : ℚ :=
  ((mget nodes k).map node.weight).getD 0

/-- The outbound field of node `k`, `0` when there is no such node. -/
def outboundOf (nodes : List (Nat × node)) (k : Nat) : ℚ :=
  ((mget nodes k).map node.outbound).getD 0

/-- The sum of the weights stored in one adjacency map. -/
def edgeSum (inner : List (Nat × ℚ)) : ℚ := (inner.map Prod.snd).sum

/-- Every key of the adjacency map and every target stored in it has a node record. -/
def Graph.Closed (g : Graph) : Prop :=
  ∀ e ∈ g.edges, (mget g.nodes e.1).isSome ∧ ∀ f ∈ e.2, (mget g.nodes f.1).isSome

instance (g : Graph) : Decidable g.Closed := by
  unfold Graph.Closed
  infer_instance

/-- The outbound invariant: the `outbound` of every node is the sum of the stored
    weights of the edges leaving it. -/
def OutboundInv (g : Graph) : Prop :=
  ∀ s n, mget g.nodes s = some n → n.outbound = edgeSum (edgesFrom g.edges s)

/-- The weight that one adjacency map sends to the target `k`. -/
def inflow (inner : List (Nat × ℚ)) (k : Nat) : ℚ :=
  (inner.map (fun f => if f.1 = k then f.2 else 0)).sum

/-- The node map with `d k` added to the weight of every node `k`. -/
def bump (d : Nat → ℚ) (ns : List (Nat × node)) : List (Nat × node) :=
  ns.map (fun e => (e.1, (⟨e.2.weight + d e.1, e.2.outbound⟩ : node)))

/-- The formula of the specification for the weight of node `t` after one pass of
    the loop body: damped inflow, teleportation term and redistributed dangling mass. -/
def specWeight (alpha : ℚ) (g : Graph) (t : Nat) : ℚ :=
  alpha * ((keys g.nodes).map (fun s => weightOf g.nodes s * edgeWeight g.edges s t)).sum
    + (1 - alpha) / (g.nodes.length : ℚ)
    + alpha * ((g.nodes.filter (fun e => e.2.outbound = 0)).map (fun e => e.2.weight)).sum
        / (g.nodes.length : ℚ)

/-- The nodes after one pass of the loop body, in closed form. -/
def stepNodes (alpha : ℚ) (g : Graph) : List (Nat × node) :=
  g.nodes.map (fun e => (e.1, (⟨specWeight alpha g e.1, e.2.outbound⟩ : node)))

/-- The adjacency map after normalisation, in closed form. -/
def normEdges (nodes : List (Nat × node)) (edges : List (Nat × List (Nat × ℚ))) :
    List (Nat × List (Nat × ℚ)) :=
  edges.map (fun e => (e.1, normalizeInner (outboundOf nodes e.1) e.2))

/-- Every stored edge weight is the tier weight of some level string. -/
def TierWeights (g : Graph) : Prop :=
  ∀ e ∈ g.edges, ∀ f ∈ e.2, ∃ level : String, f.2 = levelWeight level

/-- The states reachable from `NewGraph` by `Link`, `Rank` and `Reset` calls; a call of
    `Rank` leads to a next state only when it returns. -/
inductive Reachable : Graph → Prop where
  | new : Reachable NewGraph
  | link (g : Graph) (source target : Nat) (level : String) :
      Reachable g → Reachable (Link g source target level)
  | rank {σ : Type} (g : Graph) (fuel : Nat) (alpha epsilon : ℚ)
      (callback : Nat → ℚ → σ → σ) (s0 : σ) (g' : Graph) (s' : σ) :
      Reachable g → Rank fuel g alpha epsilon callback s0 = Outcome.ok (g', s') →
      Reachable g'
  | reset (g : Graph) : Reachable g → Reachable (Reset g)

/-- The sum of the weights of all nodes. -/
def weightSum (ns : List (Nat × node)) : ℚ := (ns.map (fun e => e.2.weight)).sum

/-- The state `(graph, delta)` after `k` passes of the loop body, the guard
    `delta > epsilon` left aside; `none` is the nil dereference. -/
def loopIter (alpha inverse : ℚ) : Nat → Graph × ℚ → Option (Graph × ℚ)
  | 0, s => some s
  | k + 1, s => (rankStep alpha inverse s.1).bind (loopIter alpha inverse k)

/-- The transition weight from `s` to `t`: the stored edge weight, plus `1/N` when `s`
    is dangling (`outbound == 0`). -/
def transition (g : Graph) (s t : Nat) : ℚ :=
  edgeWeight g.edges s t + if outboundOf g.nodes s = 0 then 1 / (g.nodes.length : ℚ) else 0

/-- The state of a graph inside the loop of `Rank` on a graph built by `Link`: maps
    without repeated keys, closed, at least one node, no negative edge weight, and the
    edges of a node sum to 1 when its `outbound` is not 0 and to 0 when it is 0. -/
def Stochastic (g : Graph) : Prop :=
  g.WF ∧ g.Closed ∧ g.nodes ≠ [] ∧ (∀ e ∈ g.edges, ∀ f ∈ e.2, 0 ≤ f.2) ∧
    ∀ s ∈ keys g.nodes,
      edgeSum (edgesFrom g.edges s) = if outboundOf g.nodes s = 0 then 0 else 1

/-- The graph after one pass of the loop body, in closed form. -/
def nextGraph (alpha : ℚ) (g : Graph) : Graph := ⟨g.edges, stepNodes alpha g⟩

/-- The `delta` computed by one pass of the loop body, in closed form. -/
def stepDelta (alpha : ℚ) (g : Graph) : ℚ :=
  l1Change (snapshot g.nodes) (stepNodes alpha g)

/-- The map without the entry of key `k` (Go's `delete(m, k)`). -/
def merase {V : Type} : List (Nat × V) → Nat → List (Nat × V)
  | [], _ => []
  | (k', v) :: rest, k => if k' = k then rest else (k', v) :: merase rest k

/-- The graph with the same nodes and the same edges except that there is no edge
    from `s` to `t`. -/
def eraseEdge (g : Graph) (s t : Nat) : Graph :=
  ⟨mmodify (fun inner => merase inner t) g.edges s, g.nodes⟩

/-- The two-node chain `A → B` inside the loop of `Rank`: the edge normalised to 1,
    node `A` with weight `a`, the dangling node `B` with weight `b`. -/
def chainGraph (A B : Nat) (a b : ℚ) : Graph :=
  ⟨[(A, [(B, 1)])], [(A, ⟨a, 1⟩), (B, ⟨b, 0⟩)]⟩

/-- The graph of `Link(1,2,"basic")`, `Link(2,1,"basic")`, `Link(3,1,"basic")` inside
    the loop of `Rank`, with weights `a`, `b`, `c` on the nodes 1, 2, 3. -/
def cycleGraph (a b c : ℚ) : Graph :=
  ⟨[(1, [(2, 1)]), (2, [(1, 1)]), (3, [(1, 1)])], [(1, ⟨a, 1⟩), (2, ⟨b, 1⟩), (3, ⟨c, 1⟩)]⟩

/-! ## Lemmas on maps -/

section MapLemmas
variable {V : Type}

theorem mget_mset_self (m : List (Nat × V)) (k : Nat) (v : V) : mget (mset m k v) k = some v := by
  induction m with
  | nil => simp [mset, mget]
  | cons e rest ih =>
    obtain ⟨k', v'⟩ := e
    by_cases h : k' = k <;> simp [mset, mget, h, ih]

theorem mget_mset_ne (m : List (Nat × V)) {k k' : Nat} (v : V) (h : k ≠ k') :
    mget (mset m k v) k' = mget m k' := by
  induction m with
  | nil => simp [mset, mget, h]
  | cons e rest ih =>
    obtain ⟨k0, v0⟩ := e
    by_cases h0 : k0 = k
    · subst h0; simp [mset, mget, h]
    · simp [mset, mget, h0, ih]

theorem mget_mmodify_self (f : V → V) (m : List (Nat × V)) (k : Nat) :
    mget (mmodify f m k) k = (mget m k).map f := by
  induction m with
  | nil => simp [mmodify, mget]
  | cons e rest ih =>
    obtain ⟨k0, v0⟩ := e
    by_cases h0 : k0 = k <;> simp [mmodify, mget, h0, ih]

theorem mget_mmodify_ne (f : V → V) (m : List (Nat × V)) {k k' : Nat} (h : k ≠ k') :
    mget (mmodify f m k) k' = mget m k' := by
  induction m with
  | nil => simp [mmodify, mget]
  | cons e rest ih =>
    obtain ⟨k0, v0⟩ := e
    by_cases h0 : k0 = k
    · subst h0; simp [mmodify, mget, h]
    · simp [mmodify, mget, h0, ih]

theorem keys_mmodify (f : V → V) (m : List (Nat × V)) (k : Nat) :
    keys (mmodify f m k) = keys m := by
  induction m with
  | nil => simp [mmodify, keys]
  | cons e rest ih =>
    obtain ⟨k0, v0⟩ := e
    by_cases h0 : k0 = k
    · simp [mmodify, keys, h0]
    · simpa [mmodify, keys, h0] using ih

theorem mget_eq_none_iff (m : List (Nat × V)) (k : Nat) : mget m k = none ↔ k ∉ keys m := by
  induction m with
  | nil => simp [mget, keys]
  | cons e rest ih =>
    obtain ⟨k0, v0⟩ := e
    by_cases h0 : k0 = k
    · simp [mget, keys, h0]
    · have h1 : ¬ k = k0 := fun h => h0 h.symm
      simpa [mget, keys, h0, h1] using ih

theorem mget_isSome_iff (m : List (Nat × V)) (k : Nat) : (mget m k).isSome ↔ k ∈ keys m := by
  rw [← not_iff_not, ← mget_eq_none_iff]
  cases mget m k <;> simp

theorem keys_mset_of_mem (m : List (Nat × V)) {k : Nat} (v : V) (h : k ∈ keys m) :
    keys (mset m k v) = keys m := by
  induction m with
  | nil => simp [keys] at h
  | cons e rest ih =>
    obtain ⟨k0, v0⟩ := e
    by_cases h0 : k0 = k
    · simp [mset, keys, h0]
    · have h1 : ¬ k = k0 := fun h => h0 h.symm
      have h2 : k ∈ keys rest := by simpa [keys, h1] using h
      simpa [mset, keys, h0] using ih h2

theorem keys_mset_of_not_mem (m : List (Nat × V)) {k : Nat} (v : V) (h : k ∉ keys m) :
    keys (mset m k v) = keys m ++ [k] := by
  induction m with
  | nil => simp [mset, keys]
  | cons e rest ih =>
    obtain ⟨k0, v0⟩ := e
    have h1 : ¬ k = k0 := fun hk => h (by simp [keys, hk])
    have h0 : ¬ k0 = k := fun hk => h1 hk.symm
    have h2 : k ∉ keys rest := fun hk => h (by simp [keys] at hk ⊢; exact Or.inr hk)
    simpa [mset, keys, h0] using ih h2

theorem mmodify_mmodify (f g : V → V) (m : List (Nat × V)) (k : Nat) :
    mmodify f (mmodify g m k) k = mmodify (fun v => f (g v)) m k := by
  induction m with
  | nil => simp [mmodify]
  | cons e rest ih =>
    obtain ⟨k0, v0⟩ := e
    by_cases h0 : k0 = k <;> simp [mmodify, h0, ih]

theorem mmodify_of_not_mem (f : V → V) (m : List (Nat × V)) {k : Nat} (h : mget m k = none) :
    mmodify f m k = m := by
  induction m with
  | nil => simp [mmodify]
  | cons e rest ih =>
    obtain ⟨k0, v0⟩ := e
    by_cases h0 : k0 = k
    · simp [mget, h0] at h
    · simp [mget, h0] at h
      simp [mmodify, h0, ih h]

end MapLemmas

theorem ensureNode_mget_self (nodes : List (Nat × node)) (id : Nat) :
    (mget (ensureNode nodes id) id).isSome := by
  unfold ensureNode
  cases h : mget nodes id with
  | none => simp [mget_mset_self]
  | some n => simp [h]

theorem ensureNode_mget_of_isSome (nodes : List (Nat × node)) (id k : Nat)
    (h : (mget nodes k).isSome) : mget (ensureNode nodes id) k = mget nodes k := by
  unfold ensureNode
  cases h' : mget nodes id with
  | some n => rfl
  | none =>
    have : id ≠ k := by
      rintro rfl
      simp [h'] at h
    simp [mget_mset_ne _ _ this]

theorem Link_edges_mget (g : Graph) (s t : Nat) (level : String) :
    mget (Link g s t level).edges s = some (mset (edgesFrom g.edges s) t (levelWeight level)) := by
  unfold Link edgesFrom
  simp only
  cases h : mget g.edges s with
  | none => simp [mget_mmodify_self, mget_mset_self]
  | some inner => simp [mget_mmodify_self, h]

theorem Link_edgeLookup (g : Graph) (s t : Nat) (level : String) :
    edgeLookup (Link g s t level).edges s t = some (levelWeight level) := by
  unfold edgeLookup
  rw [Link_edges_mget]
  simp [mget_mset_self]

theorem mmodify_isSome {V : Type} (f : V → V) (m : List (Nat × V)) (k k' : Nat) :
    (mget (mmodify f m k) k').isSome = (mget m k').isSome := by
  by_cases h : k = k'
  · subst h; rw [mget_mmodify_self]; cases mget m k <;> rfl
  · rw [mget_mmodify_ne f m h]

/-- The node map of `Link` before the target is ensured. -/
theorem Link_nodes_eq (g : Graph) (s t : Nat) (level : String) :
    (Link g s t level).nodes =
      ensureNode (mmodify (fun n : node => ⟨n.weight, n.outbound - (edgeLookup g.edges s t).getD 0 + levelWeight level⟩) (ensureNode g.nodes s) s) t := by
  unfold Link
  simp only
  cases h : edgeLookup g.edges s t with
  | none => simp
  | some old => simp [mmodify_mmodify]

theorem Link_source_isSome (g : Graph) (s t : Nat) (level : String) :
    (mget (Link g s t level).nodes s).isSome := by
  rw [Link_nodes_eq]
  have h1 := ensureNode_mget_self g.nodes s
  have h2 : (mget (mmodify (fun n : node => ⟨n.weight, n.outbound - (edgeLookup g.edges s t).getD 0 + levelWeight level⟩) (ensureNode g.nodes s) s) s).isSome := by
    rw [mmodify_isSome]; exact h1
  rw [ensureNode_mget_of_isSome _ _ _ h2]; exact h2

theorem Link_target_isSome (g : Graph) (s t : Nat) (level : String) :
    (mget (Link g s t level).nodes t).isSome := by
  rw [Link_nodes_eq]
  exact ensureNode_mget_self _ _

theorem ensureNode_mget_of_none (nodes : List (Nat × node)) (id : Nat)
    (h : mget nodes id = none) : mget (ensureNode nodes id) id = some freshNode := by
  unfold ensureNode
  simp [h, mget_mset_self]

theorem mem_of_mget {V : Type} (m : List (Nat × V)) (k : Nat) (v : V) (h : mget m k = some v) :
    (k, v) ∈ m := by
  induction m with
  | nil => simp [mget] at h
  | cons e rest ih =>
    obtain ⟨k0, v0⟩ := e
    by_cases h0 : k0 = k
    · simp [mget, h0] at h
      simp [h0, h]
    · simp [mget, h0] at h
      exact List.mem_cons_of_mem _ (ih h)

theorem mem_edgeList_of_lookup (edges : List (Nat × List (Nat × ℚ))) (s t : Nat) (w : ℚ)
    (h : edgeLookup edges s t = some w) : (s, t, w) ∈ edgeList edges := by
  unfold edgeLookup at h
  cases hs : mget edges s with
  | none => simp [hs] at h
  | some inner =>
    simp only [hs] at h
    have h1 := mem_of_mget edges s inner hs
    have h2 := mem_of_mget inner t w h
    simp only [edgeList, List.mem_flatten, List.mem_map]
    exact ⟨_, ⟨(s, inner), h1, rfl⟩, by simpa using h2⟩

theorem Link_fresh_target (g : Graph) (s t : Nat) (level : String)
    (ht : mget g.nodes t = none) (hne : t ≠ s) :
    mget (Link g s t level).nodes t = some ⟨0, 0⟩ := by
  rw [Link_nodes_eq]
  have h1 : mget (ensureNode g.nodes s) t = none := by
    unfold ensureNode
    cases h : mget g.nodes s with
    | some n => simpa using ht
    | none => simp [mget_mset_ne _ _ (Ne.symm hne), ht]
  have h2 : mget (mmodify (fun n : node => ⟨n.weight, n.outbound -
      (edgeLookup g.edges s t).getD 0 + levelWeight level⟩) (ensureNode g.nodes s) s) t = none := by
    rw [mget_mmodify_ne _ _ (Ne.symm hne), h1]
  rw [ensureNode_mget_of_none _ _ h2]; rfl

theorem Link_fresh_source (g : Graph) (s t : Nat) (level : String)
    (hs : mget g.nodes s = none) (he : edgeLookup g.edges s t = none) :
    mget (Link g s t level).nodes s = some ⟨0, levelWeight level⟩ := by
  rw [Link_nodes_eq]
  have h1 : mget (ensureNode g.nodes s) s = some freshNode := by
    unfold ensureNode
    simp [hs, mget_mset_self]
  have h2 : mget (mmodify (fun n : node => ⟨n.weight, n.outbound -
      (edgeLookup g.edges s t).getD 0 + levelWeight level⟩) (ensureNode g.nodes s) s) s
      = some ⟨0, levelWeight level⟩ := by
    rw [mget_mmodify_self, h1, he]
    simp [freshNode]
  rw [ensureNode_mget_of_isSome _ _ _ (by rw [h2]; rfl), h2]

/-- C5: after `Link(source, target, level)` the stored weight of the edge is 1 for
    "basic", 2 for "intermediate", 4 for "advanced" and 0 for any other string; in
    every case both endpoints have node records and the edge is recorded; a node
    that `Link` creates starts with weight 0 and outbound 0, the source then
    receiving the edge weight as its outbound. -/
theorem Link_stores_tier_weight (g : Graph) (source target : Nat) (level : String) :
    (level = "basic" → edgeLookup (Link g source target level).edges source target = some 1) ∧
    (level = "intermediate" →
      edgeLookup (Link g source target level).edges source target = some 2) ∧
    (level = "advanced" → edgeLookup (Link g source target level).edges source target = some 4) ∧
    (level ≠ "basic" → level ≠ "intermediate" → level ≠ "advanced" →
      edgeLookup (Link g source target level).edges source target = some 0) ∧
    (mget (Link g source target level).nodes source).isSome ∧
    (mget (Link g source target level).nodes target).isSome ∧
    (source, target, levelWeight level) ∈ edgeList (Link g source target level).edges ∧
    (mget g.nodes target = none → target ≠ source →
      mget (Link g source target level).nodes target = some ⟨0, 0⟩) ∧
    (mget g.nodes source = none → edgeLookup g.edges source target = none →
      mget (Link g source target level).nodes source = some ⟨0, levelWeight level⟩) := by
  refine ⟨?_, ?_, ?_, ?_, Link_source_isSome g source target level,
    Link_target_isSome g source target level,
    mem_edgeList_of_lookup _ _ _ _ (Link_edgeLookup g source target level),
    Link_fresh_target g source target level, Link_fresh_source g source target level⟩
  · intro h; rw [Link_edgeLookup]; simp [levelWeight, h]
  · intro h; rw [Link_edgeLookup]; simp [levelWeight, h]
  · intro h; rw [Link_edgeLookup]; simp [levelWeight, h]
  · intro h1 h2 h3; rw [Link_edgeLookup]; simp [levelWeight, h1, h2, h3]

/-- Witness of C5: an unrecognised level on the empty graph. -/
theorem Link_stores_tier_weight_witness :
    edgeLookup (Link NewGraph 7 9 "expert").edges 7 9 = some 0 ∧
    mget (Link NewGraph 7 9 "expert").nodes 9 = some ⟨0, 0⟩ ∧
    mget (Link NewGraph 7 9 "expert").nodes 7 = some ⟨0, levelWeight "expert"⟩ ∧
    edgeLookup (Link NewGraph 7 9 "basic").edges 7 9 = some 1 :=
  ⟨(Link_stores_tier_weight NewGraph 7 9 "expert").2.2.2.1 (by decide) (by decide) (by decide),
   (Link_stores_tier_weight NewGraph 7 9 "expert").2.2.2.2.2.2.2.1 (by rfl) (by decide),
   (Link_stores_tier_weight NewGraph 7 9 "expert").2.2.2.2.2.2.2.2 (by rfl) (by rfl),
   (Link_stores_tier_weight NewGraph 7 9 "basic").1 rfl⟩

theorem mset_mset {V : Type} (m : List (Nat × V)) (k : Nat) (v w : V) :
    mset (mset m k v) k w = mset m k w := by
  induction m with
  | nil => simp [mset]
  | cons e rest ih =>
    obtain ⟨k0, v0⟩ := e
    by_cases h0 : k0 = k <;> simp [mset, h0, ih]

theorem mmodify_mset_ne {V : Type} (f : V → V) (m : List (Nat × V)) {k t : Nat} (v : V)
    (h : k ≠ t) : mmodify f (mset m t v) k = mset (mmodify f m k) t v := by
  induction m with
  | nil => simp [mset, mmodify, Ne.symm h]
  | cons e rest ih =>
    obtain ⟨k0, v0⟩ := e
    by_cases h0 : k0 = t
    · subst h0; simp [mset, mmodify, Ne.symm h]
    · by_cases h1 : k0 = k
      · simp [mset, mmodify, h0, h1, h]
      · simp [mset, mmodify, h0, h1, ih]

theorem mmodify_ensureNode_comm (f : node → node) (m : List (Nat × node)) (k t : Nat)
    (h : (mget m k).isSome) :
    mmodify f (ensureNode m t) k = ensureNode (mmodify f m k) t := by
  unfold ensureNode
  cases ht : mget m t with
  | some n =>
    have h2 : (mget (mmodify f m k) t).isSome := by rw [mmodify_isSome, ht]; rfl
    obtain ⟨n', hn'⟩ := Option.isSome_iff_exists.mp h2
    simp [hn']
  | none =>
    have hne : k ≠ t := by
      rintro rfl
      simp [ht] at h
    have h2 : mget (mmodify f m k) t = none := by rw [mget_mmodify_ne f m hne, ht]
    simp [h2, mmodify_mset_ne f m _ hne]

theorem ensureNode_of_isSome (m : List (Nat × node)) (k : Nat) (h : (mget m k).isSome) :
    ensureNode m k = m := by
  unfold ensureNode
  obtain ⟨n, hn⟩ := Option.isSome_iff_exists.mp h
  simp [hn]

theorem Link_edges_eq (g : Graph) (s t : Nat) (level : String) :
    (Link g s t level).edges =
      mmodify (fun inner => mset inner t (levelWeight level))
        (match mget g.edges s with
          | some _ => g.edges
          | none => mset g.edges s []) s := rfl

theorem Link_Link_edges (g : Graph) (s t : Nat) (l1 l2 : String) :
    (Link (Link g s t l1) s t l2).edges = (Link g s t l2).edges := by
  rw [Link_edges_eq (Link g s t l1), Link_edges_mget]
  simp only
  rw [Link_edges_eq g s t l1, mmodify_mmodify, Link_edges_eq g s t l2]
  simp only [mset_mset]

theorem Link_Link_nodes (g : Graph) (s t : Nat) (l1 l2 : String) :
    (Link (Link g s t l1) s t l2).nodes = (Link g s t l2).nodes := by
  rw [Link_nodes_eq (Link g s t l1), Link_edgeLookup,
    ensureNode_of_isSome _ s (Link_source_isSome g s t l1),
    ensureNode_of_isSome _ t (by rw [mmodify_isSome]; exact Link_target_isSome g s t l1),
    Link_nodes_eq g s t l1, Link_nodes_eq g s t l2,
    mmodify_ensureNode_comm _ _ _ _ (by rw [mmodify_isSome]; exact ensureNode_mget_self _ _),
    mmodify_mmodify]
  congr 2
  funext n
  simp

/-- Applying `Link` twice to one pair is the same as applying the second `Link` alone. -/
theorem Link_Link (g : Graph) (s t : Nat) (l1 l2 : String) :
    Link (Link g s t l1) s t l2 = Link g s t l2 := by
  have h1 := Link_Link_edges g s t l1 l2
  have h2 := Link_Link_nodes g s t l1 l2
  cases hA : Link (Link g s t l1) s t l2
  cases hB : Link g s t l2
  simp_all

theorem keys_mset_nodup {V : Type} (m : List (Nat × V)) (k : Nat) (v : V)
    (h : (keys m).Nodup) : (keys (mset m k v)).Nodup := by
  by_cases hk : k ∈ keys m
  · rw [keys_mset_of_mem m v hk]; exact h
  · rw [keys_mset_of_not_mem m v hk]
    exact List.Nodup.append h (List.nodup_singleton k) (by simpa using hk)

theorem mem_mset {V : Type} (m : List (Nat × V)) (k : Nat) (v : V) (e : Nat × V)
    (h : e ∈ mset m k v) : e ∈ m ∨ e = (k, v) := by
  induction m with
  | nil => simpa [mset] using h
  | cons e0 rest ih =>
    obtain ⟨k0, v0⟩ := e0
    by_cases h0 : k0 = k
    · simp [mset, h0] at h
      rcases h with h | h
      · exact Or.inr h
      · exact Or.inl (List.mem_cons_of_mem _ h)
    · simp [mset, h0] at h
      rcases h with h | h
      · exact Or.inl (by simp [h])
      · rcases ih h with h' | h'
        · exact Or.inl (List.mem_cons_of_mem _ h')
        · exact Or.inr h'

theorem mem_mmodify {V : Type} (f : V → V) (m : List (Nat × V)) (k : Nat) (e : Nat × V)
    (h : e ∈ mmodify f m k) : e ∈ m ∨ ∃ v, (k, v) ∈ m ∧ e = (k, f v) := by
  induction m with
  | nil => simp [mmodify] at h
  | cons e0 rest ih =>
    obtain ⟨k0, v0⟩ := e0
    by_cases h0 : k0 = k
    · simp [mmodify, h0] at h
      rcases h with h | h
      · exact Or.inr ⟨v0, by simp [h0], h⟩
      · exact Or.inl (List.mem_cons_of_mem _ h)
    · simp [mmodify, h0] at h
      rcases h with h | h
      · exact Or.inl (by simp [h])
      · rcases ih h with h' | ⟨v, hv, he⟩
        · exact Or.inl (List.mem_cons_of_mem _ h')
        · exact Or.inr ⟨v, List.mem_cons_of_mem _ hv, he⟩

theorem ensureNode_keys_nodup (m : List (Nat × node)) (k : Nat) (h : (keys m).Nodup) :
    (keys (ensureNode m k)).Nodup := by
  unfold ensureNode
  cases mget m k with
  | some n => exact h
  | none => exact keys_mset_nodup m k _ h

/-- `Link` keeps every map of the graph free of repeated keys. -/
theorem Link_WF (g : Graph) (s t : Nat) (level : String) (h : g.WF) :
    (Link g s t level).WF := by
  obtain ⟨hn, he, hi⟩ := h
  refine ⟨?_, ?_, ?_⟩
  · rw [Link_nodes_eq]
    apply ensureNode_keys_nodup
    rw [keys_mmodify]
    exact ensureNode_keys_nodup _ _ hn
  · rw [Link_edges_eq, keys_mmodify]
    cases mget g.edges s with
    | some inner => exact he
    | none => exact keys_mset_nodup _ _ _ he
  · intro e hmem
    rw [Link_edges_eq] at hmem
    have hbase : ∀ e' ∈ (match mget g.edges s with
          | some _ => g.edges
          | none => mset g.edges s []), (keys e'.2).Nodup := by
      intro e' he'
      cases hs : mget g.edges s with
      | some inner => rw [hs] at he'; exact hi e' he'
      | none =>
        rw [hs] at he'
        rcases mem_mset _ _ _ _ he' with h1 | h1
        · exact hi e' h1
        · subst h1; simp [keys]
    rcases mem_mmodify _ _ _ _ hmem with h1 | ⟨v, hv, rfl⟩
    · exact hbase e h1
    · exact keys_mset_nodup _ _ _ (hbase _ hv)

theorem NewGraph_WF : NewGraph.WF := by
  simp [Graph.WF, NewGraph, keys]

theorem linkAll_WF (calls : List LinkCall) (g : Graph) (h : g.WF) : (linkAll g calls).WF := by
  induction calls generalizing g with
  | nil => exact h
  | cons c rest ih => exact ih _ (Link_WF g c.source c.target c.level h)

theorem build_WF (calls : List LinkCall) : (build calls).WF := linkAll_WF calls _ NewGraph_WF

theorem filter_key_eq_nil {V : Type} (m : List (Nat × V)) (k : Nat) (h : k ∉ keys m) :
    m.filter (fun e => e.1 = k) = [] := by
  rw [List.filter_eq_nil_iff]
  intro e he hk
  apply h
  simp only [decide_eq_true_eq] at hk
  rw [← hk]
  exact List.mem_map_of_mem Prod.fst he

theorem filter_key_eq_single {V : Type} (m : List (Nat × V)) (k : Nat) (v : V)
    (hn : (keys m).Nodup) (h : mget m k = some v) :
    m.filter (fun e => e.1 = k) = [(k, v)] := by
  induction m with
  | nil => simp [mget] at h
  | cons e rest ih =>
    obtain ⟨k0, v0⟩ := e
    have hn' : k0 ∉ keys rest ∧ (keys rest).Nodup := by simpa [keys] using hn
    by_cases h0 : k0 = k
    · subst h0
      simp [mget] at h
      subst h
      simp [List.filter_cons, filter_key_eq_nil rest k0 hn'.1]
    · simp [mget, h0] at h
      simp [List.filter_cons, h0, ih hn'.2 h]

theorem edgeList_cons (e : Nat × List (Nat × ℚ)) (rest : List (Nat × List (Nat × ℚ))) :
    edgeList (e :: rest) = e.2.map (fun f => (e.1, f.1, f.2)) ++ edgeList rest := by
  simp [edgeList]

theorem mem_edgeList (edges : List (Nat × List (Nat × ℚ))) (x : Nat × Nat × ℚ) :
    x ∈ edgeList edges ↔ ∃ inner, (x.1, inner) ∈ edges ∧ (x.2.1, x.2.2) ∈ inner := by
  obtain ⟨a, b, c⟩ := x
  simp only [edgeList, List.mem_flatten, List.mem_map]
  constructor
  · rintro ⟨l, ⟨e, he, rfl⟩, hx⟩
    simp only [List.mem_map] at hx
    obtain ⟨f, hf, hfe⟩ := hx
    simp only [Prod.mk.injEq] at hfe
    obtain ⟨h1, h2, h3⟩ := hfe
    subst h1 h2 h3
    exact ⟨e.2, he, hf⟩
  · rintro ⟨inner, h1, h2⟩
    exact ⟨_, ⟨(a, inner), h1, rfl⟩, by simpa using h2⟩

/-- In a graph whose maps hold no key twice, a stored edge is stored exactly once. -/
theorem filter_edgeList_single (edges : List (Nat × List (Nat × ℚ))) (s t : Nat) (w : ℚ)
    (hn : (keys edges).Nodup) (hi : ∀ e ∈ edges, (keys e.2).Nodup)
    (h : edgeLookup edges s t = some w) :
    (edgeList edges).filter (fun e => e.1 = s ∧ e.2.1 = t) = [(s, t, w)] := by
  induction edges with
  | nil => simp [edgeLookup, mget] at h
  | cons e rest ih =>
    obtain ⟨k0, inner⟩ := e
    have hn' : k0 ∉ keys rest ∧ (keys rest).Nodup := by simpa [keys] using hn
    rw [edgeList_cons, List.filter_append]
    by_cases h0 : k0 = s
    · subst h0
      have hin : mget inner t = some w := by simpa [edgeLookup, mget] using h
      have hrest : (edgeList rest).filter (fun e => e.1 = k0 ∧ e.2.1 = t) = [] := by
        rw [List.filter_eq_nil_iff]
        intro x hx hP
        simp only [decide_eq_true_eq] at hP
        obtain ⟨inner', hmem, _⟩ := (mem_edgeList rest x).mp hx
        apply hn'.1
        rw [← hP.1]
        exact List.mem_map_of_mem Prod.fst hmem
      rw [hrest, List.filter_map]
      have hf := filter_key_eq_single inner t w (hi _ (List.mem_cons_self _ _)) hin
      have : (List.filter ((fun e : Nat × Nat × ℚ => decide (e.1 = k0 ∧ e.2.1 = t)) ∘
          fun f : Nat × ℚ => (k0, f.1, f.2)) inner) = inner.filter (fun e => e.1 = t) := by
        congr 1
        funext f
        simp
      rw [this, hf]
      simp
    · have hin : edgeLookup rest s t = some w := by simpa [edgeLookup, mget, h0] using h
      have hhead : (List.map (fun f : Nat × ℚ => (k0, f.1, f.2)) inner).filter
          (fun e => e.1 = s ∧ e.2.1 = t) = [] := by
        rw [List.filter_eq_nil_iff]
        intro x hx hP
        simp only [decide_eq_true_eq] at hP
        simp only [List.mem_map] at hx
        obtain ⟨f, _, rfl⟩ := hx
        exact h0 hP.1
      rw [hhead, ih hn'.2 (fun e he => hi e (List.mem_cons_of_mem _ he)) hin]
      simp

theorem Link_outboundOf (g : Graph) (s t : Nat) (level : String) :
    outboundOf (Link g s t level).nodes s =
      outboundOf g.nodes s - edgeWeight g.edges s t + levelWeight level := by
  have h2 : (mget (mmodify (fun n : node => ⟨n.weight, n.outbound -
      (edgeLookup g.edges s t).getD 0 + levelWeight level⟩) (ensureNode g.nodes s) s) s).isSome := by
    rw [mmodify_isSome]; exact ensureNode_mget_self _ _
  unfold outboundOf edgeWeight
  rw [Link_nodes_eq, ensureNode_mget_of_isSome _ _ _ h2, mget_mmodify_self]
  cases hs : mget g.nodes s with
  | none => rw [ensureNode_mget_of_none _ _ hs]; simp [freshNode]
  | some n => rw [ensureNode_of_isSome _ _ (by rw [hs]; rfl), hs]; simp

theorem ensureNode_mget (m : List (Nat × node)) (id k : Nat) :
    mget (ensureNode m id) k =
      if k = id then some ((mget m id).getD freshNode) else mget m k := by
  by_cases h : k = id
  · subst h
    cases hk : mget m k with
    | none => simp [ensureNode_mget_of_none _ _ hk]
    | some n => rw [ensureNode_of_isSome _ _ (by rw [hk]; rfl)]; simp [hk]
  · simp only [h, if_false]
    unfold ensureNode
    cases hid : mget m id with
    | some n => rfl
    | none => simp [mget_mset_ne _ _ (Ne.symm h)]

theorem Link_nodes_mget_source (g : Graph) (s t : Nat) (level : String) :
    mget (Link g s t level).nodes s =
      some ⟨((mget g.nodes s).getD freshNode).weight,
        ((mget g.nodes s).getD freshNode).outbound - (edgeLookup g.edges s t).getD 0 +
          levelWeight level⟩ := by
  have h2 : (mget (mmodify (fun n : node => ⟨n.weight, n.outbound -
      (edgeLookup g.edges s t).getD 0 + levelWeight level⟩) (ensureNode g.nodes s) s) s).isSome := by
    rw [mmodify_isSome]; exact ensureNode_mget_self _ _
  rw [Link_nodes_eq, ensureNode_mget_of_isSome _ _ _ h2, mget_mmodify_self, ensureNode_mget]
  simp

theorem Link_nodes_mget_ne (g : Graph) (s t : Nat) (level : String) {k : Nat} (h : k ≠ s) :
    mget (Link g s t level).nodes k =
      if k = t then some ((mget g.nodes t).getD freshNode) else mget g.nodes k := by
  rw [Link_nodes_eq, ensureNode_mget]
  by_cases hk : k = t
  · subst hk
    simp only [if_true]
    rw [mget_mmodify_ne _ _ (Ne.symm h), ensureNode_mget]
    simp [h]
  · simp only [hk, if_false]
    rw [mget_mmodify_ne _ _ (Ne.symm h), ensureNode_mget]
    simp [h]

theorem Link_nodes_isSome_mono (g : Graph) (s t : Nat) (level : String) (k : Nat)
    (h : (mget g.nodes k).isSome) : (mget (Link g s t level).nodes k).isSome := by
  by_cases hk : k = s
  · subst hk; exact Link_source_isSome g k t level
  · rw [Link_nodes_mget_ne g s t level hk]
    by_cases ht : k = t
    · simp [ht]
    · simpa [ht] using h

theorem Link_edgesFrom_source (g : Graph) (s t : Nat) (level : String) :
    edgesFrom (Link g s t level).edges s = mset (edgesFrom g.edges s) t (levelWeight level) := by
  rw [edgesFrom, Link_edges_mget]; rfl

theorem Link_edges_mget_ne (g : Graph) (s t : Nat) (level : String) {k : Nat} (h : k ≠ s) :
    mget (Link g s t level).edges k = mget g.edges k := by
  rw [Link_edges_eq, mget_mmodify_ne _ _ (Ne.symm h)]
  cases mget g.edges s with
  | some inner => rfl
  | none => exact mget_mset_ne _ _ (Ne.symm h)

theorem Link_edgesFrom_ne (g : Graph) (s t : Nat) (level : String) {k : Nat} (h : k ≠ s) :
    edgesFrom (Link g s t level).edges k = edgesFrom g.edges k := by
  rw [edgesFrom, Link_edges_mget_ne g s t level h]; rfl

theorem edgeSum_mset (inner : List (Nat × ℚ)) (t : Nat) (w : ℚ) :
    edgeSum (mset inner t w) = edgeSum inner - (mget inner t).getD 0 + w := by
  induction inner with
  | nil => simp [mset, mget, edgeSum]
  | cons e rest ih =>
    obtain ⟨k0, v0⟩ := e
    by_cases h0 : k0 = t
    · simp [mset, mget, edgeSum, h0]; ring
    · simp only [edgeSum] at ih
      simp [mset, mget, edgeSum, h0, ih]; ring

theorem edgeLookup_eq_mget_edgesFrom (edges : List (Nat × List (Nat × ℚ))) (s t : Nat) :
    edgeLookup edges s t = mget (edgesFrom edges s) t := by
  unfold edgeLookup edgesFrom
  cases mget edges s <;> simp [mget]

/-- `Link` keeps the graph closed: keys and targets of the adjacency have node records. -/
theorem Link_Closed (g : Graph) (s t : Nat) (level : String) (h : g.Closed) :
    (Link g s t level).Closed := by
  have hbase : ∀ e ∈ (match mget g.edges s with
        | some _ => g.edges
        | none => mset g.edges s []),
      (mget (Link g s t level).nodes e.1).isSome ∧
        ∀ f ∈ e.2, (mget (Link g s t level).nodes f.1).isSome := by
    intro e he
    have hold : ∀ e' ∈ g.edges, (mget (Link g s t level).nodes e'.1).isSome ∧
        ∀ f ∈ e'.2, (mget (Link g s t level).nodes f.1).isSome := fun e' he' =>
      ⟨Link_nodes_isSome_mono _ _ _ _ _ (h e' he').1,
        fun f hf => Link_nodes_isSome_mono _ _ _ _ _ ((h e' he').2 f hf)⟩
    cases hs : mget g.edges s with
    | some inner => rw [hs] at he; exact hold e he
    | none =>
      rw [hs] at he
      rcases mem_mset _ _ _ _ he with h1 | h1
      · exact hold e h1
      · subst h1
        exact ⟨Link_source_isSome g s t level, by simp⟩
  intro e he
  rw [Link_edges_eq] at he
  rcases mem_mmodify _ _ _ _ he with h1 | ⟨inner, hv, rfl⟩
  · exact hbase e h1
  · refine ⟨Link_source_isSome g s t level, ?_⟩
    intro f hf
    rcases mem_mset _ _ _ _ hf with h1 | h1
    · exact (hbase _ hv).2 f h1
    · subst h1; exact Link_target_isSome g s t level

theorem edgesFrom_of_absent (g : Graph) (h : g.Closed) (k : Nat) (hk : mget g.nodes k = none) :
    edgesFrom g.edges k = [] := by
  unfold edgesFrom
  cases he : mget g.edges k with
  | none => rfl
  | some inner =>
    have := (h _ (mem_of_mget _ _ _ he)).1
    simp [hk] at this

/-- `Link` keeps the outbound invariant of a closed graph. -/
theorem Link_OutboundInv (g : Graph) (s t : Nat) (level : String) (hc : g.Closed)
    (h : OutboundInv g) : OutboundInv (Link g s t level) := by
  intro k n hk
  by_cases hks : k = s
  · subst hks
    rw [Link_nodes_mget_source] at hk
    rw [Link_edgesFrom_source, edgeSum_mset, ← edgeLookup_eq_mget_edgesFrom]
    have hob : ((mget g.nodes k).getD freshNode).outbound = edgeSum (edgesFrom g.edges k) := by
      cases hn : mget g.nodes k with
      | none => simp [edgesFrom_of_absent g hc k hn, freshNode, edgeSum]
      | some n0 => simpa using h k n0 hn
    simp only [Option.some.injEq] at hk
    rw [← hk]
    simp [hob]
  · rw [Link_nodes_mget_ne g s t level hks] at hk
    rw [Link_edgesFrom_ne g s t level hks]
    by_cases hkt : k = t
    · subst hkt
      simp only [if_true, Option.some.injEq] at hk
      cases hn : mget g.nodes k with
      | none =>
        rw [hn] at hk
        simp [← hk, edgesFrom_of_absent g hc k hn, freshNode, edgeSum]
      | some n0 =>
        rw [hn] at hk
        simp only [Option.getD_some] at hk
        rw [← hk]; exact h k n0 hn
    · simp only [hkt, if_false] at hk
      exact h k n hk

theorem NewGraph_Closed : NewGraph.Closed := by
  simp [Graph.Closed, NewGraph]

theorem NewGraph_OutboundInv : OutboundInv NewGraph := by
  intro s n h
  simp [NewGraph, mget] at h

theorem linkAll_Closed (calls : List LinkCall) (g : Graph) (h : g.Closed) :
    (linkAll g calls).Closed := by
  induction calls generalizing g with
  | nil => exact h
  | cons c rest ih => exact ih _ (Link_Closed g c.source c.target c.level h)

theorem linkAll_OutboundInv (calls : List LinkCall) (g : Graph) (hc : g.Closed)
    (h : OutboundInv g) : OutboundInv (linkAll g calls) := by
  induction calls generalizing g with
  | nil => exact h
  | cons c rest ih =>
    exact ih _ (Link_Closed g c.source c.target c.level hc)
      (Link_OutboundInv g c.source c.target c.level hc h)

theorem build_Closed (calls : List LinkCall) : (build calls).Closed :=
  linkAll_Closed calls _ NewGraph_Closed

theorem build_OutboundInv (calls : List LinkCall) : OutboundInv (build calls) :=
  linkAll_OutboundInv calls _ NewGraph_Closed NewGraph_OutboundInv

/-- C7: after any sequence of `Link` calls on the empty graph (repeated pairs,
    self-links and unrecognised levels included), the `outbound` of every node is
    the sum of the stored weights of the edges leaving it, and it is 0 for a node
    with no outgoing edge. -/
theorem outbound_invariant_under_Link (calls : List LinkCall) (s : Nat) (n : node)
    (h : mget (build calls).nodes s = some n) :
    n.outbound = edgeSum (edgesFrom (build calls).edges s) ∧
    (edgesFrom (build calls).edges s = [] → n.outbound = 0) := by
  have h1 := build_OutboundInv calls s n h
  refine ⟨h1, fun h0 => ?_⟩
  rw [h1, h0]; rfl

/-- Witness of C7: a repeated pair, a self-link and an unrecognised level. -/
theorem outbound_invariant_under_Link_witness :
    mget (build [⟨1, 2, "basic"⟩, ⟨1, 2, "advanced"⟩, ⟨1, 1, "intermediate"⟩,
        ⟨1, 3, "guru"⟩]).nodes 1 = some ⟨0, 6⟩ ∧
    ((6 : ℚ) = edgeSum (edgesFrom (build [⟨1, 2, "basic"⟩, ⟨1, 2, "advanced"⟩,
        ⟨1, 1, "intermediate"⟩, ⟨1, 3, "guru"⟩]).edges 1) ∧
      (edgesFrom (build [⟨1, 2, "basic"⟩, ⟨1, 2, "advanced"⟩,
        ⟨1, 1, "intermediate"⟩, ⟨1, 3, "guru"⟩]).edges 1 = [] → (6 : ℚ) = 0)) :=
  have h : mget (build [⟨1, 2, "basic"⟩, ⟨1, 2, "advanced"⟩, ⟨1, 1, "intermediate"⟩,
        ⟨1, 3, "guru"⟩]).nodes 1 = some ⟨0, 6⟩ := by
    simp [build, linkAll, Link, NewGraph, ensureNode, mget, mset, mmodify, edgeLookup,
      freshNode, levelWeight]
    norm_num
  ⟨h, outbound_invariant_under_Link _ 1 ⟨0, 6⟩ h⟩

theorem mmodify_eq_map {V : Type} (f : V → V) (m : List (Nat × V)) (k : Nat)
    (hn : (keys m).Nodup) :
    mmodify f m k = m.map (fun e => if e.1 = k then (e.1, f e.2) else e) := by
  induction m with
  | nil => simp [mmodify]
  | cons e rest ih =>
    obtain ⟨k0, v0⟩ := e
    have hn' : k0 ∉ keys rest ∧ (keys rest).Nodup := by simpa [keys] using hn
    by_cases h0 : k0 = k
    · subst h0
      have hid : rest.map (fun e => if e.1 = k0 then (e.1, f e.2) else e) = rest := by
        conv_rhs => rw [← List.map_id rest]
        apply List.map_congr_left
        intro e he
        have : e.1 ≠ k0 := fun h => hn'.1 (h ▸ List.mem_map_of_mem Prod.fst he)
        simp [this]
      simp [mmodify, hid]
    · simp [mmodify, h0, ih hn'.2]

theorem keys_bump (d : Nat → ℚ) (ns : List (Nat × node)) : keys (bump d ns) = keys ns := by
  simp [bump, keys, List.map_map, Function.comp_def]

theorem bump_bump (d1 d2 : Nat → ℚ) (ns : List (Nat × node)) :
    bump d1 (bump d2 ns) = bump (fun k => d2 k + d1 k) ns := by
  simp [bump, List.map_map, Function.comp_def, add_assoc]

theorem bump_congr (d1 d2 : Nat → ℚ) (ns : List (Nat × node))
    (h : ∀ k ∈ keys ns, d1 k = d2 k) : bump d1 ns = bump d2 ns := by
  unfold bump
  apply List.map_congr_left
  intro e he
  rw [h e.1 (List.mem_map_of_mem Prod.fst he)]

theorem addWeight_eq (ns : List (Nat × node)) (k : Nat) (x : ℚ)
    (hn : (keys ns).Nodup) (hk : k ∈ keys ns) :
    addWeight ns k x = some (bump (fun j => if j = k then x else 0) ns) := by
  unfold addWeight nodeUpdate
  obtain ⟨n, hn'⟩ := Option.isSome_iff_exists.mp ((mget_isSome_iff ns k).mpr hk)
  rw [hn', mmodify_eq_map _ _ _ hn]
  simp only [bump, Option.some.injEq]
  apply List.map_congr_left
  intro e _
  by_cases h : e.1 = k <;> simp [h]

theorem spread_eq (alpha p : ℚ) (inner : List (Nat × ℚ)) (ns : List (Nat × node))
    (hn : (keys ns).Nodup) (hin : ∀ f ∈ inner, f.1 ∈ keys ns) :
    spread alpha p inner ns = some (bump (fun k => alpha * p * inflow inner k) ns) := by
  induction inner generalizing ns with
  | nil =>
    simp only [spread, inflow, List.map_nil, List.sum_nil, mul_zero, Option.some.injEq]
    simp [bump]
  | cons f rest ih =>
    obtain ⟨t, w⟩ := f
    have ht : t ∈ keys ns := hin (t, w) (List.mem_cons_self _ _)
    have hrest : ∀ f ∈ rest, f.1 ∈ keys ns := fun f hf => hin f (List.mem_cons_of_mem _ hf)
    simp only [spread]
    rw [addWeight_eq ns t _ hn ht, Option.some_bind,
      ih _ (by rw [keys_bump]; exact hn) (by rw [keys_bump]; exact hrest), bump_bump]
    congr 2
    funext k
    by_cases h : k = t
    · subst h; simp [inflow]; ring
    · have h' : ¬ t = k := fun e => h e.symm
      simp [inflow, h, h']

theorem distribute_eq (alpha inverse leak : ℚ) (edges : List (Nat × List (Nat × ℚ)))
    (prev : List (Nat × ℚ)) (sources : List Nat) (ns : List (Nat × node))
    (hn : (keys ns).Nodup)
    (hs : ∀ s ∈ sources, s ∈ keys ns ∧ ∀ f ∈ edgesFrom edges s, f.1 ∈ keys ns) :
    distribute alpha inverse leak edges prev sources ns =
      some (bump (fun k => (sources.map (fun s =>
        alpha * prevOf prev s * inflow (edgesFrom edges s) k +
          (if k = s then (1 - alpha) * inverse + leak * inverse else 0))).sum) ns) := by
  induction sources generalizing ns with
  | nil =>
    simp only [distribute, List.map_nil, List.sum_nil, Option.some.injEq]
    simp [bump]
  | cons s rest ih =>
    have h1 := hs s (List.mem_cons_self _ _)
    have hrest : ∀ s' ∈ rest, s' ∈ keys ns ∧ ∀ f ∈ edgesFrom edges s', f.1 ∈ keys ns :=
      fun s' hs' => hs s' (List.mem_cons_of_mem _ hs')
    simp only [distribute]
    rw [spread_eq _ _ _ _ hn h1.2, Option.some_bind,
      addWeight_eq _ s _ (by rw [keys_bump]; exact hn) (by rw [keys_bump]; exact h1.1),
      Option.some_bind, bump_bump,
      ih _ (by rw [keys_bump]; exact hn) (by rw [keys_bump]; exact hrest), bump_bump]
    rfl

theorem inflow_eq_getD (inner : List (Nat × ℚ)) (k : Nat) (hn : (keys inner).Nodup) :
    inflow inner k = (mget inner k).getD 0 := by
  induction inner with
  | nil => simp [inflow, mget]
  | cons f rest ih =>
    obtain ⟨t, w⟩ := f
    have hn' : t ∉ keys rest ∧ (keys rest).Nodup := by simpa [keys] using hn
    have ih' := ih hn'.2
    simp only [inflow] at ih'
    by_cases h : t = k
    · subst h
      have : mget rest t = none := (mget_eq_none_iff rest t).mpr hn'.1
      rw [this] at ih'
      simp only [Option.getD_none] at ih'
      simp [inflow, mget, ih']
    · simp [inflow, mget, h, ih']

theorem sum_ite_eq_of_nodup (l : List Nat) (k : Nat) (c : ℚ) (hn : l.Nodup) (hk : k ∈ l) :
    (l.map (fun s => if k = s then c else 0)).sum = c := by
  induction l with
  | nil => simp at hk
  | cons a rest ih =>
    have hn' : a ∉ rest ∧ rest.Nodup := by simpa using hn
    by_cases h : k = a
    · subst h
      have hz : (rest.map (fun s => if k = s then c else 0)).sum = 0 := by
        apply List.sum_eq_zero
        intro x hx
        simp only [List.mem_map] at hx
        obtain ⟨s, hs, rfl⟩ := hx
        have : k ≠ s := fun e => hn'.1 (e ▸ hs)
        simp [this]
      simp [hz]
    · have hk' : k ∈ rest := by simpa [h] using hk
      simp [h, ih hn'.2 hk']

theorem leakSum_eq_filter (ns : List (Nat × node)) :
    leakSum ns = ((ns.filter (fun e => e.2.outbound = 0)).map (fun e => e.2.weight)).sum := by
  induction ns with
  | nil => simp [leakSum]
  | cons e rest ih =>
    simp only [leakSum] at ih
    by_cases h : e.2.outbound = 0
    · simp [leakSum, List.filter_cons, h, ih]
    · simp [leakSum, List.filter_cons, h, ih]

theorem mget_snapshot (ns : List (Nat × node)) (k : Nat) :
    mget (snapshot ns) k = (mget ns k).map node.weight := by
  induction ns with
  | nil => simp [snapshot, mget]
  | cons e rest ih =>
    obtain ⟨k0, n0⟩ := e
    simp only [snapshot] at ih
    by_cases h : k0 = k <;> simp [snapshot, mget, h, ih]

theorem prevOf_snapshot (ns : List (Nat × node)) (k : Nat) :
    prevOf (snapshot ns) k = weightOf ns k := by
  simp [prevOf, weightOf, mget_snapshot]

theorem keys_zeroWeights (ns : List (Nat × node)) : keys (zeroWeights ns) = keys ns := by
  simp [zeroWeights, keys, List.map_map, Function.comp_def]

theorem edgesFrom_nodup (g : Graph) (hwf : g.WF) (s : Nat) : (keys (edgesFrom g.edges s)).Nodup := by
  unfold edgesFrom
  cases h : mget g.edges s with
  | none => simp [keys]
  | some inner => exact hwf.2.2 _ (mem_of_mget _ _ _ h)

theorem edgesFrom_targets (g : Graph) (hep : EndpointsPresent g) (s : Nat) :
    ∀ f ∈ edgesFrom g.edges s, f.1 ∈ keys g.nodes := by
  intro f hf
  unfold edgesFrom at hf
  cases h : mget g.edges s with
  | none => simp [h] at hf
  | some inner =>
    simp only [h, Option.getD_some] at hf
    have hm : (s, f.1, f.2) ∈ edgeList g.edges :=
      (mem_edgeList g.edges (s, f.1, f.2)).mpr ⟨inner, mem_of_mget _ _ _ h, hf⟩
    exact (mget_isSome_iff _ _).mp (hep _ hm).2

theorem rankStep_eq (alpha : ℚ) (g : Graph) (hwf : g.WF) (hep : EndpointsPresent g) :
    rankStep alpha (inverseOf g) g =
      some (⟨g.edges, stepNodes alpha g⟩, l1Change (snapshot g.nodes) (stepNodes alpha g)) := by
  unfold rankStep
  simp only
  rw [distribute_eq _ _ _ _ _ _ _ (by rw [keys_zeroWeights]; exact hwf.1)
    (by
      intro s hs
      rw [keys_zeroWeights]
      exact ⟨hs, edgesFrom_targets g hep s⟩)]
  simp only [Option.map_some']
  have hnodes : bump (fun k => ((keys g.nodes).map (fun s =>
        alpha * prevOf (snapshot g.nodes) s * inflow (edgesFrom g.edges s) k +
          (if k = s then (1 - alpha) * inverseOf g + leakSum g.nodes * alpha * inverseOf g
            else 0))).sum) (zeroWeights g.nodes) = stepNodes alpha g := by
    unfold bump zeroWeights stepNodes
    rw [List.map_map]
    apply List.map_congr_left
    intro e he
    have hk : e.1 ∈ keys g.nodes := List.mem_map_of_mem Prod.fst he
    simp only [Function.comp_apply, zero_add, Prod.mk.injEq, true_and, node.mk.injEq, and_true]
    rw [List.sum_map_add, sum_ite_eq_of_nodup _ _ _ hwf.1 hk]
    unfold specWeight
    rw [← leakSum_eq_filter]
    have h1 : ((keys g.nodes).map (fun s =>
        alpha * prevOf (snapshot g.nodes) s * inflow (edgesFrom g.edges s) e.1)).sum =
        alpha * ((keys g.nodes).map (fun s =>
          weightOf g.nodes s * edgeWeight g.edges s e.1)).sum := by
      rw [← List.sum_map_mul_left]
      congr 1
      apply List.map_congr_left
      intro s _
      rw [prevOf_snapshot, inflow_eq_getD _ _ (edgesFrom_nodup g hwf s), edgeWeight,
        edgeLookup_eq_mget_edgesFrom]
      ring
    rw [h1]
    simp only [inverseOf]
    ring
  rw [hnodes]

theorem mget_map_val {V W : Type} (F : Nat → V → W) (m : List (Nat × V)) (k : Nat) :
    mget (m.map (fun e => (e.1, F e.1 e.2))) k = (mget m k).map (F k) := by
  induction m with
  | nil => simp [mget]
  | cons e rest ih =>
    obtain ⟨k0, v0⟩ := e
    by_cases h : k0 = k
    · subst h; simp [mget]
    · simp [mget, h, ih]

theorem keys_stepNodes (alpha : ℚ) (g : Graph) : keys (stepNodes alpha g) = keys g.nodes := by
  simp [stepNodes, keys, List.map_map, Function.comp_def]

theorem mget_stepNodes (alpha : ℚ) (g : Graph) (k : Nat) :
    mget (stepNodes alpha g) k =
      (mget g.nodes k).map (fun n => ⟨specWeight alpha g k, n.outbound⟩) :=
  mget_map_val (fun k (n : node) => (⟨specWeight alpha g k, n.outbound⟩ : node)) g.nodes k

/-- C1: in a graph whose maps hold no key twice and in which every edge endpoint has
    a node record, one pass of the body of the loop of `Rank` succeeds, keeps the edges,
    the node ids and every `outbound`, and leaves for every node `t`
    `weight[t] = alpha * (sum over s of prev[s] * w(s,t)) + (1 - alpha)/N
      + alpha * (sum of prev[d] over the nodes d with outbound[d] = 0)/N`,
    where `prev` are the weights before the pass and `N` is the node count. -/
theorem rankStep_weight_formula (g : Graph) (alpha : ℚ) (hwf : g.WF)
    (hep : EndpointsPresent g) :
    ∃ g' delta, rankStep alpha (1 / (g.nodes.length : ℚ)) g = some (g', delta) ∧
      g'.edges = g.edges ∧ keys g'.nodes = keys g.nodes ∧
      ∀ t n, mget g.nodes t = some n →
        mget g'.nodes t = some ⟨
          alpha * ((keys g.nodes).map
              (fun s => weightOf g.nodes s * edgeWeight g.edges s t)).sum
            + (1 - alpha) / (g.nodes.length : ℚ)
            + alpha * ((g.nodes.filter (fun e => e.2.outbound = 0)).map
                (fun e => e.2.weight)).sum / (g.nodes.length : ℚ),
          n.outbound⟩ := by
  refine ⟨⟨g.edges, stepNodes alpha g⟩, _, rankStep_eq alpha g hwf hep, rfl,
    keys_stepNodes alpha g, ?_⟩
  intro t n ht
  simp only [mget_stepNodes, ht, Option.map_some', specWeight]

/-- Witness of C1: two nodes, one edge, weights one half each. -/
theorem rankStep_weight_formula_witness :
    ∃ g' delta, rankStep (1 / 2)
        (1 / ((⟨[(1, [(2, 1)])], [(1, ⟨1 / 2, 1⟩), (2, ⟨1 / 2, 0⟩)]⟩ : Graph).nodes.length : ℚ))
        ⟨[(1, [(2, 1)])], [(1, ⟨1 / 2, 1⟩), (2, ⟨1 / 2, 0⟩)]⟩ = some (g', delta) ∧
      mget g'.nodes 2 = some ⟨5 / 8, 0⟩ := by
  obtain ⟨g', delta, h1, _, _, h4⟩ := rankStep_weight_formula
    ⟨[(1, [(2, 1)])], [(1, ⟨1 / 2, 1⟩), (2, ⟨1 / 2, 0⟩)]⟩ (1 / 2) (by decide) (by decide)
  refine ⟨g', delta, h1, ?_⟩
  rw [h4 2 ⟨1 / 2, 0⟩ (by simp [mget])]
  simp [keys, weightOf, edgeWeight, edgeLookup, mget]
  norm_num

theorem normalizeEdges_eq (nodes : List (Nat × node)) (edges : List (Nat × List (Nat × ℚ)))
    (h : ∀ e ∈ edges, (mget nodes e.1).isSome) :
    normalizeEdges nodes edges = some (normEdges nodes edges) := by
  induction edges with
  | nil => rfl
  | cons e rest ih =>
    obtain ⟨s, inner⟩ := e
    obtain ⟨n, hn⟩ := Option.isSome_iff_exists.mp (h (s, inner) (List.mem_cons_self _ _))
    have ih' := ih (fun e he => h e (List.mem_cons_of_mem _ he))
    simp [normalizeEdges, hn, ih', normEdges, outboundOf]

theorem mget_normEdges (nodes : List (Nat × node)) (edges : List (Nat × List (Nat × ℚ)))
    (s : Nat) :
    mget (normEdges nodes edges) s =
      (mget edges s).map (normalizeInner (outboundOf nodes s)) :=
  mget_map_val (fun k inner => normalizeInner (outboundOf nodes k) inner) edges s

theorem edgesFrom_normEdges (nodes : List (Nat × node)) (edges : List (Nat × List (Nat × ℚ)))
    (s : Nat) :
    edgesFrom (normEdges nodes edges) s =
      normalizeInner (outboundOf nodes s) (edgesFrom edges s) := by
  unfold edgesFrom
  rw [mget_normEdges]
  cases mget edges s with
  | none => simp [normalizeInner]
  | some inner => rfl

theorem edgeSum_div (inner : List (Nat × ℚ)) (c : ℚ) :
    edgeSum (inner.map (fun e => (e.1, e.2 / c))) = edgeSum inner / c := by
  induction inner with
  | nil => simp [edgeSum]
  | cons f rest ih =>
    simp only [edgeSum, List.map_map] at ih
    simp [edgeSum, ih, add_div]

theorem Link_TierWeights (g : Graph) (s t : Nat) (level : String) (h : TierWeights g) :
    TierWeights (Link g s t level) := by
  have hbase : ∀ e ∈ (match mget g.edges s with
        | some _ => g.edges
        | none => mset g.edges s []), ∀ f ∈ e.2, ∃ l : String, f.2 = levelWeight l := by
    intro e he
    cases hs : mget g.edges s with
    | some inner => rw [hs] at he; exact h e he
    | none =>
      rw [hs] at he
      rcases mem_mset _ _ _ _ he with h1 | h1
      · exact h e h1
      · subst h1; simp
  intro e he
  rw [Link_edges_eq] at he
  rcases mem_mmodify _ _ _ _ he with h1 | ⟨inner, hv, rfl⟩
  · exact hbase e h1
  · intro f hf
    rcases mem_mset _ _ _ _ hf with h1 | h1
    · exact hbase _ hv f h1
    · subst h1; exact ⟨level, rfl⟩

theorem build_TierWeights (calls : List LinkCall) : TierWeights (build calls) := by
  have hgen : ∀ (cs : List LinkCall) (g : Graph), TierWeights g → TierWeights (linkAll g cs) := by
    intro cs
    induction cs with
    | nil => intro g h; exact h
    | cons c rest ih => intro g h; exact ih _ (Link_TierWeights g c.source c.target c.level h)
  exact hgen calls _ (by simp [TierWeights, NewGraph])

/-- C9: for a graph built by `Link` calls, the normalisation step of `Rank` succeeds;
    for every node `s` with `outbound[s] > 0` each edge leaving `s` then holds its tier
    weight divided by `outbound[s]` and these weights sum to exactly 1; the edges of a
    node with `outbound[s] = 0` are unchanged. -/
theorem normalisation_sums_to_one (calls : List LinkCall) :
    ∃ edges', normalizeEdges (build calls).nodes (build calls).edges = some edges' ∧
      keys edges' = keys (build calls).edges ∧
      (∀ e ∈ (build calls).edges, ∀ f ∈ e.2, ∃ level : String, f.2 = levelWeight level) ∧
      ∀ s n, mget (build calls).nodes s = some n →
        (n.outbound > 0 →
          edgesFrom edges' s =
            (edgesFrom (build calls).edges s).map (fun f => (f.1, f.2 / n.outbound)) ∧
          edgeSum (edgesFrom edges' s) = 1) ∧
        (n.outbound = 0 → edgesFrom edges' s = edgesFrom (build calls).edges s) := by
  refine ⟨normEdges (build calls).nodes (build calls).edges,
    normalizeEdges_eq _ _ (fun e he => (build_Closed calls e he).1), ?_,
    build_TierWeights calls, ?_⟩
  · simp [normEdges, keys, List.map_map, Function.comp_def]
  · intro s n hs
    have hob : outboundOf (build calls).nodes s = n.outbound := by simp [outboundOf, hs]
    refine ⟨fun hpos => ?_, fun hz => ?_⟩
    · have h1 : edgesFrom (normEdges (build calls).nodes (build calls).edges) s =
          (edgesFrom (build calls).edges s).map (fun f => (f.1, f.2 / n.outbound)) := by
        rw [edgesFrom_normEdges, hob, normalizeInner, if_pos hpos]
      refine ⟨h1, ?_⟩
      rw [h1, edgeSum_div, ← build_OutboundInv calls s n hs]
      exact div_self (ne_of_gt hpos)
    · rw [edgesFrom_normEdges, hob, normalizeInner, if_neg (by rw [hz]; exact lt_irrefl 0)]

/-- Witness of C9: a source with two edges of weights 1 and 4 and an edge of weight 0. -/
theorem normalisation_sums_to_one_witness :
    ∃ edges', normalizeEdges (build [⟨1, 2, "basic"⟩, ⟨1, 3, "advanced"⟩, ⟨2, 3, "none"⟩]).nodes
        (build [⟨1, 2, "basic"⟩, ⟨1, 3, "advanced"⟩, ⟨2, 3, "none"⟩]).edges = some edges' ∧
      edgesFrom edges' 1 = [(2, 1 / 5), (3, 4 / 5)] ∧ edgeSum (edgesFrom edges' 1) = 1 ∧
      edgesFrom edges' 2 = [(3, 0)] := by
  obtain ⟨edges', h1, _, _, h2⟩ :=
    normalisation_sums_to_one [⟨1, 2, "basic"⟩, ⟨1, 3, "advanced"⟩, ⟨2, 3, "none"⟩]
  have hb : build [⟨1, 2, "basic"⟩, ⟨1, 3, "advanced"⟩, ⟨2, 3, "none"⟩] =
      ⟨[(1, [(2, 1), (3, 4)]), (2, [(3, 0)])], [(1, ⟨0, 5⟩), (2, ⟨0, 0⟩), (3, ⟨0, 0⟩)]⟩ := by
    simp [build, linkAll, Link, NewGraph, ensureNode, mget, mset, mmodify, edgeLookup,
      freshNode, levelWeight]
    norm_num
  rw [hb] at h1 h2
  have ha := (h2 1 ⟨0, 5⟩ (by simp [mget])).1 (by norm_num)
  have hc := (h2 2 ⟨0, 0⟩ (by simp [mget])).2 rfl
  refine ⟨edges', by rw [hb]; exact h1, ?_, ha.2, ?_⟩
  · rw [ha.1]; simp [edgesFrom, mget]
  · rw [hc]; simp [edgesFrom, mget]

theorem nodeUpdate_keys (f : node → node) (ns ns' : List (Nat × node)) (k : Nat)
    (h : nodeUpdate f ns k = some ns') : keys ns' = keys ns := by
  unfold nodeUpdate at h
  cases hk : mget ns k with
  | none => simp [hk] at h
  | some n =>
    simp only [hk, Option.some.injEq] at h
    rw [← h, keys_mmodify]

theorem spread_keys (alpha p : ℚ) (inner : List (Nat × ℚ)) (ns ns' : List (Nat × node))
    (h : spread alpha p inner ns = some ns') : keys ns' = keys ns := by
  induction inner generalizing ns with
  | nil =>
    simp only [spread, Option.some.injEq] at h
    rw [h]
  | cons f rest ih =>
    obtain ⟨t, w⟩ := f
    simp only [spread] at h
    cases h1 : addWeight ns t (alpha * p * w) with
    | none => simp [h1] at h
    | some ns1 =>
      rw [h1, Option.some_bind] at h
      rw [ih ns1 h]
      exact nodeUpdate_keys _ _ _ _ h1

theorem distribute_keys (alpha inverse leak : ℚ) (edges : List (Nat × List (Nat × ℚ)))
    (prev : List (Nat × ℚ)) (sources : List Nat) (ns ns' : List (Nat × node))
    (h : distribute alpha inverse leak edges prev sources ns = some ns') :
    keys ns' = keys ns := by
  induction sources generalizing ns with
  | nil =>
    simp only [distribute, Option.some.injEq] at h
    rw [h]
  | cons s rest ih =>
    simp only [distribute] at h
    cases h1 : spread alpha (prevOf prev s) (edgesFrom edges s) ns with
    | none => simp [h1] at h
    | some ns1 =>
      rw [h1, Option.some_bind] at h
      cases h2 : addWeight ns1 s ((1 - alpha) * inverse + leak * inverse) with
      | none => simp [h2] at h
      | some ns2 =>
        rw [h2, Option.some_bind] at h
        rw [ih ns2 h, nodeUpdate_keys _ _ _ _ h2, spread_keys _ _ _ _ _ h1]

/-- A pass of the loop body keeps the adjacency map and the node ids. -/
theorem rankStep_shape (alpha inverse : ℚ) (g g' : Graph) (d : ℚ)
    (h : rankStep alpha inverse g = some (g', d)) :
    g'.edges = g.edges ∧ keys g'.nodes = keys g.nodes := by
  unfold rankStep at h
  simp only at h
  cases h1 : distribute alpha inverse (leakSum g.nodes * alpha) g.edges (snapshot g.nodes)
      (keys g.nodes) (zeroWeights g.nodes) with
  | none => simp [h1] at h
  | some ns =>
    simp only [h1, Option.map_some', Option.some.injEq, Prod.mk.injEq] at h
    rw [← h.1]
    exact ⟨rfl, by rw [distribute_keys _ _ _ _ _ _ _ _ h1, keys_zeroWeights]⟩

/-- The loop of `Rank` keeps the adjacency map and the node ids, and it stops only
    with `delta ≤ epsilon`. -/
theorem rankLoop_shape (alpha epsilon inverse : ℚ) (fuel : Nat) (d : ℚ) (g g' : Graph)
    (d' : ℚ) (h : rankLoop alpha epsilon inverse fuel d g = Outcome.ok (g', d')) :
    g'.edges = g.edges ∧ keys g'.nodes = keys g.nodes ∧ d' ≤ epsilon := by
  induction fuel generalizing d g with
  | zero =>
    unfold rankLoop at h
    by_cases hd : d > epsilon
    · simp [hd] at h
    · simp only [hd, if_false, Outcome.ok.injEq, Prod.mk.injEq] at h
      rw [← h.1, ← h.2]
      exact ⟨rfl, rfl, not_lt.mp hd⟩
  | succ n ih =>
    unfold rankLoop at h
    by_cases hd : d > epsilon
    · simp only [hd, if_true] at h
      cases hs : rankStep alpha inverse g with
      | none => simp [hs] at h
      | some r =>
        obtain ⟨g1, d1⟩ := r
        simp only [hs] at h
        obtain ⟨e1, e2, e3⟩ := ih d1 g1 h
        obtain ⟨s1, s2⟩ := rankStep_shape _ _ _ _ _ hs
        exact ⟨e1.trans s1, e2.trans s2, e3⟩
    · simp only [hd, if_false, Outcome.ok.injEq, Prod.mk.injEq] at h
      rw [← h.1, ← h.2]
      exact ⟨rfl, rfl, not_lt.mp hd⟩

theorem keys_normalizeInner (ob : ℚ) (inner : List (Nat × ℚ)) :
    keys (normalizeInner ob inner) = keys inner := by
  unfold normalizeInner
  by_cases h : ob > 0
  · simp [h, keys, List.map_map, Function.comp_def]
  · simp [h]

theorem keys_normEdges (nodes : List (Nat × node)) (edges : List (Nat × List (Nat × ℚ))) :
    keys (normEdges nodes edges) = keys edges := by
  simp [normEdges, keys, List.map_map, Function.comp_def]

theorem keys_initWeights (inverse : ℚ) (ns : List (Nat × node)) :
    keys (initWeights inverse ns) = keys ns := by
  simp [initWeights, keys, List.map_map, Function.comp_def]

/-- Two graphs have the same shape: the same node ids, the same adjacency keys and
    the same targets under each key. -/
theorem Closed_of_shape (g h : Graph) (hn : keys h.nodes = keys g.nodes)
    (he : h.edges.map (fun e => (e.1, keys e.2)) = g.edges.map (fun e => (e.1, keys e.2)))
    (hc : g.Closed) : h.Closed := by
  intro e hmem
  have h1 : (e.1, keys e.2) ∈ g.edges.map (fun e => (e.1, keys e.2)) := by
    rw [← he]
    exact List.mem_map_of_mem (fun e : Nat × List (Nat × ℚ) => (e.1, keys e.2)) hmem
  simp only [List.mem_map, Prod.mk.injEq] at h1
  obtain ⟨e0, he0, hk1, hk2⟩ := h1
  have hc0 := hc e0 he0
  refine ⟨?_, ?_⟩
  · rw [mget_isSome_iff, hn, ← hk1, ← mget_isSome_iff]; exact hc0.1
  · intro f hf
    have hf1 : f.1 ∈ keys e0.2 := by
      rw [hk2]; exact List.mem_map_of_mem Prod.fst hf
    simp only [keys, List.mem_map] at hf1
    obtain ⟨f0, hf0, hfk⟩ := hf1
    rw [mget_isSome_iff, hn, ← hfk, ← mget_isSome_iff]
    exact hc0.2 f0 hf0

theorem WF_of_shape (g h : Graph) (hn : keys h.nodes = keys g.nodes)
    (he : h.edges.map (fun e => (e.1, keys e.2)) = g.edges.map (fun e => (e.1, keys e.2)))
    (hw : g.WF) : h.WF := by
  have hk : keys h.edges = keys g.edges := by
    have := congrArg (List.map Prod.fst) he
    simpa [keys, List.map_map, Function.comp_def] using this
  refine ⟨by rw [hn]; exact hw.1, by rw [hk]; exact hw.2.1, ?_⟩
  intro e hmem
  have h1 : (e.1, keys e.2) ∈ g.edges.map (fun e => (e.1, keys e.2)) := by
    rw [← he]
    exact List.mem_map_of_mem (fun e : Nat × List (Nat × ℚ) => (e.1, keys e.2)) hmem
  simp only [List.mem_map, Prod.mk.injEq] at h1
  obtain ⟨e0, he0, _, hk2⟩ := h1
  rw [← hk2]; exact hw.2.2 e0 he0

theorem normEdges_shape (nodes : List (Nat × node)) (edges : List (Nat × List (Nat × ℚ))) :
    (normEdges nodes edges).map (fun e => (e.1, keys e.2)) =
      edges.map (fun e => (e.1, keys e.2)) := by
  simp [normEdges, List.map_map, Function.comp_def, keys_normalizeInner]

theorem rankInit_eq (g : Graph) (hc : g.Closed) :
    rankInit g = some ⟨normEdges g.nodes g.edges, initWeights (inverseOf g) g.nodes⟩ := by
  unfold rankInit
  rw [normalizeEdges_eq _ _ (fun e he => (hc e he).1)]
  rfl

theorem EndpointsPresent_of_Closed (g : Graph) (hc : g.Closed) : EndpointsPresent g := by
  intro e he
  obtain ⟨inner, h1, h2⟩ := (mem_edgeList g.edges e).mp he
  exact ⟨(hc _ h1).1, (hc _ h1).2 _ h2⟩

theorem length_of_keys_eq {V W : Type} (m : List (Nat × V)) (m' : List (Nat × W))
    (h : keys m' = keys m) : m'.length = m.length := by
  have := congrArg List.length h
  simpa [keys] using this

theorem inverseOf_of_keys_eq (g h : Graph) (hk : keys h.nodes = keys g.nodes) :
    inverseOf h = inverseOf g := by
  unfold inverseOf
  rw [length_of_keys_eq _ _ hk]

theorem shape_of_edges_eq (g h : Graph) (he : h.edges = g.edges) :
    h.edges.map (fun e => (e.1, keys e.2)) = g.edges.map (fun e => (e.1, keys e.2)) := by
  rw [he]

/-- In a closed graph without repeated keys the loop of `Rank` never dereferences nil. -/
theorem rankLoop_ne_nilPanic (alpha epsilon : ℚ) (fuel : Nat) (d : ℚ) (g : Graph)
    (hwf : g.WF) (hc : g.Closed) :
    rankLoop alpha epsilon (inverseOf g) fuel d g ≠ Outcome.nilPanic := by
  induction fuel generalizing d g with
  | zero =>
    unfold rankLoop
    by_cases hd : d > epsilon <;> simp [hd]
  | succ n ih =>
    unfold rankLoop
    by_cases hd : d > epsilon
    · simp only [hd, if_true]
      have hs := rankStep_eq alpha g hwf (EndpointsPresent_of_Closed g hc)
      have hsh := rankStep_shape _ _ _ _ _ hs
      rw [hs]
      simp only
      have hinv := inverseOf_of_keys_eq g ⟨g.edges, stepNodes alpha g⟩ hsh.2
      rw [← hinv]
      exact ih _ _ (WF_of_shape g _ hsh.2 (shape_of_edges_eq _ _ hsh.1) hwf)
        (Closed_of_shape g _ hsh.2 (shape_of_edges_eq _ _ hsh.1) hc)
    · simp [hd]

theorem normalizeEdges_shape (nodes : List (Nat × node))
    (edges edges' : List (Nat × List (Nat × ℚ)))
    (h : normalizeEdges nodes edges = some edges') :
    edges'.map (fun e => (e.1, keys e.2)) = edges.map (fun e => (e.1, keys e.2)) := by
  induction edges generalizing edges' with
  | nil =>
    simp only [normalizeEdges, Option.some.injEq] at h
    rw [← h]
  | cons e rest ih =>
    obtain ⟨s, inner⟩ := e
    simp only [normalizeEdges] at h
    cases hn : mget nodes s with
    | none => simp [hn] at h
    | some n =>
      simp only [hn] at h
      cases hr : normalizeEdges nodes rest with
      | none => simp [hr] at h
      | some rest' =>
        simp only [hr, Option.map_some', Option.some.injEq] at h
        rw [← h]
        simp [ih rest' hr, keys_normalizeInner]

theorem rankInit_shape (g g1 : Graph) (h : rankInit g = some g1) :
    keys g1.nodes = keys g.nodes ∧
    g1.edges.map (fun e => (e.1, keys e.2)) = g.edges.map (fun e => (e.1, keys e.2)) := by
  unfold rankInit at h
  cases hn : normalizeEdges g.nodes g.edges with
  | none => simp [hn] at h
  | some edges' =>
    simp only [hn, Option.map_some', Option.some.injEq] at h
    rw [← h]
    exact ⟨keys_initWeights _ _, normalizeEdges_shape _ _ _ hn⟩

/-- What a returning call of `Rank` did: it left the loop from the initial state and
    reported the nodes of the final graph. -/
theorem Rank_ok_inv {σ : Type} (fuel : Nat) (g : Graph) (alpha epsilon : ℚ)
    (callback : Nat → ℚ → σ → σ) (s0 : σ) (g' : Graph) (s' : σ)
    (h : Rank fuel g alpha epsilon callback s0 = Outcome.ok (g', s')) :
    ∃ g1 delta, rankInit g = some g1 ∧
      rankLoop alpha epsilon (inverseOf g) fuel 1 g1 = Outcome.ok (g', delta) ∧
      s' = report callback g'.nodes s0 := by
  unfold Rank at h
  cases h1 : rankInit g with
  | none => simp [h1] at h
  | some g1 =>
    simp only [h1] at h
    cases h2 : rankLoop alpha epsilon (inverseOf g) fuel 1 g1 with
    | nilPanic => simp [h2] at h
    | noFuel => simp [h2] at h
    | ok r =>
      obtain ⟨g2, d2⟩ := r
      simp only [h2, Outcome.ok.injEq, Prod.mk.injEq] at h
      refine ⟨g1, d2, rfl, ?_, ?_⟩
      · rw [← h.1]; exact h2
      · rw [← h.2, ← h.1]

theorem Rank_shape {σ : Type} (fuel : Nat) (g : Graph) (alpha epsilon : ℚ)
    (callback : Nat → ℚ → σ → σ) (s0 : σ) (g' : Graph) (s' : σ)
    (h : Rank fuel g alpha epsilon callback s0 = Outcome.ok (g', s')) :
    keys g'.nodes = keys g.nodes ∧
    g'.edges.map (fun e => (e.1, keys e.2)) = g.edges.map (fun e => (e.1, keys e.2)) := by
  obtain ⟨g1, delta, h1, h2, _⟩ := Rank_ok_inv fuel g alpha epsilon callback s0 g' s' h
  obtain ⟨a1, a2⟩ := rankInit_shape g g1 h1
  obtain ⟨b1, b2, _⟩ := rankLoop_shape _ _ _ _ _ _ _ _ h2
  exact ⟨b2.trans a1, by rw [b1]; exact a2⟩

theorem Reachable_WF_Closed (g : Graph) (h : Reachable g) : g.WF ∧ g.Closed := by
  induction h with
  | new => exact ⟨NewGraph_WF, NewGraph_Closed⟩
  | link g s t l _ ih => exact ⟨Link_WF g s t l ih.1, Link_Closed g s t l ih.2⟩
  | rank g fuel alpha epsilon callback s0 g' s' _ hr ih =>
    obtain ⟨a1, a2⟩ := Rank_shape fuel g alpha epsilon callback s0 g' s' hr
    exact ⟨WF_of_shape g g' a1 a2 ih.1, Closed_of_shape g g' a1 a2 ih.2⟩
  | reset g _ _ => exact ⟨NewGraph_WF, NewGraph_Closed⟩

theorem Rank_ne_nilPanic {σ : Type} (fuel : Nat) (g : Graph) (alpha epsilon : ℚ)
    (callback : Nat → ℚ → σ → σ) (s0 : σ) (hwf : g.WF) (hc : g.Closed) :
    Rank fuel g alpha epsilon callback s0 ≠ Outcome.nilPanic := by
  unfold Rank
  rw [rankInit_eq g hc]
  simp only
  have hk : keys (initWeights (inverseOf g) g.nodes) = keys g.nodes := keys_initWeights _ _
  have hinv := inverseOf_of_keys_eq g
    ⟨normEdges g.nodes g.edges, initWeights (inverseOf g) g.nodes⟩ hk
  have hnp := rankLoop_ne_nilPanic alpha epsilon fuel 1
    ⟨normEdges g.nodes g.edges, initWeights (inverseOf g) g.nodes⟩
    (WF_of_shape g _ hk (normEdges_shape _ _) hwf)
    (Closed_of_shape g _ hk (normEdges_shape _ _) hc)
  rw [hinv] at hnp
  cases h2 : rankLoop alpha epsilon (inverseOf g) fuel 1
      ⟨normEdges g.nodes g.edges, initWeights (inverseOf g) g.nodes⟩ with
  | nilPanic => exact absurd h2 hnp
  | noFuel => simp
  | ok r => simp

/-- C8: in every state reachable from `NewGraph` by `Link`, `Rank` and `Reset` calls,
    every key of the adjacency map and every target stored in it has a node record, so
    every id that is the source or the target of a stored edge has one, and no call of
    `Rank` on such a state dereferences a missing node. -/
theorem node_existence_invariant (g : Graph) (h : Reachable g) :
    g.Closed ∧ EndpointsPresent g ∧
    ∀ (σ : Type) (fuel : Nat) (alpha epsilon : ℚ) (callback : Nat → ℚ → σ → σ) (s0 : σ),
      Rank fuel g alpha epsilon callback s0 ≠ Outcome.nilPanic := by
  obtain ⟨hwf, hc⟩ := Reachable_WF_Closed g h
  exact ⟨hc, EndpointsPresent_of_Closed g hc,
    fun _ fuel alpha epsilon callback s0 => Rank_ne_nilPanic fuel g alpha epsilon callback s0 hwf hc⟩

/-- Witness of C8: the state after a `Link`, a `Reset` and another `Link`. -/
theorem node_existence_invariant_witness :
    Reachable (Link (Reset (Link NewGraph 1 2 "basic")) 3 3 "advanced") ∧
    (Link (Reset (Link NewGraph 1 2 "basic")) 3 3 "advanced").Closed :=
  have h : Reachable (Link (Reset (Link NewGraph 1 2 "basic")) 3 3 "advanced") :=
    Reachable.link _ 3 3 "advanced" (Reachable.reset _ (Reachable.link _ 1 2 "basic" Reachable.new))
  ⟨h, (node_existence_invariant _ h).1⟩

theorem report_recordCall (ns : List (Nat × node)) (acc : List (Nat × ℚ)) :
    report recordCall ns acc = acc ++ ns.map (fun e => (e.1, e.2.weight)) := by
  induction ns generalizing acc with
  | nil => simp [report]
  | cons e rest ih =>
    simp only [report, List.foldl_cons] at ih ⊢
    rw [ih]
    simp [recordCall]

theorem report_eq_foldl {σ : Type} (callback : Nat → ℚ → σ → σ) (ns : List (Nat × node))
    (s0 : σ) :
    report callback ns s0 =
      (ns.map (fun e => (e.1, e.2.weight))).foldl (fun s c => callback c.1 c.2 s) s0 := by
  simp [report, List.foldl_map]

theorem mget_of_mem_nodup {V : Type} (m : List (Nat × V)) (e : Nat × V)
    (hn : (keys m).Nodup) (he : e ∈ m) : mget m e.1 = some e.2 := by
  induction m with
  | nil => simp at he
  | cons e0 rest ih =>
    obtain ⟨k0, v0⟩ := e0
    have hn' : k0 ∉ keys rest ∧ (keys rest).Nodup := by simpa [keys] using hn
    rcases List.mem_cons.mp he with h | h
    · subst h; simp [mget]
    · have hne : k0 ≠ e.1 := fun hk => hn'.1 (hk ▸ List.mem_map_of_mem Prod.fst h)
      simp [mget, hne, ih hn'.2 h]

theorem Rank_callback_indep {σ τ : Type} (fuel : Nat) (g : Graph) (alpha epsilon : ℚ)
    (cb : Nat → ℚ → σ → σ) (s0 : σ) (cb' : Nat → ℚ → τ → τ) (t0 : τ) (g' : Graph) (s' : σ)
    (h : Rank fuel g alpha epsilon cb s0 = Outcome.ok (g', s')) :
    Rank fuel g alpha epsilon cb' t0 = Outcome.ok (g', report cb' g'.nodes t0) := by
  obtain ⟨g1, delta, h1, h2, _⟩ := Rank_ok_inv fuel g alpha epsilon cb s0 g' s' h
  unfold Rank
  rw [h1]
  simp only [h2]

/-- C4: when `Rank` returns, the calls of the callback are, in order, one call
    `(id, weight)` for each entry of the final node map: the ids called are exactly the
    node ids of the graph, each once when the maps hold no key twice, and the rank
    passed is the weight stored in that node when the loop stopped, which it did with
    `delta ≤ epsilon`; any other callback receives the same calls. -/
theorem Rank_calls_each_node_once (fuel : Nat) (g : Graph) (alpha epsilon : ℚ) (g' : Graph)
    (calls : List (Nat × ℚ))
    (h : Rank fuel g alpha epsilon recordCall [] = Outcome.ok (g', calls)) :
    calls = g'.nodes.map (fun e => (e.1, e.2.weight)) ∧
    calls.map Prod.fst = keys g.nodes ∧
    (g.WF → ∀ id, (calls.map Prod.fst).count id = if id ∈ keys g.nodes then 1 else 0) ∧
    (g.WF → ∀ c ∈ calls, (mget g'.nodes c.1).map node.weight = some c.2) ∧
    (∃ g1 delta, rankInit g = some g1 ∧
      rankLoop alpha epsilon (inverseOf g) fuel 1 g1 = Outcome.ok (g', delta) ∧
      delta ≤ epsilon) ∧
    (∀ (σ : Type) (callback : Nat → ℚ → σ → σ) (s0 : σ),
      Rank fuel g alpha epsilon callback s0 =
        Outcome.ok (g', calls.foldl (fun s c => callback c.1 c.2 s) s0)) := by
  obtain ⟨g1, delta, h1, h2, h3⟩ := Rank_ok_inv fuel g alpha epsilon recordCall [] g' calls h
  obtain ⟨hk, _⟩ := Rank_shape fuel g alpha epsilon recordCall [] g' calls h
  have hcalls : calls = g'.nodes.map (fun e => (e.1, e.2.weight)) := by
    rw [h3, report_recordCall]; rfl
  have hids : calls.map Prod.fst = keys g.nodes := by
    rw [hcalls, ← hk]
    simp [keys, List.map_map, Function.comp_def]
  refine ⟨hcalls, hids, ?_, ?_, ⟨g1, delta, h1, h2, (rankLoop_shape _ _ _ _ _ _ _ _ h2).2.2⟩, ?_⟩
  · intro hwf id
    rw [hids]
    exact List.count_eq_of_nodup hwf.1
  · intro hwf c hc
    rw [hcalls] at hc
    simp only [List.mem_map] at hc
    obtain ⟨e, he, rfl⟩ := hc
    rw [mget_of_mem_nodup g'.nodes e (by rw [hk]; exact hwf.1) he]
    rfl
  · intro σ callback s0
    rw [Rank_callback_indep fuel g alpha epsilon recordCall [] callback s0 g' calls h,
      report_eq_foldl, ← hcalls]

/-- Witness of C4: one edge, damping one half, threshold one half: one pass of the loop. -/
theorem Rank_calls_each_node_once_witness :
    Rank 1 (build [⟨1, 2, "basic"⟩]) (1 / 2) (1 / 2) recordCall [] =
      Outcome.ok (⟨[(1, [(2, 1)])], [(1, ⟨3 / 8, 1⟩), (2, ⟨5 / 8, 0⟩)]⟩,
        [(1, 3 / 8), (2, 5 / 8)]) ∧
    ([(1, 3 / 8), (2, 5 / 8)] : List (Nat × ℚ)).map Prod.fst =
      keys (build [⟨1, 2, "basic"⟩]).nodes := by
  have h : Rank 1 (build [⟨1, 2, "basic"⟩]) (1 / 2) (1 / 2) recordCall [] =
      Outcome.ok (⟨[(1, [(2, 1)])], [(1, ⟨3 / 8, 1⟩), (2, ⟨5 / 8, 0⟩)]⟩,
        [(1, 3 / 8), (2, 5 / 8)]) := by
    simp [Rank, rankInit, rankLoop, rankStep, distribute, spread, addWeight, nodeUpdate,
      snapshot, prevOf, leakSum, zeroWeights, l1Change, edgesFrom, keys,
      normalizeEdges, normalizeInner, initWeights, inverseOf,
      report, recordCall, build, linkAll, Link, NewGraph, ensureNode, mget, mset, mmodify,
      edgeLookup, freshNode, levelWeight]
    norm_num [abs_of_pos]
  exact ⟨h, (Rank_calls_each_node_once 1 _ (1 / 2) (1 / 2) _ _ h).2.1⟩

/-! ## The arithmetic of one pass: a damped stochastic matrix -/

theorem sum_mul_rows (K : Finset Nat) (M : Nat → Nat → ℚ) (x : Nat → ℚ)
    (hrow : ∀ s ∈ K, ∑ t ∈ K, M s t = 1) :
    ∑ t ∈ K, ∑ s ∈ K, x s * M s t = ∑ s ∈ K, x s := by
  rw [Finset.sum_comm]
  apply Finset.sum_congr rfl
  intro s hs
  rw [← Finset.mul_sum, hrow s hs, mul_one]

theorem mass_step (K : Finset Nat) (M : Nat → Nat → ℚ) (x : Nat → ℚ) (alpha c : ℚ)
    (hrow : ∀ s ∈ K, ∑ t ∈ K, M s t = 1) :
    ∑ t ∈ K, (alpha * ∑ s ∈ K, x s * M s t + c) = alpha * ∑ s ∈ K, x s + K.card * c := by
  rw [Finset.sum_add_distrib, ← Finset.mul_sum, sum_mul_rows K M x hrow]
  simp

theorem l1_contraction (K : Finset Nat) (M : Nat → Nat → ℚ) (x y : Nat → ℚ) (alpha c : ℚ)
    (ha : 0 ≤ alpha) (hM : ∀ s t, 0 ≤ M s t) (hrow : ∀ s ∈ K, ∑ t ∈ K, M s t = 1) :
    ∑ t ∈ K, |(alpha * ∑ s ∈ K, x s * M s t + c) - (alpha * ∑ s ∈ K, y s * M s t + c)| ≤
      alpha * ∑ s ∈ K, |x s - y s| := by
  have hterm : ∀ t ∈ K,
      |(alpha * ∑ s ∈ K, x s * M s t + c) - (alpha * ∑ s ∈ K, y s * M s t + c)| ≤
        alpha * ∑ s ∈ K, |x s - y s| * M s t := by
    intro t _
    have h1 : (alpha * ∑ s ∈ K, x s * M s t + c) - (alpha * ∑ s ∈ K, y s * M s t + c) =
        alpha * ∑ s ∈ K, (x s - y s) * M s t := by
      have : ∑ s ∈ K, (x s - y s) * M s t =
          ∑ s ∈ K, x s * M s t - ∑ s ∈ K, y s * M s t := by
        rw [← Finset.sum_sub_distrib]
        apply Finset.sum_congr rfl
        intro s _
        ring
      rw [this]; ring
    rw [h1, abs_mul, abs_of_nonneg ha]
    apply mul_le_mul_of_nonneg_left _ ha
    calc |∑ s ∈ K, (x s - y s) * M s t|
        ≤ ∑ s ∈ K, |(x s - y s) * M s t| := Finset.abs_sum_le_sum_abs _ _
      _ = ∑ s ∈ K, |x s - y s| * M s t := by
        apply Finset.sum_congr rfl
        intro s _
        rw [abs_mul, abs_of_nonneg (hM s t)]
  calc ∑ t ∈ K, |(alpha * ∑ s ∈ K, x s * M s t + c) - (alpha * ∑ s ∈ K, y s * M s t + c)|
      ≤ ∑ t ∈ K, alpha * ∑ s ∈ K, |x s - y s| * M s t := Finset.sum_le_sum hterm
    _ = alpha * ∑ s ∈ K, |x s - y s| := by
      rw [← Finset.mul_sum, sum_mul_rows K M (fun s => |x s - y s|) hrow]

theorem weightOf_of_mem (ns : List (Nat × node)) (e : Nat × node) (hn : (keys ns).Nodup)
    (he : e ∈ ns) : weightOf ns e.1 = e.2.weight := by
  simp [weightOf, mget_of_mem_nodup ns e hn he]

theorem outboundOf_of_mem (ns : List (Nat × node)) (e : Nat × node) (hn : (keys ns).Nodup)
    (he : e ∈ ns) : outboundOf ns e.1 = e.2.outbound := by
  simp [outboundOf, mget_of_mem_nodup ns e hn he]

/-- A sum over the entries of the node map is a sum over its key set. -/
theorem sum_nodes_eq (ns : List (Nat × node)) (hn : (keys ns).Nodup) (F : Nat → ℚ → ℚ → ℚ) :
    (ns.map (fun e => F e.1 e.2.weight e.2.outbound)).sum =
      ∑ k ∈ (keys ns).toFinset, F k (weightOf ns k) (outboundOf ns k) := by
  rw [List.sum_toFinset _ hn, keys, List.map_map]
  congr 1
  apply List.map_congr_left
  intro e he
  simp only [Function.comp_apply]
  rw [weightOf_of_mem ns e hn he, outboundOf_of_mem ns e hn he]

theorem sum_keys_eq (ns : List (Nat × node)) (hn : (keys ns).Nodup) (G : Nat → ℚ) :
    ((keys ns).map G).sum = ∑ k ∈ (keys ns).toFinset, G k :=
  (List.sum_toFinset G hn).symm

theorem card_keys (ns : List (Nat × node)) (hn : (keys ns).Nodup) :
    ((keys ns).toFinset.card : ℚ) = (ns.length : ℚ) := by
  rw [List.toFinset_card_of_nodup hn]
  simp [keys]

theorem specWeight_eq_transition (alpha : ℚ) (g : Graph) (hn : (keys g.nodes).Nodup) (t : Nat) :
    specWeight alpha g t =
      alpha * ∑ s ∈ (keys g.nodes).toFinset, weightOf g.nodes s * transition g s t +
        (1 - alpha) / (g.nodes.length : ℚ) := by
  unfold specWeight
  rw [← leakSum_eq_filter, sum_keys_eq g.nodes hn]
  have hleak : leakSum g.nodes =
      ∑ s ∈ (keys g.nodes).toFinset,
        (if outboundOf g.nodes s = 0 then weightOf g.nodes s else 0) :=
    sum_nodes_eq g.nodes hn (fun _ w ob => if ob = 0 then w else 0)
  have hsplit : ∑ s ∈ (keys g.nodes).toFinset, weightOf g.nodes s * transition g s t =
      ∑ s ∈ (keys g.nodes).toFinset, weightOf g.nodes s * edgeWeight g.edges s t +
        leakSum g.nodes / (g.nodes.length : ℚ) := by
    rw [hleak, Finset.sum_div, ← Finset.sum_add_distrib]
    apply Finset.sum_congr rfl
    intro s _
    unfold transition
    by_cases h : outboundOf g.nodes s = 0
    · simp only [h, if_true]; ring
    · simp only [h, if_false]; ring
  rw [hsplit]
  ring

theorem getD_mget_cons (t0 : Nat) (w0 : ℚ) (rest : List (Nat × ℚ)) (t : Nat)
    (h0 : t0 ∉ keys rest) :
    (mget ((t0, w0) :: rest) t).getD 0 = (if t0 = t then w0 else 0) + (mget rest t).getD 0 := by
  by_cases h : t0 = t
  · subst h
    have : mget rest t0 = none := (mget_eq_none_iff rest t0).mpr h0
    simp [mget, this]
  · simp [mget, h]

theorem sum_getD_mget (inner : List (Nat × ℚ)) (K : Finset Nat) (hn : (keys inner).Nodup)
    (hsub : ∀ f ∈ inner, f.1 ∈ K) :
    ∑ t ∈ K, (mget inner t).getD 0 = edgeSum inner := by
  induction inner with
  | nil => simp [mget, edgeSum]
  | cons f rest ih =>
    obtain ⟨t0, w0⟩ := f
    have hn' : t0 ∉ keys rest ∧ (keys rest).Nodup := by simpa [keys] using hn
    have ht0 : t0 ∈ K := hsub (t0, w0) (List.mem_cons_self _ _)
    have ih' := ih hn'.2 (fun f hf => hsub f (List.mem_cons_of_mem _ hf))
    simp only [edgeSum] at ih'
    simp only [getD_mget_cons t0 w0 rest _ hn'.1, Finset.sum_add_distrib, ih',
      Finset.sum_ite_eq, ht0, if_true]
    simp [edgeSum]

theorem edgeWeight_nonneg (g : Graph) (h : ∀ e ∈ g.edges, ∀ f ∈ e.2, 0 ≤ f.2) (s t : Nat) :
    0 ≤ edgeWeight g.edges s t := by
  unfold edgeWeight
  cases hl : edgeLookup g.edges s t with
  | none => simp
  | some w =>
    simp only [Option.getD_some]
    unfold edgeLookup at hl
    cases hs : mget g.edges s with
    | none => simp [hs] at hl
    | some inner =>
      simp only [hs] at hl
      exact h _ (mem_of_mget _ _ _ hs) _ (mem_of_mget _ _ _ hl)

theorem transition_nonneg (g : Graph) (h : Stochastic g) (s t : Nat) : 0 ≤ transition g s t := by
  unfold transition
  have h1 := edgeWeight_nonneg g h.2.2.2.1 s t
  have h2 : (0 : ℚ) ≤ if outboundOf g.nodes s = 0 then 1 / (g.nodes.length : ℚ) else 0 := by
    split
    · positivity
    · exact le_refl 0
  linarith

theorem length_pos_of_ne_nil (g : Graph) (h : g.nodes ≠ []) : (0 : ℚ) < (g.nodes.length : ℚ) := by
  have : 0 < g.nodes.length := List.length_pos.mpr h
  exact_mod_cast this

theorem transition_row_sum (g : Graph) (h : Stochastic g) (s : Nat) (hs : s ∈ keys g.nodes) :
    ∑ t ∈ (keys g.nodes).toFinset, transition g s t = 1 := by
  obtain ⟨hwf, hc, hne, _, hrow⟩ := h
  unfold transition
  rw [Finset.sum_add_distrib]
  have h1 : ∑ t ∈ (keys g.nodes).toFinset, edgeWeight g.edges s t =
      edgeSum (edgesFrom g.edges s) := by
    have := sum_getD_mget (edgesFrom g.edges s) (keys g.nodes).toFinset
      (edgesFrom_nodup g hwf s)
      (fun f hf => List.mem_toFinset.mpr
        (edgesFrom_targets g (EndpointsPresent_of_Closed g hc) s f hf))
    rw [← this]
    apply Finset.sum_congr rfl
    intro t _
    rw [edgeWeight, edgeLookup_eq_mget_edgesFrom]
  have hN := length_pos_of_ne_nil g hne
  rw [h1, hrow s hs, Finset.sum_const, nsmul_eq_mul, card_keys g.nodes hwf.1]
  by_cases hz : outboundOf g.nodes s = 0
  · simp only [hz, if_true]; field_simp
  · simp only [hz, if_false]; ring

theorem outboundOf_stepNodes (alpha : ℚ) (g : Graph) (k : Nat) :
    outboundOf (stepNodes alpha g) k = outboundOf g.nodes k := by
  unfold outboundOf
  rw [mget_stepNodes]
  cases mget g.nodes k <;> simp

theorem weightOf_stepNodes (alpha : ℚ) (g : Graph) (k : Nat) (hk : k ∈ keys g.nodes) :
    weightOf (stepNodes alpha g) k = specWeight alpha g k := by
  obtain ⟨n, hn⟩ := Option.isSome_iff_exists.mp ((mget_isSome_iff g.nodes k).mpr hk)
  simp [weightOf, mget_stepNodes, hn]

theorem length_stepNodes (alpha : ℚ) (g : Graph) :
    (stepNodes alpha g).length = g.nodes.length := by
  simp [stepNodes]

theorem transition_nextGraph (alpha : ℚ) (g : Graph) (s t : Nat) :
    transition (nextGraph alpha g) s t = transition g s t := by
  simp only [transition, nextGraph, outboundOf_stepNodes, length_stepNodes]

theorem nextGraph_Stochastic (alpha : ℚ) (g : Graph) (h : Stochastic g) :
    Stochastic (nextGraph alpha g) := by
  obtain ⟨hwf, hc, hne, hnn, hrow⟩ := h
  refine ⟨WF_of_shape g _ (keys_stepNodes alpha g) rfl hwf,
    Closed_of_shape g _ (keys_stepNodes alpha g) rfl hc, ?_, hnn, ?_⟩
  · intro h0
    apply hne
    have := congrArg List.length h0
    simp only [nextGraph, length_stepNodes, List.length_nil] at this
    exact List.length_eq_zero.mp this
  · intro s hs
    simp only [nextGraph, keys_stepNodes, outboundOf_stepNodes] at hs ⊢
    exact hrow s hs

theorem inverseOf_nextGraph (alpha : ℚ) (g : Graph) :
    inverseOf (nextGraph alpha g) = inverseOf g := by
  simp [inverseOf, nextGraph, length_stepNodes]

theorem stepDelta_eq (alpha : ℚ) (g : Graph) (hn : (keys g.nodes).Nodup) :
    stepDelta alpha g =
      ∑ t ∈ (keys g.nodes).toFinset, |specWeight alpha g t - weightOf g.nodes t| := by
  rw [← sum_keys_eq g.nodes hn]
  simp only [stepDelta, l1Change, stepNodes, keys, List.map_map, Function.comp_def,
    prevOf_snapshot]

theorem stepDelta_nonneg (alpha : ℚ) (g : Graph) : 0 ≤ stepDelta alpha g := by
  unfold stepDelta l1Change
  apply List.sum_nonneg
  intro x hx
  simp only [List.mem_map] at hx
  obtain ⟨e, _, rfl⟩ := hx
  exact abs_nonneg _

/-- The L1 change of a pass is at most `alpha` times the L1 change of the pass before. -/
theorem stepDelta_contraction (alpha : ℚ) (g : Graph) (h : Stochastic g) (ha : 0 ≤ alpha) :
    stepDelta alpha (nextGraph alpha g) ≤ alpha * stepDelta alpha g := by
  have hn := h.1.1
  have hn' : (keys (nextGraph alpha g).nodes).Nodup := (nextGraph_Stochastic alpha g h).1.1
  rw [stepDelta_eq alpha g hn, stepDelta_eq alpha _ hn']
  have hk : keys (nextGraph alpha g).nodes = keys g.nodes := keys_stepNodes alpha g
  have hlen : (nextGraph alpha g).nodes.length = g.nodes.length := length_stepNodes alpha g
  rw [hk]
  have hlhs : ∀ t ∈ (keys g.nodes).toFinset,
      |specWeight alpha (nextGraph alpha g) t - weightOf (nextGraph alpha g).nodes t| =
      |(alpha * ∑ s ∈ (keys g.nodes).toFinset, specWeight alpha g s * transition g s t +
          (1 - alpha) / (g.nodes.length : ℚ)) -
        (alpha * ∑ s ∈ (keys g.nodes).toFinset, weightOf g.nodes s * transition g s t +
          (1 - alpha) / (g.nodes.length : ℚ))| := by
    intro t ht
    have hsum : ∑ s ∈ (keys g.nodes).toFinset,
        weightOf (nextGraph alpha g).nodes s * transition (nextGraph alpha g) s t =
        ∑ s ∈ (keys g.nodes).toFinset, specWeight alpha g s * transition g s t := by
      apply Finset.sum_congr rfl
      intro s hs
      rw [transition_nextGraph,
        show weightOf (nextGraph alpha g).nodes s = specWeight alpha g s from
          weightOf_stepNodes alpha g s (List.mem_toFinset.mp hs)]
    rw [specWeight_eq_transition alpha _ hn', hk, hlen, hsum,
      show weightOf (nextGraph alpha g).nodes t = specWeight alpha g t from
        weightOf_stepNodes alpha g t (List.mem_toFinset.mp ht),
      specWeight_eq_transition alpha g hn t]
  rw [Finset.sum_congr rfl hlhs]
  exact l1_contraction _ (transition g) _ _ alpha _ ha (transition_nonneg g h)
    (fun s hs => transition_row_sum g h s (List.mem_toFinset.mp hs))

theorem weightSum_eq (ns : List (Nat × node)) (hn : (keys ns).Nodup) :
    weightSum ns = ∑ k ∈ (keys ns).toFinset, weightOf ns k :=
  sum_nodes_eq ns hn (fun _ w _ => w)

/-- One pass of the loop body maps total weight `m` to `alpha * m + (1 - alpha)`. -/
theorem weightSum_stepNodes (alpha : ℚ) (g : Graph) (h : Stochastic g) :
    weightSum (stepNodes alpha g) = alpha * weightSum g.nodes + (1 - alpha) := by
  have hn := h.1.1
  have hn' : (keys (stepNodes alpha g)).Nodup := by rw [keys_stepNodes]; exact hn
  rw [weightSum_eq _ hn', weightSum_eq _ hn, keys_stepNodes]
  have h1 : ∀ t ∈ (keys g.nodes).toFinset, weightOf (stepNodes alpha g) t =
      alpha * ∑ s ∈ (keys g.nodes).toFinset, weightOf g.nodes s * transition g s t +
        (1 - alpha) / (g.nodes.length : ℚ) := by
    intro t ht
    rw [weightOf_stepNodes alpha g t (List.mem_toFinset.mp ht),
      specWeight_eq_transition alpha g hn t]
  rw [Finset.sum_congr rfl h1, mass_step _ (transition g) _ alpha _
    (fun s hs => transition_row_sum g h s (List.mem_toFinset.mp hs)),
    card_keys g.nodes hn]
  have hN := length_pos_of_ne_nil g h.2.2.1
  field_simp

theorem rankStep_of_Stochastic (alpha : ℚ) (g : Graph) (h : Stochastic g) :
    rankStep alpha (inverseOf g) g = some (nextGraph alpha g, stepDelta alpha g) :=
  rankStep_eq alpha g h.1 (EndpointsPresent_of_Closed g h.2.1)

theorem levelWeight_nonneg (level : String) : 0 ≤ levelWeight level := by
  unfold levelWeight
  split_ifs <;> norm_num

theorem edgeSum_nonneg (inner : List (Nat × ℚ)) (h : ∀ f ∈ inner, 0 ≤ f.2) :
    0 ≤ edgeSum inner := by
  unfold edgeSum
  apply List.sum_nonneg
  intro x hx
  simp only [List.mem_map] at hx
  obtain ⟨f, hf, rfl⟩ := hx
  exact h f hf

theorem edgesFrom_nonneg (g : Graph) (h : ∀ e ∈ g.edges, ∀ f ∈ e.2, 0 ≤ f.2) (s : Nat) :
    ∀ f ∈ edgesFrom g.edges s, 0 ≤ f.2 := by
  intro f hf
  unfold edgesFrom at hf
  cases hs : mget g.edges s with
  | none => simp [hs] at hf
  | some inner =>
    simp only [hs, Option.getD_some] at hf
    exact h _ (mem_of_mget _ _ _ hs) f hf

theorem outboundOf_initWeights (inverse : ℚ) (ns : List (Nat × node)) (k : Nat) :
    outboundOf (initWeights inverse ns) k = outboundOf ns k := by
  unfold outboundOf initWeights
  rw [mget_map_val (fun _ (n : node) => ({ n with weight := inverse } : node)) ns k]
  cases mget ns k <;> simp

theorem normalizeInner_nonneg (ob : ℚ) (inner : List (Nat × ℚ)) (h : ∀ f ∈ inner, 0 ≤ f.2) :
    ∀ f ∈ normalizeInner ob inner, 0 ≤ f.2 := by
  intro f hf
  unfold normalizeInner at hf
  by_cases hpos : ob > 0
  · simp only [hpos, if_true, List.mem_map] at hf
    obtain ⟨f0, hf0, rfl⟩ := hf
    exact div_nonneg (h f0 hf0) (le_of_lt hpos)
  · simp only [hpos, if_false] at hf
    exact h f hf

/-- The state in which `Rank` enters its loop is stochastic, when the graph has a node,
    no negative edge weight, and satisfies the outbound invariant. -/
theorem rankInit_Stochastic (g : Graph) (hwf : g.WF) (hc : g.Closed) (hne : g.nodes ≠ [])
    (hnn : ∀ e ∈ g.edges, ∀ f ∈ e.2, 0 ≤ f.2) (hob : OutboundInv g) :
    Stochastic ⟨normEdges g.nodes g.edges, initWeights (inverseOf g) g.nodes⟩ := by
  have hk : keys (initWeights (inverseOf g) g.nodes) = keys g.nodes := keys_initWeights _ _
  refine ⟨WF_of_shape g _ hk (normEdges_shape _ _) hwf,
    Closed_of_shape g _ hk (normEdges_shape _ _) hc, ?_, ?_, ?_⟩
  · intro h0
    apply hne
    have := congrArg List.length h0
    simp only [initWeights, List.length_map, List.length_nil] at this
    exact List.length_eq_zero.mp this
  · intro e he f hf
    simp only [normEdges, List.mem_map] at he
    obtain ⟨e0, he0, rfl⟩ := he
    exact normalizeInner_nonneg _ _ (hnn e0 he0) f hf
  · intro s hs
    simp only [hk] at hs
    simp only [outboundOf_initWeights, edgesFrom_normEdges]
    obtain ⟨n, hn⟩ := Option.isSome_iff_exists.mp ((mget_isSome_iff g.nodes s).mpr hs)
    have hval : outboundOf g.nodes s = edgeSum (edgesFrom g.edges s) := by
      simp [outboundOf, hn, hob s n hn]
    have hge : 0 ≤ edgeSum (edgesFrom g.edges s) := edgeSum_nonneg _ (edgesFrom_nonneg g hnn s)
    by_cases hz : outboundOf g.nodes s = 0
    · simp only [hz, if_true, normalizeInner, gt_iff_lt, lt_irrefl, if_false]
      rw [← hval, hz]
    · have hpos : outboundOf g.nodes s > 0 := by
        rw [hval] at hz ⊢
        exact lt_of_le_of_ne hge (Ne.symm hz)
      simp only [hz, if_false, normalizeInner, hpos, if_true]
      rw [edgeSum_div, ← hval]
      exact div_self hz

theorem build_nonneg (calls : List LinkCall) :
    ∀ e ∈ (build calls).edges, ∀ f ∈ e.2, 0 ≤ f.2 := by
  intro e he f hf
  obtain ⟨level, hl⟩ := build_TierWeights calls e he f hf
  rw [hl]; exact levelWeight_nonneg level

theorem build_rankInit (calls : List LinkCall) :
    rankInit (build calls) =
      some ⟨normEdges (build calls).nodes (build calls).edges,
        initWeights (inverseOf (build calls)) (build calls).nodes⟩ :=
  rankInit_eq _ (build_Closed calls)

theorem build_rankInit_Stochastic (calls : List LinkCall) (hne : (build calls).nodes ≠ []) :
    Stochastic ⟨normEdges (build calls).nodes (build calls).edges,
        initWeights (inverseOf (build calls)) (build calls).nodes⟩ :=
  rankInit_Stochastic _ (build_WF calls) (build_Closed calls) hne (build_nonneg calls)
    (build_OutboundInv calls)

theorem weightSum_initWeights (g : Graph) (hne : g.nodes ≠ []) :
    weightSum (initWeights (inverseOf g) g.nodes) = 1 := by
  have hN := length_pos_of_ne_nil g hne
  simp only [weightSum, initWeights, List.map_map, Function.comp_def, inverseOf]
  rw [List.map_const', List.sum_replicate, nsmul_eq_mul]
  field_simp

theorem iterate_Stochastic (alpha : ℚ) (k : Nat) (g : Graph) (h : Stochastic g) :
    Stochastic ((nextGraph alpha)^[k] g) := by
  induction k generalizing g with
  | zero => exact h
  | succ n ih => exact ih _ (nextGraph_Stochastic alpha g h)

theorem inverseOf_iterate (alpha : ℚ) (k : Nat) (g : Graph) :
    inverseOf ((nextGraph alpha)^[k] g) = inverseOf g := by
  induction k generalizing g with
  | zero => rfl
  | succ n ih => rw [Function.iterate_succ_apply, ih, inverseOf_nextGraph]

/-- On a stochastic graph the passes of the loop body never fail; pass `k + 1` yields
    the `(k + 1)`-fold `nextGraph` and the change of the last pass. -/
theorem loopIter_succ_eq (alpha : ℚ) (k : Nat) (g : Graph) (d : ℚ) (h : Stochastic g) :
    loopIter alpha (inverseOf g) (k + 1) (g, d) =
      some ((nextGraph alpha)^[k + 1] g, stepDelta alpha ((nextGraph alpha)^[k] g)) := by
  induction k generalizing g d with
  | zero =>
    simp only [loopIter, rankStep_of_Stochastic alpha g h, Option.some_bind]
    rfl
  | succ n ih =>
    have h1 := ih (nextGraph alpha g) (stepDelta alpha g) (nextGraph_Stochastic alpha g h)
    rw [inverseOf_nextGraph] at h1
    rw [loopIter, rankStep_of_Stochastic alpha g h, Option.some_bind, h1]
    rfl

theorem weightSum_iterate (alpha : ℚ) (k : Nat) (g : Graph) (h : Stochastic g)
    (h1 : weightSum g.nodes = 1) : weightSum ((nextGraph alpha)^[k] g).nodes = 1 := by
  induction k generalizing g with
  | zero => exact h1
  | succ n ih =>
    rw [Function.iterate_succ_apply]
    apply ih _ (nextGraph_Stochastic alpha g h)
    show weightSum (stepNodes alpha g) = 1
    rw [weightSum_stepNodes alpha g h, h1]; ring

theorem rankLoop_ok_loopIter (alpha epsilon inverse : ℚ) (fuel : Nat) (d : ℚ) (g : Graph)
    (r : Graph × ℚ) (h : rankLoop alpha epsilon inverse fuel d g = Outcome.ok r) :
    ∃ k, k ≤ fuel ∧ loopIter alpha inverse k (g, d) = some r := by
  induction fuel generalizing d g with
  | zero =>
    unfold rankLoop at h
    by_cases hd : d > epsilon
    · simp [hd] at h
    · simp only [hd, if_false, Outcome.ok.injEq] at h
      exact ⟨0, le_refl 0, by rw [← h]; rfl⟩
  | succ n ih =>
    unfold rankLoop at h
    by_cases hd : d > epsilon
    · simp only [hd, if_true] at h
      cases hs : rankStep alpha inverse g with
      | none => simp [hs] at h
      | some r1 =>
        obtain ⟨g1, d1⟩ := r1
        simp only [hs] at h
        obtain ⟨k, hk, hit⟩ := ih d1 g1 h
        exact ⟨k + 1, Nat.succ_le_succ hk, by simp only [loopIter, hs, Option.some_bind]; exact hit⟩
    · simp only [hd, if_false, Outcome.ok.injEq] at h
      exact ⟨0, Nat.zero_le _, by rw [← h]; rfl⟩

/-- C2: mass conservation.  For a non-empty graph built by `Link` calls and every
    `alpha`, `Rank` reaches its loop, the node weights sum to exactly 1 after the uniform
    initialisation and after every number of passes of the loop body (none of which
    fails), and whenever `Rank` returns, the ranks passed to the callback sum to 1. -/
theorem mass_conservation (calls : List LinkCall) (alpha : ℚ)
    (hne : (build calls).nodes ≠ []) :
    ∃ g0, rankInit (build calls) = some g0 ∧ weightSum g0.nodes = 1 ∧
      (∀ k, ∃ gk dk, loopIter alpha (inverseOf (build calls)) k (g0, 1) = some (gk, dk) ∧
        weightSum gk.nodes = 1) ∧
      (∀ fuel epsilon g' reported,
        Rank fuel (build calls) alpha epsilon recordCall [] = Outcome.ok (g', reported) →
        (reported.map Prod.snd).sum = 1) := by
  have hst := build_rankInit_Stochastic calls hne
  have hw0 := weightSum_initWeights (build calls) hne
  have hinv : inverseOf (⟨normEdges (build calls).nodes (build calls).edges,
      initWeights (inverseOf (build calls)) (build calls).nodes⟩ : Graph) =
      inverseOf (build calls) :=
    inverseOf_of_keys_eq _ _ (keys_initWeights _ _)
  have hiter : ∀ k, ∃ gk dk, loopIter alpha (inverseOf (build calls)) k
      (⟨normEdges (build calls).nodes (build calls).edges,
        initWeights (inverseOf (build calls)) (build calls).nodes⟩, 1) = some (gk, dk) ∧
      weightSum gk.nodes = 1 := by
    intro k
    cases k with
    | zero => exact ⟨_, 1, rfl, hw0⟩
    | succ n =>
      have h1 := loopIter_succ_eq alpha n _ 1 hst
      rw [hinv] at h1
      exact ⟨_, _, h1, weightSum_iterate alpha (n + 1) _ hst hw0⟩
  refine ⟨_, build_rankInit calls, hw0, hiter, ?_⟩
  intro fuel epsilon g' reported hr
  obtain ⟨g1, delta, h1, h2, h3⟩ := Rank_ok_inv fuel _ alpha epsilon recordCall [] g' reported hr
  rw [build_rankInit calls] at h1
  simp only [Option.some.injEq] at h1
  subst h1
  obtain ⟨k, _, hk⟩ := rankLoop_ok_loopIter _ _ _ _ _ _ _ h2
  obtain ⟨gk, dk, hk', hsum⟩ := hiter k
  rw [hk] at hk'
  simp only [Option.some.injEq, Prod.mk.injEq] at hk'
  rw [h3, report_recordCall, hk'.1]
  simpa [weightSum, List.map_map, Function.comp_def] using hsum

/-- Witness of C2: one edge, damping one half, threshold one half. -/
theorem mass_conservation_witness :
    (build [⟨1, 2, "basic"⟩]).nodes ≠ [] ∧
    Rank 1 (build [⟨1, 2, "basic"⟩]) (1 / 2) (1 / 2) recordCall [] =
      Outcome.ok (⟨[(1, [(2, 1)])], [(1, ⟨3 / 8, 1⟩), (2, ⟨5 / 8, 0⟩)]⟩,
        [(1, 3 / 8), (2, 5 / 8)]) ∧
    (([(1, 3 / 8), (2, 5 / 8)] : List (Nat × ℚ)).map Prod.snd).sum = 1 := by
  have hne : (build [⟨1, 2, "basic"⟩]).nodes ≠ [] := by
    simp [build, linkAll, Link, NewGraph, ensureNode, mget, mset, mmodify, edgeLookup]
  have h : Rank 1 (build [⟨1, 2, "basic"⟩]) (1 / 2) (1 / 2) recordCall [] =
      Outcome.ok (⟨[(1, [(2, 1)])], [(1, ⟨3 / 8, 1⟩), (2, ⟨5 / 8, 0⟩)]⟩,
        [(1, 3 / 8), (2, 5 / 8)]) := by
    simp [Rank, rankInit, rankLoop, rankStep, distribute, spread, addWeight, nodeUpdate,
      snapshot, prevOf, leakSum, zeroWeights, l1Change, edgesFrom, keys,
      normalizeEdges, normalizeInner, initWeights, inverseOf,
      report, recordCall, build, linkAll, Link, NewGraph, ensureNode, mget, mset, mmodify,
      edgeLookup, freshNode, levelWeight]
    norm_num [abs_of_pos]
  obtain ⟨_, _, _, _, hrep⟩ := mass_conservation [⟨1, 2, "basic"⟩] (1 / 2) hne
  exact ⟨hne, h, hrep 1 (1 / 2) _ _ h⟩

/-- More fuel does not change a result that the loop already reached. -/
theorem rankLoop_fuel_succ (alpha epsilon inverse : ℚ) (fuel : Nat) (d : ℚ) (g : Graph)
    (r : Graph × ℚ) (h : rankLoop alpha epsilon inverse fuel d g = Outcome.ok r) :
    rankLoop alpha epsilon inverse (fuel + 1) d g = Outcome.ok r := by
  induction fuel generalizing d g with
  | zero =>
    unfold rankLoop at h ⊢
    by_cases hd : d > epsilon
    · simp [hd] at h
    · simpa [hd] using h
  | succ n ih =>
    unfold rankLoop at h ⊢
    by_cases hd : d > epsilon
    · simp only [hd, if_true] at h ⊢
      cases hs : rankStep alpha inverse g with
      | none => simp [hs] at h
      | some r1 =>
        obtain ⟨g1, d1⟩ := r1
        simp only [hs] at h ⊢
        exact ih d1 g1 h
    · simpa [hd] using h

theorem rankLoop_fuel_mono (alpha epsilon inverse : ℚ) (fuel fuel' : Nat) (d : ℚ) (g : Graph)
    (r : Graph × ℚ) (hle : fuel ≤ fuel')
    (h : rankLoop alpha epsilon inverse fuel d g = Outcome.ok r) :
    rankLoop alpha epsilon inverse fuel' d g = Outcome.ok r := by
  induction hle with
  | refl => exact h
  | step _ ih => exact rankLoop_fuel_succ _ _ _ _ _ _ _ ih

/-- Once `alpha ^ n` times the first change is at most `epsilon`, `n + 1` passes suffice. -/
theorem rankLoop_terminates (alpha epsilon : ℚ) (ha : 0 ≤ alpha) (n : Nat) (g : Graph) (d : ℚ)
    (h : Stochastic g) (hsmall : alpha ^ n * stepDelta alpha g ≤ epsilon) :
    ∃ r, rankLoop alpha epsilon (inverseOf g) (n + 1) d g = Outcome.ok r := by
  induction n generalizing g d with
  | zero =>
    unfold rankLoop
    by_cases hd : d > epsilon
    · simp only [hd, if_true, rankStep_of_Stochastic alpha g h]
      unfold rankLoop
      have : ¬ stepDelta alpha g > epsilon := by
        simpa using hsmall
      simp [this]
    · simp [hd]
  | succ m ih =>
    unfold rankLoop
    by_cases hd : d > epsilon
    · simp only [hd, if_true, rankStep_of_Stochastic alpha g h]
      have hc := stepDelta_contraction alpha g h ha
      have hsmall' : alpha ^ m * stepDelta alpha (nextGraph alpha g) ≤ epsilon := by
        calc alpha ^ m * stepDelta alpha (nextGraph alpha g)
            ≤ alpha ^ m * (alpha * stepDelta alpha g) :=
              mul_le_mul_of_nonneg_left hc (pow_nonneg ha m)
          _ = alpha ^ (m + 1) * stepDelta alpha g := by ring
          _ ≤ epsilon := hsmall
      have := ih (nextGraph alpha g) (stepDelta alpha g) (nextGraph_Stochastic alpha g h) hsmall'
      rw [inverseOf_nextGraph] at this
      exact this
    · simp [hd]

theorem exists_pow_mul_le (alpha D epsilon : ℚ) (ha1 : alpha < 1) (hD : 0 ≤ D)
    (he : 0 < epsilon) : ∃ n : Nat, alpha ^ n * D ≤ epsilon := by
  rcases eq_or_lt_of_le hD with h0 | hpos
  · exact ⟨0, by rw [← h0]; simpa using le_of_lt he⟩
  · obtain ⟨n, hn⟩ := exists_pow_lt_of_lt_one (div_pos he hpos) ha1
    refine ⟨n, ?_⟩
    have := mul_le_mul_of_nonneg_right (le_of_lt hn) hD
    calc alpha ^ n * D ≤ epsilon / D * D := this
      _ = epsilon := by field_simp

/-- C3: termination.  For a non-empty graph built by `Link` calls, `0 ≤ alpha < 1` and
    `epsilon > 0`, some amount of fuel makes `Rank` return, with the same result for
    every larger amount: the loop stops after finitely many passes.  The reason is
    stated too: the change computed by a pass is at most `alpha` times the change
    computed by the pass before. -/
theorem Rank_terminates (calls : List LinkCall) (alpha epsilon : ℚ)
    (hne : (build calls).nodes ≠ []) (ha0 : 0 ≤ alpha) (ha1 : alpha < 1) (he : 0 < epsilon) :
    (∃ fuel result, ∀ fuel', fuel ≤ fuel' →
      Rank fuel' (build calls) alpha epsilon recordCall [] = Outcome.ok result) ∧
    (∃ g0, rankInit (build calls) = some g0 ∧
      ∀ k g1 d1 g2 d2,
        loopIter alpha (inverseOf (build calls)) (k + 1) (g0, 1) = some (g1, d1) →
        loopIter alpha (inverseOf (build calls)) (k + 2) (g0, 1) = some (g2, d2) →
        d2 ≤ alpha * d1) := by
  have hst := build_rankInit_Stochastic calls hne
  have hinv : inverseOf (⟨normEdges (build calls).nodes (build calls).edges,
      initWeights (inverseOf (build calls)) (build calls).nodes⟩ : Graph) =
      inverseOf (build calls) :=
    inverseOf_of_keys_eq _ _ (keys_initWeights _ _)
  constructor
  · obtain ⟨n, hn⟩ := exists_pow_mul_le alpha _ epsilon ha1 (stepDelta_nonneg alpha _) he
    obtain ⟨r, hr⟩ := rankLoop_terminates alpha epsilon ha0 n _ 1 hst hn
    rw [hinv] at hr
    refine ⟨n + 1, (r.1, report recordCall r.1.nodes []), ?_⟩
    intro fuel' hle
    have hr' := rankLoop_fuel_mono _ _ _ _ _ _ _ _ hle hr
    unfold Rank
    rw [build_rankInit calls]
    simp only [hr']
  · refine ⟨_, build_rankInit calls, ?_⟩
    intro k g1 d1 g2 d2 h1 h2
    have e1 := loopIter_succ_eq alpha k _ 1 hst
    have e2 := loopIter_succ_eq alpha (k + 1) _ 1 hst
    rw [hinv] at e1 e2
    rw [e1] at h1
    rw [e2] at h2
    simp only [Option.some.injEq, Prod.mk.injEq] at h1 h2
    rw [← h1.2, ← h2.2, Function.iterate_succ_apply']
    exact stepDelta_contraction alpha _ (iterate_Stochastic alpha k _ hst) ha0

/-- Witness of C3: one edge, damping one half, threshold one half. -/
theorem Rank_terminates_witness :
    (build [⟨1, 2, "basic"⟩]).nodes ≠ [] ∧
    ∃ fuel result, ∀ fuel', fuel ≤ fuel' →
      Rank fuel' (build [⟨1, 2, "basic"⟩]) (1 / 2) (1 / 2) recordCall [] = Outcome.ok result :=
  have hne : (build [⟨1, 2, "basic"⟩]).nodes ≠ [] := by
    simp [build, linkAll, Link, NewGraph, ensureNode, mget, mset, mmodify, edgeLookup]
  ⟨hne, (Rank_terminates [⟨1, 2, "basic"⟩] (1 / 2) (1 / 2) hne (by norm_num) (by norm_num)
    (by norm_num)).1⟩

theorem mem_merase {V : Type} (m : List (Nat × V)) (k : Nat) (e : Nat × V)
    (h : e ∈ merase m k) : e ∈ m := by
  induction m with
  | nil => simp [merase] at h
  | cons e0 rest ih =>
    obtain ⟨k0, v0⟩ := e0
    by_cases h0 : k0 = k
    · simp only [merase, h0, if_true] at h
      exact List.mem_cons_of_mem _ h
    · simp only [merase, h0, if_false] at h
      rcases List.mem_cons.mp h with h1 | h1
      · rw [h1]; exact List.mem_cons_self _ _
      · exact List.mem_cons_of_mem _ (ih h1)

theorem keys_merase {V : Type} (m : List (Nat × V)) (k : Nat) :
    keys (merase m k) = (keys m).erase k := by
  induction m with
  | nil => simp [merase, keys]
  | cons e0 rest ih =>
    obtain ⟨k0, v0⟩ := e0
    simp only [keys] at ih
    by_cases h0 : k0 = k
    · simp [merase, keys, h0]
    · simp [merase, keys, h0, ih, List.erase_cons_tail]

theorem keys_merase_nodup {V : Type} (m : List (Nat × V)) (k : Nat) (h : (keys m).Nodup) :
    (keys (merase m k)).Nodup := by
  rw [keys_merase]; exact h.erase k

theorem mget_merase {V : Type} (m : List (Nat × V)) (k b : Nat) (hn : (keys m).Nodup) :
    mget (merase m k) b = if b = k then none else mget m b := by
  induction m with
  | nil => simp [merase, mget]
  | cons e0 rest ih =>
    obtain ⟨k0, v0⟩ := e0
    have hn' : k0 ∉ keys rest ∧ (keys rest).Nodup := by simpa [keys] using hn
    by_cases h0 : k0 = k
    · subst h0
      simp only [merase, if_true]
      by_cases hb : b = k0
      · subst hb
        simp [(mget_eq_none_iff rest b).mpr hn'.1]
      · have hb' : ¬ k0 = b := fun e => hb e.symm
        simp [mget, hb, hb']
    · simp only [merase, h0, if_false, mget, ih hn'.2]
      by_cases hb : b = k
      · subst hb; simp [h0]
      · simp [hb]

theorem edgeSum_merase (inner : List (Nat × ℚ)) (t : Nat) :
    edgeSum (merase inner t) = edgeSum inner - (mget inner t).getD 0 := by
  induction inner with
  | nil => simp [merase, mget, edgeSum]
  | cons f rest ih =>
    obtain ⟨k0, v0⟩ := f
    simp only [edgeSum] at ih
    by_cases h0 : k0 = t
    · simp [merase, mget, edgeSum, h0]
    · simp [merase, mget, edgeSum, h0, ih]; ring

theorem eraseEdge_edges_mget (g : Graph) (s t a : Nat) :
    mget (eraseEdge g s t).edges a =
      if a = s then (mget g.edges s).map (fun inner => merase inner t) else mget g.edges a := by
  unfold eraseEdge
  by_cases h : a = s
  · subst h; simp [mget_mmodify_self]
  · simp [h, mget_mmodify_ne _ _ (Ne.symm h)]

theorem eraseEdge_edgesFrom (g : Graph) (s t a : Nat) :
    edgesFrom (eraseEdge g s t).edges a =
      if a = s then merase (edgesFrom g.edges s) t else edgesFrom g.edges a := by
  unfold edgesFrom
  rw [eraseEdge_edges_mget]
  by_cases h : a = s
  · subst h
    cases mget g.edges a <;> simp [merase]
  · simp [h]

/-- Erasing an edge of weight 0 changes no edge weight `w(a, b)`. -/
theorem eraseEdge_edgeWeight (g : Graph) (hwf : g.WF) (s t : Nat)
    (h0 : edgeLookup g.edges s t = some 0) (a b : Nat) :
    edgeWeight (eraseEdge g s t).edges a b = edgeWeight g.edges a b := by
  unfold edgeWeight
  rw [edgeLookup_eq_mget_edgesFrom, edgeLookup_eq_mget_edgesFrom, eraseEdge_edgesFrom]
  by_cases ha : a = s
  · subst ha
    simp only [if_true]
    rw [mget_merase _ _ _ (edgesFrom_nodup g hwf a)]
    by_cases hb : b = t
    · subst hb
      rw [edgeLookup_eq_mget_edgesFrom] at h0
      simp [h0]
    · simp [hb]
  · simp [ha]

theorem eraseEdge_mem (g : Graph) (s t : Nat) (e : Nat × List (Nat × ℚ))
    (he : e ∈ (eraseEdge g s t).edges) :
    ∃ e0 ∈ g.edges, e.1 = e0.1 ∧ (e.2 = e0.2 ∨ e.2 = merase e0.2 t) := by
  unfold eraseEdge at he
  rcases mem_mmodify _ _ _ _ he with h1 | ⟨inner, hv, rfl⟩
  · exact ⟨e, h1, rfl, Or.inl rfl⟩
  · exact ⟨(s, inner), hv, rfl, Or.inr rfl⟩

theorem eraseEdge_WF (g : Graph) (s t : Nat) (h : g.WF) : (eraseEdge g s t).WF := by
  refine ⟨h.1, ?_, ?_⟩
  · show (keys (mmodify _ g.edges s)).Nodup
    rw [keys_mmodify]; exact h.2.1
  · intro e he
    obtain ⟨e0, he0, _, h2 | h2⟩ := eraseEdge_mem g s t e he
    · rw [h2]; exact h.2.2 e0 he0
    · rw [h2]; exact keys_merase_nodup _ _ (h.2.2 e0 he0)

theorem eraseEdge_Closed (g : Graph) (s t : Nat) (h : g.Closed) : (eraseEdge g s t).Closed := by
  intro e he
  obtain ⟨e0, he0, h1, h2⟩ := eraseEdge_mem g s t e he
  have hc := h e0 he0
  refine ⟨by rw [h1]; exact hc.1, ?_⟩
  intro f hf
  rcases h2 with h2 | h2
  · rw [h2] at hf; exact hc.2 f hf
  · rw [h2] at hf; exact hc.2 f (mem_merase _ _ _ hf)

theorem eraseEdge_nonneg (g : Graph) (s t : Nat) (h : ∀ e ∈ g.edges, ∀ f ∈ e.2, 0 ≤ f.2) :
    ∀ e ∈ (eraseEdge g s t).edges, ∀ f ∈ e.2, 0 ≤ f.2 := by
  intro e he f hf
  obtain ⟨e0, he0, _, h2 | h2⟩ := eraseEdge_mem g s t e he
  · rw [h2] at hf; exact h e0 he0 f hf
  · rw [h2] at hf; exact h e0 he0 f (mem_merase _ _ _ hf)

theorem eraseEdge_OutboundInv (g : Graph) (s t : Nat) (h : OutboundInv g)
    (h0 : edgeLookup g.edges s t = some 0) : OutboundInv (eraseEdge g s t) := by
  intro a n hn
  rw [eraseEdge_edgesFrom]
  by_cases ha : a = s
  · subst ha
    simp only [if_true]
    rw [edgeSum_merase, ← edgeLookup_eq_mget_edgesFrom, h0]
    simpa using h a n hn
  · simp only [ha, if_false]
    exact h a n hn

theorem mget_normalizeInner (ob : ℚ) (inner : List (Nat × ℚ)) (b : Nat) :
    mget (normalizeInner ob inner) b =
      (mget inner b).map (fun w => if ob > 0 then w / ob else w) := by
  unfold normalizeInner
  by_cases h : ob > 0
  · simp only [h, if_true]
    exact mget_map_val (fun _ w => w / ob) inner b
  · simp [h]

theorem edgeWeight_normEdges (nodes : List (Nat × node)) (edges : List (Nat × List (Nat × ℚ)))
    (a b : Nat) :
    edgeWeight (normEdges nodes edges) a b =
      if outboundOf nodes a > 0 then edgeWeight edges a b / outboundOf nodes a
      else edgeWeight edges a b := by
  unfold edgeWeight
  rw [edgeLookup_eq_mget_edgesFrom, edgeLookup_eq_mget_edgesFrom, edgesFrom_normEdges,
    mget_normalizeInner]
  cases mget (edgesFrom edges a) b with
  | none => simp
  | some w => by_cases h : outboundOf nodes a > 0 <;> simp [h]

theorem specWeight_congr (alpha : ℚ) (h h' : Graph) (hn : h'.nodes = h.nodes)
    (hw : ∀ a b, edgeWeight h'.edges a b = edgeWeight h.edges a b) (k : Nat) :
    specWeight alpha h' k = specWeight alpha h k := by
  unfold specWeight
  rw [hn]
  simp only [hw]

theorem stepNodes_congr (alpha : ℚ) (h h' : Graph) (hn : h'.nodes = h.nodes)
    (hw : ∀ a b, edgeWeight h'.edges a b = edgeWeight h.edges a b) :
    stepNodes alpha h' = stepNodes alpha h := by
  unfold stepNodes
  rw [hn]
  apply List.map_congr_left
  intro e _
  rw [specWeight_congr alpha h h' hn hw]

theorem stepDelta_congr (alpha : ℚ) (h h' : Graph) (hn : h'.nodes = h.nodes)
    (hw : ∀ a b, edgeWeight h'.edges a b = edgeWeight h.edges a b) :
    stepDelta alpha h' = stepDelta alpha h := by
  unfold stepDelta
  rw [stepNodes_congr alpha h h' hn hw, hn]

/-- Two stochastic graphs with the same nodes and the same edge weights `w(a, b)` run
    through the loop of `Rank` in step: same outcome, same `delta`, same final nodes. -/
theorem rankLoop_congr (alpha epsilon : ℚ) (fuel : Nat) (d : ℚ) (h h' : Graph)
    (hs : Stochastic h) (hs' : Stochastic h') (hn : h'.nodes = h.nodes)
    (hw : ∀ a b, edgeWeight h'.edges a b = edgeWeight h.edges a b) (h2 : Graph) (d2 : ℚ)
    (hr : rankLoop alpha epsilon (inverseOf h) fuel d h = Outcome.ok (h2, d2)) :
    ∃ h2', rankLoop alpha epsilon (inverseOf h') fuel d h' = Outcome.ok (h2', d2) ∧
      h2'.nodes = h2.nodes := by
  induction fuel generalizing d h h' with
  | zero =>
    unfold rankLoop at hr ⊢
    by_cases hd : d > epsilon
    · simp [hd] at hr
    · simp only [hd, if_false, Outcome.ok.injEq, Prod.mk.injEq] at hr ⊢
      exact ⟨h', ⟨rfl, hr.2⟩, by rw [hn, hr.1]⟩
  | succ n ih =>
    unfold rankLoop at hr ⊢
    by_cases hd : d > epsilon
    · simp only [hd, if_true, rankStep_of_Stochastic alpha h hs,
        rankStep_of_Stochastic alpha h' hs'] at hr ⊢
      rw [stepDelta_congr alpha h h' hn hw]
      have hn1 : (nextGraph alpha h').nodes = (nextGraph alpha h).nodes :=
        stepNodes_congr alpha h h' hn hw
      have := ih (stepDelta alpha h) (nextGraph alpha h) (nextGraph alpha h')
        (nextGraph_Stochastic alpha h hs) (nextGraph_Stochastic alpha h' hs') hn1 hw
        (by rw [inverseOf_nextGraph]; exact hr)
      rw [inverseOf_nextGraph] at this
      exact this
    · simp only [hd, if_false, Outcome.ok.injEq, Prod.mk.injEq] at hr ⊢
      exact ⟨h', ⟨rfl, hr.2⟩, by rw [hn, hr.1]⟩

theorem iterate_nodes_congr (alpha : ℚ) (k : Nat) (h h' : Graph) (hn : h'.nodes = h.nodes)
    (hw : ∀ a b, edgeWeight h'.edges a b = edgeWeight h.edges a b) :
    ((nextGraph alpha)^[k] h').nodes = ((nextGraph alpha)^[k] h).nodes ∧
    ∀ a b, edgeWeight ((nextGraph alpha)^[k] h').edges a b =
      edgeWeight ((nextGraph alpha)^[k] h).edges a b := by
  induction k generalizing h h' with
  | zero => exact ⟨hn, hw⟩
  | succ n ih =>
    rw [Function.iterate_succ_apply, Function.iterate_succ_apply]
    exact ih (nextGraph alpha h) (nextGraph alpha h') (stepNodes_congr alpha h h' hn hw) hw

theorem nodes_ne_nil_of_edge (g : Graph) (hc : g.Closed) (s t : Nat) (w : ℚ)
    (h : edgeLookup g.edges s t = some w) : g.nodes ≠ [] := by
  unfold edgeLookup at h
  cases hs : mget g.edges s with
  | none => simp [hs] at h
  | some inner =>
    have := (hc _ (mem_of_mget _ _ _ hs)).1
    intro h0
    rw [h0] at this
    simp [mget] at this

/-- C10: unknown-tag neutrality.  Let `g` be built by `Link` calls and hold an edge
    `(s, t)` of weight 0 (the weight of an unrecognised level), and let `g'` be `g`
    without that edge.  Then `Rank` enters its loop on both with the same nodes, the
    normalised weight of the edge is still 0 (so it sends 0 flow to `t`), after every
    number of passes of the loop body both graphs hold the same nodes with the same
    weights and the same `delta`, and `Rank` returns on one exactly when it returns on
    the other, reporting the same ranks. -/
theorem unknown_tag_neutrality (calls : List LinkCall) (s t : Nat) (alpha : ℚ)
    (h0 : edgeLookup (build calls).edges s t = some 0) :
    ∃ g0 g0', rankInit (build calls) = some g0 ∧
      rankInit (eraseEdge (build calls) s t) = some g0' ∧
      g0'.nodes = g0.nodes ∧ edgeWeight g0.edges s t = 0 ∧
      (∀ k, ∃ gk gk' dk,
        loopIter alpha (inverseOf (build calls)) k (g0, 1) = some (gk, dk) ∧
        loopIter alpha (inverseOf (eraseEdge (build calls) s t)) k (g0', 1) = some (gk', dk) ∧
        gk'.nodes = gk.nodes) ∧
      (∀ fuel epsilon g2 reported,
        Rank fuel (build calls) alpha epsilon recordCall [] = Outcome.ok (g2, reported) →
        ∃ g2', Rank fuel (eraseEdge (build calls) s t) alpha epsilon recordCall [] =
          Outcome.ok (g2', reported) ∧ g2'.nodes = g2.nodes) ∧
      (∀ fuel epsilon g2' reported,
        Rank fuel (eraseEdge (build calls) s t) alpha epsilon recordCall [] =
          Outcome.ok (g2', reported) →
        ∃ g2, Rank fuel (build calls) alpha epsilon recordCall [] =
          Outcome.ok (g2, reported) ∧ g2.nodes = g2'.nodes) := by
  have hwf := build_WF calls
  have hc := build_Closed calls
  have hne := nodes_ne_nil_of_edge _ hc s t 0 h0
  have hc' := eraseEdge_Closed (build calls) s t hc
  have hinit' := rankInit_eq _ hc'
  have hst := build_rankInit_Stochastic calls hne
  have hst' := rankInit_Stochastic (eraseEdge (build calls) s t)
    (eraseEdge_WF _ s t hwf) hc' hne (eraseEdge_nonneg _ s t (build_nonneg calls))
    (eraseEdge_OutboundInv _ s t (build_OutboundInv calls) h0)
  have hinv : inverseOf (⟨normEdges (build calls).nodes (build calls).edges,
      initWeights (inverseOf (build calls)) (build calls).nodes⟩ : Graph) =
      inverseOf (build calls) :=
    inverseOf_of_keys_eq _ _ (keys_initWeights _ _)
  have hinv' : inverseOf (⟨normEdges (eraseEdge (build calls) s t).nodes
        (eraseEdge (build calls) s t).edges,
      initWeights (inverseOf (eraseEdge (build calls) s t))
        (eraseEdge (build calls) s t).nodes⟩ : Graph) =
      inverseOf (eraseEdge (build calls) s t) :=
    inverseOf_of_keys_eq _ _ (keys_initWeights _ _)
  have hn0 : (⟨normEdges (eraseEdge (build calls) s t).nodes
        (eraseEdge (build calls) s t).edges,
      initWeights (inverseOf (eraseEdge (build calls) s t))
        (eraseEdge (build calls) s t).nodes⟩ : Graph).nodes =
      (⟨normEdges (build calls).nodes (build calls).edges,
        initWeights (inverseOf (build calls)) (build calls).nodes⟩ : Graph).nodes := rfl
  have hw0 : ∀ a b, edgeWeight (⟨normEdges (eraseEdge (build calls) s t).nodes
        (eraseEdge (build calls) s t).edges,
      initWeights (inverseOf (eraseEdge (build calls) s t))
        (eraseEdge (build calls) s t).nodes⟩ : Graph).edges a b =
      edgeWeight (⟨normEdges (build calls).nodes (build calls).edges,
        initWeights (inverseOf (build calls)) (build calls).nodes⟩ : Graph).edges a b := by
    intro a b
    show edgeWeight (normEdges (build calls).nodes (eraseEdge (build calls) s t).edges) a b =
      edgeWeight (normEdges (build calls).nodes (build calls).edges) a b
    rw [edgeWeight_normEdges, edgeWeight_normEdges, eraseEdge_edgeWeight _ hwf s t h0]
  refine ⟨_, _, build_rankInit calls, hinit', hn0, ?_, ?_, ?_, ?_⟩
  · show edgeWeight (normEdges (build calls).nodes (build calls).edges) s t = 0
    rw [edgeWeight_normEdges]
    have : edgeWeight (build calls).edges s t = 0 := by simp [edgeWeight, h0]
    rw [this]; simp
  · intro k
    cases k with
    | zero => exact ⟨_, _, 1, rfl, rfl, hn0⟩
    | succ n =>
      have e1 := loopIter_succ_eq alpha n _ 1 hst
      have e2 := loopIter_succ_eq alpha n _ 1 hst'
      rw [hinv] at e1
      rw [hinv'] at e2
      obtain ⟨c1, c2⟩ := iterate_nodes_congr alpha n _ _ hn0 hw0
      refine ⟨_, _, _, e1, ?_, (iterate_nodes_congr alpha (n + 1) _ _ hn0 hw0).1⟩
      rw [e2, stepDelta_congr alpha _ _ c1 c2]
  · intro fuel epsilon g2 reported hr
    obtain ⟨g1, delta, h1, h2, h3⟩ := Rank_ok_inv fuel _ alpha epsilon recordCall [] g2 reported hr
    rw [build_rankInit calls] at h1
    simp only [Option.some.injEq] at h1
    subst h1
    obtain ⟨g2', hl, hnodes⟩ := rankLoop_congr alpha epsilon fuel 1 _ _ hst hst' hn0 hw0 g2 delta
      (by rw [hinv]; exact h2)
    rw [hinv'] at hl
    refine ⟨g2', ?_, hnodes⟩
    unfold Rank
    rw [hinit']
    simp only [hl]
    rw [h3, hnodes]
  · intro fuel epsilon g2' reported hr
    obtain ⟨g1, delta, h1, h2, h3⟩ := Rank_ok_inv fuel _ alpha epsilon recordCall [] g2' reported hr
    rw [hinit'] at h1
    simp only [Option.some.injEq] at h1
    subst h1
    obtain ⟨g2, hl, hnodes⟩ := rankLoop_congr alpha epsilon fuel 1 _ _ hst' hst hn0.symm
      (fun a b => (hw0 a b).symm) g2' delta (by rw [hinv']; exact h2)
    rw [hinv] at hl
    refine ⟨g2, ?_, hnodes⟩
    unfold Rank
    rw [build_rankInit calls]
    simp only [hl]
    rw [h3, hnodes]

/-- Witness of C10: a "basic" edge and an edge with the unknown level "expert". -/
theorem unknown_tag_neutrality_witness :
    edgeLookup (build [⟨1, 2, "basic"⟩, ⟨1, 3, "expert"⟩]).edges 1 3 = some 0 ∧
    ∃ g0 g0', rankInit (build [⟨1, 2, "basic"⟩, ⟨1, 3, "expert"⟩]) = some g0 ∧
      rankInit (eraseEdge (build [⟨1, 2, "basic"⟩, ⟨1, 3, "expert"⟩]) 1 3) = some g0' ∧
      g0'.nodes = g0.nodes ∧ edgeWeight g0.edges 1 3 = 0 := by
  have h0 : edgeLookup (build [⟨1, 2, "basic"⟩, ⟨1, 3, "expert"⟩]).edges 1 3 = some 0 := by
    simp [build, linkAll, Link, NewGraph, ensureNode, mget, mset, mmodify, edgeLookup,
      freshNode, levelWeight]
  obtain ⟨g0, g0', h1, h2, h3, h4, _⟩ :=
    unknown_tag_neutrality [⟨1, 2, "basic"⟩, ⟨1, 3, "expert"⟩] 1 3 (1 / 2) h0
  exact ⟨h0, g0, g0', h1, h2, h3, h4⟩

theorem build_chain (A B : Nat) (hAB : A ≠ B) :
    build [⟨A, B, "basic"⟩] = chainGraph A B 0 0 := by
  have hBA : ¬ B = A := fun h => hAB h.symm
  simp [build, linkAll, Link, NewGraph, ensureNode, mget, mset, mmodify, edgeLookup,
    freshNode, levelWeight, chainGraph, hAB, hBA]

theorem rankInit_chain (A B : Nat) :
    rankInit (chainGraph A B 0 0) = some (chainGraph A B (1 / 2) (1 / 2)) := by
  simp [rankInit, normalizeEdges, normalizeInner, initWeights, inverseOf, chainGraph, mget]

theorem rankStep_chain (A B : Nat) (hAB : A ≠ B) (alpha a b : ℚ) :
    rankStep alpha (1 / 2) (chainGraph A B a b) =
      some (chainGraph A B ((1 - alpha) * (1 / 2) + b * alpha * (1 / 2))
          (alpha * a + ((1 - alpha) * (1 / 2) + b * alpha * (1 / 2))),
        |(1 - alpha) * (1 / 2) + b * alpha * (1 / 2) - a| +
          |alpha * a + ((1 - alpha) * (1 / 2) + b * alpha * (1 / 2)) - b|) := by
  have hBA : ¬ B = A := fun h => hAB h.symm
  simp [rankStep, distribute, spread, addWeight, nodeUpdate, snapshot, prevOf, leakSum,
    zeroWeights, l1Change, edgesFrom, keys, chainGraph, mget, mmodify, hAB, hBA]

/-- One pass on the chain, with `b = 1 - a`: the new weight of `A` is `1/2 - alpha * a / 2`
    and the change is twice the change of `A`. -/
theorem rankStep_chain_unit (A B : Nat) (hAB : A ≠ B) (alpha a : ℚ) :
    rankStep alpha (1 / 2) (chainGraph A B a (1 - a)) =
      some (chainGraph A B (1 / 2 - alpha * a / 2) (1 - (1 / 2 - alpha * a / 2)),
        2 * |(1 / 2 - alpha * a / 2) - a|) := by
  rw [rankStep_chain A B hAB]
  have e1 : (1 - alpha) * (1 / 2) + (1 - a) * alpha * (1 / 2) = 1 / 2 - alpha * a / 2 := by ring
  have e2 : alpha * a + (1 / 2 - alpha * a / 2) = 1 - (1 / 2 - alpha * a / 2) := by ring
  have e3 : 1 - (1 / 2 - alpha * a / 2) - (1 - a) = -((1 / 2 - alpha * a / 2) - a) := by ring
  rw [e1, e2, e3, abs_neg]
  congr 2
  ring

theorem chain_next_facts (alpha a : ℚ) (ha0 : 0 < alpha) (ha1 : alpha ≤ 1) (hpos : 0 < a)
    (hle : a ≤ 1 / 2) :
    0 < 1 / 2 - alpha * a / 2 ∧ 1 / 2 - alpha * a / 2 < 1 / 2 ∧
    |(1 / 2 - alpha * a / 2) - 1 / (2 + alpha)| +
      |(1 - (1 / 2 - alpha * a / 2)) - (1 + alpha) / (2 + alpha)| ≤
      2 * |(1 / 2 - alpha * a / 2) - a| := by
  have h2a : (0 : ℚ) < 2 + alpha := by linarith
  refine ⟨by nlinarith, by nlinarith, ?_⟩
  have e1 : (1 / 2 - alpha * a / 2) - 1 / (2 + alpha) =
      (alpha / (2 + alpha)) * ((1 / 2 - alpha * a / 2) - a) := by
    field_simp; ring
  have e2 : (1 - (1 / 2 - alpha * a / 2)) - (1 + alpha) / (2 + alpha) =
      (alpha / (2 + alpha)) * (-((1 / 2 - alpha * a / 2) - a)) := by
    field_simp; ring
  have hc0 : 0 ≤ alpha / (2 + alpha) := le_of_lt (div_pos ha0 h2a)
  have hc1 : alpha / (2 + alpha) ≤ 1 := by
    rw [div_le_one h2a]; linarith
  rw [e1, e2, abs_mul, abs_mul, abs_neg, abs_of_nonneg hc0]
  have := abs_nonneg ((1 / 2 - alpha * a / 2) - a)
  nlinarith

/-- The loop of `Rank` on the chain stops, and it stops within `epsilon` of the fixed
    point with `A` ranked below `B`. -/
theorem rankLoop_chain (A B : Nat) (hAB : A ≠ B) (alpha epsilon : ℚ) (ha0 : 0 < alpha)
    (ha1 : alpha ≤ 1) (n : Nat) (a d : ℚ) (hpos : 0 < a) (hle : a ≤ 1 / 2)
    (hgood : d ≤ epsilon →
      |a - 1 / (2 + alpha)| + |(1 - a) - (1 + alpha) / (2 + alpha)| ≤ epsilon ∧ a < 1 - a)
    (hsmall : (alpha / 2) ^ n * (2 * |(1 / 2 - alpha * a / 2) - a|) ≤ epsilon) :
    ∃ af df, rankLoop alpha epsilon (1 / 2) (n + 1) d (chainGraph A B a (1 - a)) =
        Outcome.ok (chainGraph A B af (1 - af), df) ∧
      |af - 1 / (2 + alpha)| + |(1 - af) - (1 + alpha) / (2 + alpha)| ≤ epsilon ∧
      af < 1 - af := by
  induction n generalizing a d with
  | zero =>
    obtain ⟨hnext_pos, hnext_lt, hdist⟩ := chain_next_facts alpha a ha0 ha1 hpos hle
    unfold rankLoop
    by_cases hd : d > epsilon
    · simp only [hd, if_true, rankStep_chain_unit A B hAB]
      unfold rankLoop
      have hs : 2 * |(1 / 2 - alpha * a / 2) - a| ≤ epsilon := by simpa using hsmall
      have : ¬ 2 * |(1 / 2 - alpha * a / 2) - a| > epsilon := not_lt.mpr hs
      simp only [this, if_false]
      exact ⟨_, _, rfl, le_trans hdist hs, by linarith⟩
    · simp only [hd, if_false]
      exact ⟨a, d, rfl, hgood (not_lt.mp hd)⟩
  | succ m ih =>
    obtain ⟨hnext_pos, hnext_lt, hdist⟩ := chain_next_facts alpha a ha0 ha1 hpos hle
    unfold rankLoop
    by_cases hd : d > epsilon
    · simp only [hd, if_true, rankStep_chain_unit A B hAB]
      have e : (1 / 2 - alpha * (1 / 2 - alpha * a / 2) / 2) - (1 / 2 - alpha * a / 2) =
          (alpha / 2) * (-((1 / 2 - alpha * a / 2) - a)) := by ring
      have hsmall' : (alpha / 2) ^ m *
          (2 * |(1 / 2 - alpha * (1 / 2 - alpha * a / 2) / 2) - (1 / 2 - alpha * a / 2)|) ≤
          epsilon := by
        rw [e, abs_mul, abs_neg, abs_of_nonneg (by linarith : (0 : ℚ) ≤ alpha / 2)]
        calc (alpha / 2) ^ m * (2 * (alpha / 2 * |(1 / 2 - alpha * a / 2) - a|))
            = (alpha / 2) ^ (m + 1) * (2 * |(1 / 2 - alpha * a / 2) - a|) := by ring
          _ ≤ epsilon := hsmall
      exact ih (1 / 2 - alpha * a / 2) (2 * |(1 / 2 - alpha * a / 2) - a|) hnext_pos
        (le_of_lt hnext_lt) (fun h => ⟨le_trans hdist h, by linarith⟩) hsmall'
    · simp only [hd, if_false]
      exact ⟨a, d, rfl, hgood (not_lt.mp hd)⟩

/-- C11: the two-node chain.  For the graph built by `Link(A, B, "basic")` with
    `A ≠ B`, `0 < alpha ≤ 1` and `0 < epsilon < 1`, `Rank` returns for every large enough
    amount of fuel, it reports exactly the two nodes, and the reported ranks are within
    `epsilon` in L1 distance of the fixed point `1/(2+alpha)`, `(1+alpha)/(2+alpha)`,
    the rank of `B` being higher than the rank of `A`. -/
theorem two_node_chain (A B : Nat) (alpha epsilon : ℚ) (hAB : A ≠ B) (ha0 : 0 < alpha)
    (ha1 : alpha ≤ 1) (he0 : 0 < epsilon) (he1 : epsilon < 1) :
    ∃ fuel gf rA rB,
      (∀ fuel', fuel ≤ fuel' →
        Rank fuel' (build [⟨A, B, "basic"⟩]) alpha epsilon recordCall [] =
          Outcome.ok (gf, [(A, rA), (B, rB)])) ∧
      |rA - 1 / (2 + alpha)| + |rB - (1 + alpha) / (2 + alpha)| ≤ epsilon ∧ rA < rB := by
  obtain ⟨n, hn⟩ := exists_pow_mul_le (alpha / 2)
    (2 * |(1 / 2 - alpha * (1 / 2) / 2) - 1 / 2|) epsilon (by linarith)
    (by positivity) he0
  have hhalf : chainGraph A B (1 / 2) (1 / 2) = chainGraph A B (1 / 2) (1 - 1 / 2) := by
    norm_num
  obtain ⟨af, df, hloop, hdist, hlt⟩ := rankLoop_chain A B hAB alpha epsilon ha0 ha1 n (1 / 2) 1
    (by norm_num) (le_refl _) (fun h => absurd h (not_le.mpr he1)) hn
  refine ⟨n + 1, chainGraph A B af (1 - af), af, 1 - af, ?_, hdist, hlt⟩
  intro fuel' hle
  have hloop' := rankLoop_fuel_mono _ _ _ _ _ _ _ _ hle hloop
  have hinv : inverseOf (build [⟨A, B, "basic"⟩]) = 1 / 2 := by
    rw [build_chain A B hAB]; simp [inverseOf, chainGraph]
  unfold Rank
  rw [hinv, build_chain A B hAB, rankInit_chain A B, hhalf]
  simp only [hloop']
  simp [report, recordCall, chainGraph]

/-- Witness of C11: nodes 1 and 2, `alpha = 0.85`, `epsilon = 1e-6`. -/
theorem two_node_chain_witness :
    ∃ fuel gf rA rB,
      (∀ fuel', fuel ≤ fuel' →
        Rank fuel' (build [⟨1, 2, "basic"⟩]) (85 / 100) (1 / 1000000) recordCall [] =
          Outcome.ok (gf, [(1, rA), (2, rB)])) ∧
      |rA - 1 / (2 + (85 / 100 : ℚ))| + |rB - (1 + 85 / 100) / (2 + (85 / 100 : ℚ))| ≤
        1 / 1000000 ∧ rA < rB :=
  two_node_chain 1 2 (85 / 100) (1 / 1000000) (by decide) (by norm_num) (by norm_num)
    (by norm_num) (by norm_num)

theorem singleton_step (alpha : ℚ) (h : Graph) (A : Nat) (ob : ℚ) (hst : Stochastic h)
    (hn : h.nodes = [(A, ⟨1, ob⟩)]) :
    stepNodes alpha h = [(A, ⟨1, ob⟩)] ∧ stepDelta alpha h = 0 := by
  have hsum := weightSum_stepNodes alpha h hst
  have hw : specWeight alpha h A = 1 := by
    simp only [weightSum, stepNodes, hn, List.map_cons, List.map_nil, List.sum_cons,
      List.sum_nil, add_zero] at hsum
    rw [hsum]; ring
  have hstep : stepNodes alpha h = [(A, ⟨1, ob⟩)] := by
    simp only [stepNodes, hn, List.map_cons, List.map_nil, hw]
  refine ⟨hstep, ?_⟩
  simp [stepDelta, hstep, l1Change, snapshot, prevOf, hn, mget]

/-- C12: the singleton graph.  A graph with exactly one node `A`, whose maps hold no key
    twice, which is closed, has no negative weight and satisfies the outbound invariant
    (the one-node graph without edges and outbound 0, and every one-node graph left by
    `Link` calls, which then has only self-edges), is ranked with at most one pass of
    the loop for every `alpha` and every `epsilon ≥ 0`: with one unit of fuel or more
    `Rank` returns and reports rank exactly 1 for `A`, and nothing else. -/
theorem singleton_graph (g : Graph) (A : Nat) (n : node) (alpha epsilon : ℚ)
    (hnodes : g.nodes = [(A, n)]) (hwf : g.WF) (hc : g.Closed) (hob : OutboundInv g)
    (hnn : ∀ e ∈ g.edges, ∀ f ∈ e.2, 0 ≤ f.2) (he : 0 ≤ epsilon) :
    ∀ fuel, 1 ≤ fuel → ∃ gf, Rank fuel g alpha epsilon recordCall [] =
      Outcome.ok (gf, [(A, 1)]) := by
  have hne : g.nodes ≠ [] := by rw [hnodes]; simp
  have hst := rankInit_Stochastic g hwf hc hne hnn hob
  have hinv1 : inverseOf g = 1 := by simp [inverseOf, hnodes]
  have hinit : (⟨normEdges g.nodes g.edges, initWeights (inverseOf g) g.nodes⟩ : Graph).nodes =
      [(A, ⟨1, n.outbound⟩)] := by
    simp [initWeights, hnodes, hinv1]
  have hinvg : inverseOf (⟨normEdges g.nodes g.edges, initWeights (inverseOf g) g.nodes⟩ : Graph)
      = inverseOf g := inverseOf_of_keys_eq _ _ (keys_initWeights _ _)
  obtain ⟨hstep, hdelta⟩ := singleton_step alpha _ A n.outbound hst hinit
  intro fuel hfuel
  obtain ⟨m, rfl⟩ : ∃ m, fuel = m + 1 := ⟨fuel - 1, by omega⟩
  unfold Rank
  rw [rankInit_eq g hc]
  simp only
  by_cases h1 : (1 : ℚ) > epsilon
  · have hloop : rankLoop alpha epsilon (inverseOf g) (m + 1) 1
        ⟨normEdges g.nodes g.edges, initWeights (inverseOf g) g.nodes⟩ =
        Outcome.ok (nextGraph alpha
          ⟨normEdges g.nodes g.edges, initWeights (inverseOf g) g.nodes⟩, 0) := by
      have hs := rankStep_of_Stochastic alpha _ hst
      rw [hinvg, hdelta] at hs
      unfold rankLoop
      simp only [h1, if_true, hs]
      unfold rankLoop
      have : ¬ (0 : ℚ) > epsilon := not_lt.mpr he
      cases m <;> simp [this]
    rw [hloop]
    simp only [nextGraph, hstep, report, recordCall, List.foldl, List.nil_append]
    exact ⟨_, rfl⟩
  · have hloop : rankLoop alpha epsilon (inverseOf g) (m + 1) 1
        ⟨normEdges g.nodes g.edges, initWeights (inverseOf g) g.nodes⟩ =
        Outcome.ok (⟨normEdges g.nodes g.edges, initWeights (inverseOf g) g.nodes⟩, 1) := by
      unfold rankLoop
      simp [h1]
    have hinit' : initWeights (inverseOf g) g.nodes = [(A, ⟨1, n.outbound⟩)] := hinit
    rw [hloop]
    simp only [hinit', report, recordCall, List.foldl, List.nil_append]
    exact ⟨_, rfl⟩

/-- Witness of C12: one node with an "advanced" self-edge. -/
theorem singleton_graph_witness :
    (build [⟨5, 5, "advanced"⟩]).nodes = [(5, ⟨0, 4⟩)] ∧
    ∀ fuel, 1 ≤ fuel → ∃ gf,
      Rank fuel (build [⟨5, 5, "advanced"⟩]) (85 / 100) 0 recordCall [] =
        Outcome.ok (gf, [(5, 1)]) :=
  have h : (build [⟨5, 5, "advanced"⟩]).nodes = [(5, ⟨0, 4⟩)] := by
    simp [build, linkAll, Link, NewGraph, ensureNode, mget, mset, mmodify, edgeLookup,
      freshNode, levelWeight]
  ⟨h, singleton_graph _ 5 ⟨0, 4⟩ (85 / 100) 0 h (build_WF _) (build_Closed _)
    (build_OutboundInv _) (build_nonneg _) (le_refl 0)⟩

/-- C13: reset equivalence.  After any graph state (in particular after any sequence of
    `Link` and `Rank` calls) `Reset` leaves exactly the state of `NewGraph`, with no
    nodes and no edges; hence every later sequence of `Link` calls builds the same
    graph, and every later `Rank` gives the same outcome, as on a fresh graph. -/
theorem Reset_eq_NewGraph (g : Graph) :
    Reset g = NewGraph ∧ (Reset g).nodes = [] ∧ (Reset g).edges = [] ∧
    (∀ calls, linkAll (Reset g) calls = build calls) ∧
    (∀ calls fuel alpha epsilon,
      Rank fuel (linkAll (Reset g) calls) alpha epsilon recordCall [] =
        Rank fuel (build calls) alpha epsilon recordCall []) :=
  ⟨rfl, rfl, rfl, fun _ => rfl, fun _ _ _ _ => rfl⟩

theorem Rank_calls_each_node_once_aux (fuel : Nat) (g : Graph) (alpha epsilon : ℚ)
    (g' : Graph) (calls : List (Nat × ℚ))
    (h : Rank fuel g alpha epsilon recordCall [] = Outcome.ok (g', calls)) :
    calls = g'.nodes.map (fun e => (e.1, e.2.weight)) ∧ calls.map Prod.fst = keys g.nodes := by
  obtain ⟨g1, delta, h1, h2, h3⟩ := Rank_ok_inv fuel g alpha epsilon recordCall [] g' calls h
  obtain ⟨hk, _⟩ := Rank_shape fuel g alpha epsilon recordCall [] g' calls h
  have hcalls : calls = g'.nodes.map (fun e => (e.1, e.2.weight)) := by
    rw [h3, report_recordCall]; rfl
  refine ⟨hcalls, ?_⟩
  rw [hcalls, ← hk]
  simp [keys, List.map_map, Function.comp_def]

theorem report_jsonCallback (fmtF : ℚ → List Char) (ns : List (Nat × node)) (acc : List Char) :
    report (jsonCallback fmtF) ns acc =
      acc ++ (ns.map (fun e => jsonEntry fmtF e.1 e.2.weight ++ jsonSep)).flatten := by
  induction ns generalizing acc with
  | nil => simp [report]
  | cons e rest ih =>
    simp only [report, List.foldl_cons] at ih ⊢
    rw [ih]
    simp [jsonCallback]

theorem flatten_sep_eq_intercalate (sep : List Char) (l : List (List Char)) (h : l ≠ []) :
    (l.map (fun x => x ++ sep)).flatten = List.intercalate sep l ++ sep := by
  induction l with
  | nil => exact absurd rfl h
  | cons x rest ih =>
    cases rest with
    | nil => simp [List.intercalate]
    | cons y rest' =>
      have := ih (by simp)
      simp only [List.map_cons, List.flatten_cons] at this ⊢
      rw [this]
      simp [List.intercalate, List.intersperse]

theorem jsonEntry_length (fmtF : ℚ → List Char) (id : Nat) (rank : ℚ) :
    1 ≤ (jsonEntry fmtF id rank).length := by
  simp [jsonEntry]

/-- The outcome of `RankInJSON` from the outcome of `Rank` with the recording callback. -/
theorem RankInJSON_of_Rank (fmtF : ℚ → List Char) (fuel : Nat) (g : Graph) (alpha epsilon : ℚ)
    (g' : Graph) (calls : List (Nat × ℚ))
    (h : Rank fuel g alpha epsilon recordCall [] = Outcome.ok (g', calls)) :
    RankInJSON fmtF fuel g alpha epsilon =
      if calls = [] then JsonOutcome.slicePanic
      else JsonOutcome.ok ([Char.ofNat 123] ++
        List.intercalate jsonSep (calls.map (fun c => jsonEntry fmtF c.1 c.2)) ++
        [Char.ofNat 125]) := by
  obtain ⟨hcalls, _⟩ := Rank_calls_each_node_once_aux fuel g alpha epsilon g' calls h
  have hr := Rank_callback_indep fuel g alpha epsilon recordCall [] (jsonCallback fmtF) []
    g' calls h
  unfold RankInJSON
  rw [hr]
  simp only [report_jsonCallback, List.nil_append]
  have hmap : (g'.nodes.map (fun e => jsonEntry fmtF e.1 e.2.weight ++ jsonSep)) =
      (calls.map (fun c => jsonEntry fmtF c.1 c.2)).map (fun x => x ++ jsonSep) := by
    rw [hcalls]; simp [List.map_map, Function.comp_def]
  rw [hmap]
  by_cases hc : calls = []
  · simp [hc]
  · have hne : calls.map (fun c => jsonEntry fmtF c.1 c.2) ≠ [] := by simpa using hc
    rw [flatten_sep_eq_intercalate jsonSep _ hne]
    have hlen : ¬ (List.intercalate jsonSep (calls.map (fun c => jsonEntry fmtF c.1 c.2)) ++
        jsonSep).length < 2 := by
      simp [jsonSep]
    simp only [hlen, if_false, hc]
    congr 3
    have : (List.intercalate jsonSep (calls.map (fun c => jsonEntry fmtF c.1 c.2)) ++
        jsonSep).length - 2 =
        (List.intercalate jsonSep (calls.map (fun c => jsonEntry fmtF c.1 c.2))).length := by
      simp [jsonSep]
    rw [this, List.take_left']
    rfl

/-- On the empty graph `Rank` returns after at most one pass, without any call of the
    callback. -/
theorem Rank_empty {σ : Type} (fuel : Nat) (alpha epsilon : ℚ) (callback : Nat → ℚ → σ → σ)
    (s0 : σ) (hf : 1 ≤ fuel) (he : 0 ≤ epsilon) :
    Rank fuel NewGraph alpha epsilon callback s0 = Outcome.ok (NewGraph, s0) := by
  obtain ⟨m, rfl⟩ : ∃ m, fuel = m + 1 := ⟨fuel - 1, by omega⟩
  have h0 : ¬ (0 : ℚ) > epsilon := not_lt.mpr he
  have hstep : rankStep alpha (inverseOf NewGraph) ⟨[], []⟩ = some (⟨[], []⟩, 0) := by
    simp [rankStep, distribute, keys, zeroWeights, snapshot, l1Change, NewGraph]
  have hloop : rankLoop alpha epsilon (inverseOf NewGraph) (m + 1) 1 ⟨[], []⟩ =
      Outcome.ok (⟨[], []⟩, if (1 : ℚ) > epsilon then 0 else 1) := by
    unfold rankLoop
    by_cases h1 : (1 : ℚ) > epsilon
    · simp only [h1, if_true, hstep]
      unfold rankLoop
      cases m <;> simp [h0]
    · simp [h1]
  unfold Rank
  have hinit : rankInit NewGraph = some ⟨[], []⟩ := by
    simp [rankInit, normalizeEdges, initWeights, NewGraph]
  rw [hinit]
  simp only [hloop]
  simp [report, NewGraph]

/-- When `RankInJSON` returns a string, it is `{`, then one entry `"<id>": <rank>` per
    call of the callback of `Rank` (one per node id, in the order of the callback)
    joined by `, ` without trailing separator, then `}`; and the graph has a node. -/
theorem RankInJSON_shape (fmtF : ℚ → List Char) (fuel : Nat) (g : Graph) (alpha epsilon : ℚ)
    (out : List Char) (h : RankInJSON fmtF fuel g alpha epsilon = JsonOutcome.ok out) :
    ∃ g' calls, Rank fuel g alpha epsilon recordCall [] = Outcome.ok (g', calls) ∧
      calls.map Prod.fst = keys g.nodes ∧ calls ≠ [] ∧
      out = [Char.ofNat 123] ++
        List.intercalate jsonSep (calls.map (fun c => jsonEntry fmtF c.1 c.2)) ++
        [Char.ofNat 125] := by
  cases hr : Rank fuel g alpha epsilon recordCall [] with
  | nilPanic =>
    have : Rank fuel g alpha epsilon (jsonCallback fmtF) [] = Outcome.nilPanic := by
      unfold Rank at hr ⊢
      cases h1 : rankInit g with
      | none => rfl
      | some g1 =>
        rw [h1] at hr
        simp only at hr ⊢
        cases h2 : rankLoop alpha epsilon (inverseOf g) fuel 1 g1 with
        | ok r => rw [h2] at hr; simp at hr
        | nilPanic => rfl
        | noFuel => rw [h2] at hr; simp at hr
    simp [RankInJSON, this] at h
  | noFuel =>
    have : Rank fuel g alpha epsilon (jsonCallback fmtF) [] = Outcome.noFuel := by
      unfold Rank at hr ⊢
      cases h1 : rankInit g with
      | none => rw [h1] at hr; simp at hr
      | some g1 =>
        rw [h1] at hr
        simp only at hr ⊢
        cases h2 : rankLoop alpha epsilon (inverseOf g) fuel 1 g1 with
        | ok r => rw [h2] at hr; simp at hr
        | nilPanic => rw [h2] at hr; simp at hr
        | noFuel => rfl
    simp [RankInJSON, this] at h
  | ok r =>
    obtain ⟨g', calls⟩ := r
    have hj := RankInJSON_of_Rank fmtF fuel g alpha epsilon g' calls hr
    rw [hj] at h
    by_cases hc : calls = []
    · simp [hc] at h
    · simp only [hc, if_false, JsonOutcome.ok.injEq] at h
      exact ⟨g', calls, rfl, (Rank_calls_each_node_once_aux fuel g alpha epsilon g' calls hr).2,
        hc, h.symm⟩

/-- C14 (failing input): on the empty graph `Rank` returns, with no call of the
    callback, yet `RankInJSON` returns no string: cutting the last two characters off the
    empty string is a slice out of range. -/
theorem RankInJSON_empty_graph (fmtF : ℚ → List Char) :
    Rank 1 NewGraph (85 / 100) (1 / 1000000) recordCall [] = Outcome.ok (NewGraph, []) ∧
    RankInJSON fmtF 1 NewGraph (85 / 100) (1 / 1000000) = JsonOutcome.slicePanic ∧
    ∀ out, RankInJSON fmtF 1 NewGraph (85 / 100) (1 / 1000000) ≠ JsonOutcome.ok out := by
  have hr := Rank_empty 1 (85 / 100) (1 / 1000000) recordCall [] (le_refl 1) (by norm_num)
  have hj : RankInJSON fmtF 1 NewGraph (85 / 100) (1 / 1000000) = JsonOutcome.slicePanic := by
    rw [RankInJSON_of_Rank fmtF 1 NewGraph _ _ NewGraph [] hr]
    simp
  exact ⟨hr, hj, fun out h => by rw [hj] at h; exact JsonOutcome.noConfusion h⟩

/-- On every graph reachable by `Link` and `Reset` calls (indeed by `Rank` calls too),
    neither `Rank` nor `RankInJSON` dereferences a missing node. -/
theorem RankInJSON_ne_nilPanic (fmtF : ℚ → List Char) (fuel : Nat) (g : Graph)
    (alpha epsilon : ℚ) (h : Reachable g) :
    RankInJSON fmtF fuel g alpha epsilon ≠ JsonOutcome.nilPanic := by
  obtain ⟨hwf, hc⟩ := Reachable_WF_Closed g h
  have hnp := Rank_ne_nilPanic fuel g alpha epsilon (jsonCallback fmtF) [] hwf hc
  unfold RankInJSON
  cases hr : Rank fuel g alpha epsilon (jsonCallback fmtF) [] with
  | nilPanic => exact absurd hr hnp
  | noFuel => simp
  | ok r =>
    obtain ⟨g', ranking⟩ := r
    simp only
    split_ifs <;> simp

/-- C15 (failing input): after `Reset`, and so on the empty graph, `RankInJSON` ends in
    a runtime panic for every `alpha`, every `epsilon > 0` and every amount of fuel that
    lets the loop of `Rank` make its one pass: the slice `ranking[:len(ranking)-2]` of
    the empty string is out of range. -/
theorem RankInJSON_panics_after_Reset (fmtF : ℚ → List Char) (g : Graph) (fuel : Nat)
    (alpha epsilon : ℚ) (hf : 1 ≤ fuel) (he : 0 < epsilon) :
    Reachable (Reset NewGraph) ∧
    RankInJSON fmtF fuel (Reset g) alpha epsilon = JsonOutcome.slicePanic := by
  refine ⟨Reachable.reset _ Reachable.new, ?_⟩
  have hr := Rank_empty fuel alpha epsilon recordCall [] hf (le_of_lt he)
  show RankInJSON fmtF fuel NewGraph alpha epsilon = JsonOutcome.slicePanic
  rw [RankInJSON_of_Rank fmtF fuel NewGraph _ _ NewGraph [] hr]
  simp

/-- Witness of C15: damping 0.85, threshold 1e-6, one unit of fuel. -/
theorem RankInJSON_panics_after_Reset_witness :
    (1 ≤ 1) ∧ (0 : ℚ) < 1 / 1000000 ∧
    RankInJSON (fun _ => []) 1 (Reset (build [⟨1, 2, "basic"⟩])) (85 / 100) (1 / 1000000) =
      JsonOutcome.slicePanic :=
  ⟨le_refl 1, by norm_num,
    (RankInJSON_panics_after_Reset (fun _ => []) (build [⟨1, 2, "basic"⟩]) 1 (85 / 100)
      (1 / 1000000) (le_refl 1) (by norm_num)).2⟩

/-- The first ranking of the graph with one "intermediate" edge from 1 to 2. -/
theorem Rank_intermediate_first :
    Rank 1 (build [⟨1, 2, "intermediate"⟩]) (1 / 2) (1 / 2) recordCall [] =
      Outcome.ok (⟨[(1, [(2, 1)])], [(1, ⟨3 / 8, 2⟩), (2, ⟨5 / 8, 0⟩)]⟩,
        [(1, 3 / 8), (2, 5 / 8)]) := by
  simp [Rank, rankInit, rankLoop, rankStep, distribute, spread, addWeight, nodeUpdate,
    snapshot, prevOf, leakSum, zeroWeights, l1Change, edgesFrom, keys,
    normalizeEdges, normalizeInner, initWeights, inverseOf,
    report, recordCall, build, linkAll, Link, NewGraph, ensureNode, mget, mset, mmodify,
    edgeLookup, freshNode, levelWeight]
  norm_num [abs_of_pos]

/-- The second ranking of the same graph instance. -/
theorem Rank_intermediate_second :
    Rank 1 ⟨[(1, [(2, 1)])], [(1, ⟨3 / 8, 2⟩), (2, ⟨5 / 8, 0⟩)]⟩ (1 / 2) (1 / 2) recordCall [] =
      Outcome.ok (⟨[(1, [(2, 1 / 2)])], [(1, ⟨3 / 8, 2⟩), (2, ⟨1 / 2, 0⟩)]⟩,
        [(1, 3 / 8), (2, 1 / 2)]) := by
  simp [Rank, rankInit, rankLoop, rankStep, distribute, spread, addWeight, nodeUpdate,
    snapshot, prevOf, leakSum, zeroWeights, l1Change, edgesFrom, keys,
    normalizeEdges, normalizeInner, initWeights, inverseOf,
    report, recordCall, mget, mmodify]
  norm_num [abs_of_pos]

/-- C16 (failing input): after `Link(1, 2, "intermediate")` a first `Rank` stores the
    edge weight 1 and reports ranks 3/8 and 5/8; a second `Rank` on the same instance
    divides the stored weight by `outbound = 2` again, stores 1/2 and reports ranks
    3/8 and 1/2: the normalisation is not a no-op and the ranks differ. -/
theorem rerank_normalises_again :
    Rank 1 (build [⟨1, 2, "intermediate"⟩]) (1 / 2) (1 / 2) recordCall [] =
      Outcome.ok (⟨[(1, [(2, 1)])], [(1, ⟨3 / 8, 2⟩), (2, ⟨5 / 8, 0⟩)]⟩,
        [(1, 3 / 8), (2, 5 / 8)]) ∧
    Rank 1 ⟨[(1, [(2, 1)])], [(1, ⟨3 / 8, 2⟩), (2, ⟨5 / 8, 0⟩)]⟩ (1 / 2) (1 / 2) recordCall [] =
      Outcome.ok (⟨[(1, [(2, 1 / 2)])], [(1, ⟨3 / 8, 2⟩), (2, ⟨1 / 2, 0⟩)]⟩,
        [(1, 3 / 8), (2, 1 / 2)]) ∧
    edgeWeight [(1, [(2, (1 : ℚ))])] 1 2 ≠ edgeWeight [(1, [(2, (1 / 2 : ℚ))])] 1 2 ∧
    ([(1, 3 / 8), (2, 5 / 8)] : List (Nat × ℚ)) ≠ [(1, 3 / 8), (2, 1 / 2)] := by
  refine ⟨Rank_intermediate_first, Rank_intermediate_second, ?_, ?_⟩
  · simp [edgeWeight, edgeLookup, mget]
  · simp
    norm_num

/-- C17 (failing input): the state after `Link(1, 2, "intermediate")` and `Rank` is
    reachable, its node 1 has `outbound = 2` while the stored weights of its edges sum
    to 1; a following `Link(1, 2, "basic")`, which replaces the edge, leaves
    `outbound = 2` for a single edge of weight 1. -/
theorem outbound_invariant_broken_by_Rank :
    Reachable ⟨[(1, [(2, 1)])], [(1, ⟨3 / 8, 2⟩), (2, ⟨5 / 8, 0⟩)]⟩ ∧
    outboundOf (⟨[(1, [(2, 1)])], [(1, ⟨3 / 8, 2⟩), (2, ⟨5 / 8, 0⟩)]⟩ : Graph).nodes 1 = 2 ∧
    edgeSum (edgesFrom
      (⟨[(1, [(2, 1)])], [(1, ⟨3 / 8, 2⟩), (2, ⟨5 / 8, 0⟩)]⟩ : Graph).edges 1) = 1 ∧
    outboundOf (Link ⟨[(1, [(2, 1)])], [(1, ⟨3 / 8, 2⟩), (2, ⟨5 / 8, 0⟩)]⟩
      1 2 "basic").nodes 1 = 2 ∧
    edgeSum (edgesFrom (Link ⟨[(1, [(2, 1)])], [(1, ⟨3 / 8, 2⟩), (2, ⟨5 / 8, 0⟩)]⟩
      1 2 "basic").edges 1) = 1 ∧
    ¬ OutboundInv ⟨[(1, [(2, 1)])], [(1, ⟨3 / 8, 2⟩), (2, ⟨5 / 8, 0⟩)]⟩ := by
  refine ⟨?_, ?_, ?_, ?_, ?_, ?_⟩
  · exact Reachable.rank _ 1 (1 / 2) (1 / 2) recordCall [] _ _
      (Reachable.link _ 1 2 "intermediate" Reachable.new) Rank_intermediate_first
  · simp [outboundOf, mget]
  · simp [edgeSum, edgesFrom, mget]
  · simp [outboundOf, Link, ensureNode, mget, mset, mmodify, edgeLookup, levelWeight]
  · simp [edgeSum, edgesFrom, Link, ensureNode, mget, mset, mmodify, edgeLookup, levelWeight]
  · intro h
    have := h 1 ⟨3 / 8, 2⟩ (by simp [mget])
    simp [edgeSum, edgesFrom, mget] at this

theorem all_zero_of_edgeSum_zero (inner : List (Nat × ℚ)) (hnn : ∀ f ∈ inner, 0 ≤ f.2)
    (h : edgeSum inner = 0) : ∀ f ∈ inner, f.2 = 0 := by
  induction inner with
  | nil => intro f hf; simp at hf
  | cons f0 rest ih =>
    have h0 : 0 ≤ f0.2 := hnn f0 (List.mem_cons_self _ _)
    have hr : 0 ≤ edgeSum rest := edgeSum_nonneg rest (fun f hf => hnn f (List.mem_cons_of_mem _ hf))
    have hs : f0.2 + edgeSum rest = 0 := by simpa [edgeSum] using h
    intro f hf
    rcases List.mem_cons.mp hf with h1 | h1
    · rw [h1]; linarith
    · exact ih (fun f hf => hnn f (List.mem_cons_of_mem _ hf)) (by linarith) f h1

/-- C18 (counterexample): after `Link(1, 2, "bogus")` the source 1 has `outbound = 0`
    and yet the edge to 2 is recorded in its adjacency; after normalisation its outgoing
    weights sum to 0, not to 1. -/
theorem zero_outbound_keeps_edge :
    ¬ (∀ s n, mget (build [⟨1, 2, "bogus"⟩]).nodes s = some n → n.outbound = 0 →
        edgesFrom (build [⟨1, 2, "bogus"⟩]).edges s = []) ∧
    ¬ (∀ edges' s, normalizeEdges (build [⟨1, 2, "bogus"⟩]).nodes
          (build [⟨1, 2, "bogus"⟩]).edges = some edges' →
        edgesFrom edges' s ≠ [] → edgeSum (edgesFrom edges' s) = 1) := by
  have hb : build [⟨1, 2, "bogus"⟩] = ⟨[(1, [(2, 0)])], [(1, ⟨0, 0⟩), (2, ⟨0, 0⟩)]⟩ := by
    simp [build, linkAll, Link, NewGraph, ensureNode, mget, mset, mmodify, edgeLookup,
      freshNode, levelWeight]
  rw [hb]
  constructor
  · intro h
    have := h 1 ⟨0, 0⟩ (by simp [mget]) rfl
    simp [edgesFrom, mget] at this
  · intro h
    have := h [(1, [(2, 0)])] 1 (by simp [normalizeEdges, normalizeInner, mget])
      (by simp [edgesFrom, mget])
    simp [edgesFrom, mget, edgeSum] at this

/-- C18 (amended): in a graph built by `Link` calls, a source with `outbound = 0` has
    only edges of weight 0 in its adjacency, and no `outbound` is negative; after
    normalisation, in exact arithmetic, the outgoing weights of a source with
    `outbound > 0` sum to exactly 1 and those of a source with `outbound = 0` sum to 0. -/
theorem zero_outbound_only_zero_edges (calls : List LinkCall) (s : Nat) (n : node)
    (h : mget (build calls).nodes s = some n) :
    0 ≤ n.outbound ∧
    (n.outbound = 0 → ∀ f ∈ edgesFrom (build calls).edges s, f.2 = 0) ∧
    ∃ edges', normalizeEdges (build calls).nodes (build calls).edges = some edges' ∧
      (n.outbound > 0 → edgeSum (edgesFrom edges' s) = 1) ∧
      (n.outbound = 0 → edgeSum (edgesFrom edges' s) = 0) := by
  have hob := build_OutboundInv calls s n h
  have hnn := edgesFrom_nonneg (build calls) (build_nonneg calls) s
  have hval : outboundOf (build calls).nodes s = n.outbound := by simp [outboundOf, h]
  refine ⟨by rw [hob]; exact edgeSum_nonneg _ hnn,
    fun hz => all_zero_of_edgeSum_zero _ hnn (by rw [← hob]; exact hz),
    normEdges (build calls).nodes (build calls).edges,
    normalizeEdges_eq _ _ (fun e he => (build_Closed calls e he).1), ?_, ?_⟩
  · intro hpos
    rw [edgesFrom_normEdges, hval, normalizeInner, if_pos hpos, edgeSum_div, ← hob]
    exact div_self (ne_of_gt hpos)
  · intro hz
    rw [edgesFrom_normEdges, hval, normalizeInner, if_neg (by rw [hz]; exact lt_irrefl 0),
      ← hob, hz]

/-- Witness of C18 (amended): a "basic" edge and a "bogus" edge from two sources. -/
theorem zero_outbound_only_zero_edges_witness :
    mget (build [⟨1, 2, "basic"⟩, ⟨2, 1, "bogus"⟩]).nodes 2 = some ⟨0, 0⟩ ∧
    ∀ f ∈ edgesFrom (build [⟨1, 2, "basic"⟩, ⟨2, 1, "bogus"⟩]).edges 2, f.2 = 0 :=
  have h : mget (build [⟨1, 2, "basic"⟩, ⟨2, 1, "bogus"⟩]).nodes 2 = some ⟨0, 0⟩ := by
    simp [build, linkAll, Link, NewGraph, ensureNode, mget, mset, mmodify, edgeLookup,
      freshNode, levelWeight]
  ⟨h, (zero_outbound_only_zero_edges _ 2 ⟨0, 0⟩ h).2.1 rfl⟩

theorem build_cycle :
    build [⟨1, 2, "basic"⟩, ⟨2, 1, "basic"⟩, ⟨3, 1, "basic"⟩] = cycleGraph 0 0 0 := by
  simp [build, linkAll, Link, NewGraph, ensureNode, mget, mset, mmodify, edgeLookup,
    freshNode, levelWeight, cycleGraph]

theorem rankInit_cycle :
    rankInit (cycleGraph 0 0 0) = some (cycleGraph (1 / 3) (1 / 3) (1 / 3)) := by
  simp [rankInit, normalizeEdges, normalizeInner, initWeights, inverseOf, cycleGraph, mget]

/-- One pass with `alpha = 1` on the cycle: node 1 receives the weights of 2 and 3,
    node 2 the weight of 1, node 3 nothing. -/
theorem rankStep_cycle (a b c : ℚ) :
    rankStep 1 (1 / 3) (cycleGraph a b c) =
      some (cycleGraph (b + c) a 0, |b + c - a| + (|a - b| + |c|)) := by
  simp [rankStep, distribute, spread, addWeight, nodeUpdate, snapshot, prevOf, leakSum,
    zeroWeights, l1Change, edgesFrom, keys, cycleGraph, mget, mmodify]

/-- With `alpha = 1` and `epsilon < 2/3` the loop never stops on the cycle, whatever the
    fuel, from each of the three states it visits. -/
theorem rankLoop_cycle_noFuel (epsilon : ℚ) (he : epsilon < 2 / 3) (fuel : Nat) (d : ℚ)
    (g : Graph) (hd : d > epsilon)
    (hg : g = cycleGraph (1 / 3) (1 / 3) (1 / 3) ∨ g = cycleGraph (2 / 3) (1 / 3) 0 ∨
      g = cycleGraph (1 / 3) (2 / 3) 0) :
    rankLoop 1 epsilon (1 / 3) fuel d g = Outcome.noFuel := by
  induction fuel generalizing d g with
  | zero =>
    unfold rankLoop
    simp [hd]
  | succ n ih =>
    unfold rankLoop
    simp only [hd, if_true]
    rcases hg with rfl | rfl | rfl
    · rw [rankStep_cycle]
      have e1 : (1 / 3 + 1 / 3 : ℚ) = 2 / 3 := by norm_num
      have e2 : |(2 / 3 : ℚ) - 1 / 3| + (|(1 / 3 : ℚ) - 1 / 3| + |(1 / 3 : ℚ)|) = 2 / 3 := by
        norm_num [abs_of_pos]
      simp only [e1, e2]
      exact ih (2 / 3) _ he (Or.inr (Or.inl rfl))
    · rw [rankStep_cycle]
      have e1 : (1 / 3 + 0 : ℚ) = 1 / 3 := by norm_num
      have e2 : |(1 / 3 : ℚ) - 2 / 3| + (|(2 / 3 : ℚ) - 1 / 3| + |(0 : ℚ)|) = 2 / 3 := by
        rw [abs_of_neg (by norm_num : (1 / 3 : ℚ) - 2 / 3 < 0),
          abs_of_pos (by norm_num : (0 : ℚ) < 2 / 3 - 1 / 3)]
        norm_num
      simp only [e1, e2]
      exact ih (2 / 3) _ he (Or.inr (Or.inr rfl))
    · rw [rankStep_cycle]
      have e1 : (2 / 3 + 0 : ℚ) = 2 / 3 := by norm_num
      have e2 : |(2 / 3 : ℚ) - 1 / 3| + (|(1 / 3 : ℚ) - 2 / 3| + |(0 : ℚ)|) = 2 / 3 := by
        rw [abs_of_neg (by norm_num : (1 / 3 : ℚ) - 2 / 3 < 0),
          abs_of_pos (by norm_num : (0 : ℚ) < 2 / 3 - 1 / 3)]
        norm_num
      simp only [e1, e2]
      exact ih (2 / 3) _ he (Or.inr (Or.inl rfl))

/-- The change computed by every pass on the cycle with `alpha = 1` is `2/3`. -/
theorem loopIter_cycle (k : Nat) :
    loopIter 1 (1 / 3) (k + 1) (cycleGraph (1 / 3) (1 / 3) (1 / 3), 1) =
      some (if k % 2 = 0 then cycleGraph (2 / 3) (1 / 3) 0 else cycleGraph (1 / 3) (2 / 3) 0,
        2 / 3) := by
  have hX : rankStep 1 (1 / 3) (cycleGraph (2 / 3) (1 / 3) 0) =
      some (cycleGraph (1 / 3) (2 / 3) 0, 2 / 3) := by
    rw [rankStep_cycle]
    have e1 : (1 / 3 + 0 : ℚ) = 1 / 3 := by norm_num
    have e2 : |(1 / 3 : ℚ) - 2 / 3| + (|(2 / 3 : ℚ) - 1 / 3| + |(0 : ℚ)|) = 2 / 3 := by
      rw [abs_of_neg (by norm_num : (1 / 3 : ℚ) - 2 / 3 < 0),
        abs_of_pos (by norm_num : (0 : ℚ) < 2 / 3 - 1 / 3)]
      norm_num
    simp only [e1, e2]
  have hY : rankStep 1 (1 / 3) (cycleGraph (1 / 3) (2 / 3) 0) =
      some (cycleGraph (2 / 3) (1 / 3) 0, 2 / 3) := by
    rw [rankStep_cycle]
    have e1 : (2 / 3 + 0 : ℚ) = 2 / 3 := by norm_num
    have e2 : |(2 / 3 : ℚ) - 1 / 3| + (|(1 / 3 : ℚ) - 2 / 3| + |(0 : ℚ)|) = 2 / 3 := by
      rw [abs_of_neg (by norm_num : (1 / 3 : ℚ) - 2 / 3 < 0),
        abs_of_pos (by norm_num : (0 : ℚ) < 2 / 3 - 1 / 3)]
      norm_num
    simp only [e1, e2]
  have hI : rankStep 1 (1 / 3) (cycleGraph (1 / 3) (1 / 3) (1 / 3)) =
      some (cycleGraph (2 / 3) (1 / 3) 0, 2 / 3) := by
    rw [rankStep_cycle]
    have e1 : (1 / 3 + 1 / 3 : ℚ) = 2 / 3 := by norm_num
    have e2 : |(2 / 3 : ℚ) - 1 / 3| + (|(1 / 3 : ℚ) - 1 / 3| + |(1 / 3 : ℚ)|) = 2 / 3 := by
      norm_num [abs_of_pos]
    simp only [e1, e2]
  -- the iteration from any state, by the number of passes
  have hgen : ∀ (k : Nat) (d : ℚ),
      loopIter 1 (1 / 3) (k + 1) (cycleGraph (2 / 3) (1 / 3) 0, d) =
        some (if k % 2 = 0 then cycleGraph (1 / 3) (2 / 3) 0 else cycleGraph (2 / 3) (1 / 3) 0,
          2 / 3) ∧
      loopIter 1 (1 / 3) (k + 1) (cycleGraph (1 / 3) (2 / 3) 0, d) =
        some (if k % 2 = 0 then cycleGraph (2 / 3) (1 / 3) 0 else cycleGraph (1 / 3) (2 / 3) 0,
          2 / 3) := by
    intro k
    induction k with
    | zero =>
      intro d
      constructor <;>
        simp only [loopIter, hX, hY, Option.some_bind, Nat.zero_mod, if_true]
    | succ n ih =>
      intro d
      have hpar : (n + 1) % 2 = 0 ↔ ¬ n % 2 = 0 := by omega
      constructor
      · rw [loopIter, show (cycleGraph (2 / 3) (1 / 3) 0, d).1 = cycleGraph (2 / 3) (1 / 3) 0
          from rfl, hX, Option.some_bind, (ih (2 / 3)).2]
        by_cases hn : n % 2 = 0
        · simp [hn, hpar.not.mpr (not_not.mpr hn)]
        · simp [hn, hpar.mpr hn]
      · rw [loopIter, show (cycleGraph (1 / 3) (2 / 3) 0, d).1 = cycleGraph (1 / 3) (2 / 3) 0
          from rfl, hY, Option.some_bind, (ih (2 / 3)).1]
        by_cases hn : n % 2 = 0
        · simp [hn, hpar.not.mpr (not_not.mpr hn)]
        · simp [hn, hpar.mpr hn]
  cases k with
  | zero => simp only [loopIter, hI, Option.some_bind, Nat.zero_mod, if_true]
  | succ n =>
    have hpar : (n + 1) % 2 = 0 ↔ ¬ n % 2 = 0 := by omega
    rw [loopIter, show (cycleGraph (1 / 3) (1 / 3) (1 / 3), (1 : ℚ)).1 =
      cycleGraph (1 / 3) (1 / 3) (1 / 3) from rfl, hI, Option.some_bind, (hgen n (2 / 3)).1]
    by_cases hn : n % 2 = 0
    · simp [hn, hpar.not.mpr (not_not.mpr hn)]
    · simp [hn, hpar.mpr hn]

/-- C19: with `alpha = 1` the loop of `Rank` need not stop.  On the graph built by
    `Link(1,2,"basic")`, `Link(2,1,"basic")`, `Link(3,1,"basic")`, which has no dangling
    node, the change computed by every pass is `2/3`; so for every `epsilon < 2/3` the
    change exceeds `epsilon` after every pass and `Rank` runs out of every amount of
    fuel. -/
theorem Rank_alpha_one_diverges (epsilon : ℚ) (he : epsilon < 2 / 3) :
    (∀ e ∈ (build [⟨1, 2, "basic"⟩, ⟨2, 1, "basic"⟩, ⟨3, 1, "basic"⟩]).nodes,
      e.2.outbound ≠ 0) ∧
    (∃ g0, rankInit (build [⟨1, 2, "basic"⟩, ⟨2, 1, "basic"⟩, ⟨3, 1, "basic"⟩]) = some g0 ∧
      ∀ k, ∃ gk, loopIter 1
        (inverseOf (build [⟨1, 2, "basic"⟩, ⟨2, 1, "basic"⟩, ⟨3, 1, "basic"⟩]))
        (k + 1) (g0, 1) = some (gk, 2 / 3) ∧ (2 / 3 : ℚ) > epsilon) ∧
    ∀ fuel, Rank fuel (build [⟨1, 2, "basic"⟩, ⟨2, 1, "basic"⟩, ⟨3, 1, "basic"⟩]) 1 epsilon
      recordCall [] = Outcome.noFuel := by
  have hinv : inverseOf (build [⟨1, 2, "basic"⟩, ⟨2, 1, "basic"⟩, ⟨3, 1, "basic"⟩]) = 1 / 3 := by
    rw [build_cycle]; simp [inverseOf, cycleGraph]
  refine ⟨?_, ⟨cycleGraph (1 / 3) (1 / 3) (1 / 3), by rw [build_cycle, rankInit_cycle], ?_⟩, ?_⟩
  · rw [build_cycle]
    intro e he'
    simp only [cycleGraph, List.mem_cons, List.mem_singleton, List.not_mem_nil, or_false] at he'
    rcases he' with rfl | rfl | rfl <;> norm_num
  · intro k
    rw [hinv]
    exact ⟨_, loopIter_cycle k, he⟩
  · intro fuel
    unfold Rank
    rw [hinv, build_cycle, rankInit_cycle]
    simp only
    rw [rankLoop_cycle_noFuel epsilon he fuel 1 _ (by linarith) (Or.inl rfl)]

/-- Witness of C19: `epsilon = 1/2`. -/
theorem Rank_alpha_one_diverges_witness :
    (0 : ℚ) < 1 / 2 ∧ (1 / 2 : ℚ) < 2 / 3 ∧
    ∀ fuel, Rank fuel (build [⟨1, 2, "basic"⟩, ⟨2, 1, "basic"⟩, ⟨3, 1, "basic"⟩]) 1 (1 / 2)
      recordCall [] = Outcome.noFuel :=
  ⟨by norm_num, by norm_num, (Rank_alpha_one_diverges (1 / 2) (by norm_num)).2.2⟩

theorem weightOf_nonneg (ns : List (Nat × node)) (h : ∀ e ∈ ns, 0 ≤ e.2.weight) (k : Nat) :
    0 ≤ weightOf ns k := by
  unfold weightOf
  cases hk : mget ns k with
  | none => simp
  | some n => simpa using h _ (mem_of_mget _ _ _ hk)

/-- With non-negative weights before the pass and `alpha ≥ 0`, every weight after the
    pass is at least the teleportation term `(1 - alpha)/N`. -/
theorem specWeight_lower (alpha : ℚ) (h : Graph) (hst : Stochastic h) (ha : 0 ≤ alpha)
    (hw : ∀ e ∈ h.nodes, 0 ≤ e.2.weight) (t : Nat) :
    (1 - alpha) / (h.nodes.length : ℚ) ≤ specWeight alpha h t := by
  rw [specWeight_eq_transition alpha h hst.1.1 t]
  have : 0 ≤ ∑ s ∈ (keys h.nodes).toFinset, weightOf h.nodes s * transition h s t :=
    Finset.sum_nonneg (fun s _ =>
      mul_nonneg (weightOf_nonneg h.nodes hw s) (transition_nonneg h hst s t))
  have := mul_nonneg ha this
  linarith

theorem weight_le_weightSum (ns : List (Nat × node)) (h : ∀ e ∈ ns, 0 ≤ e.2.weight)
    (e : Nat × node) (he : e ∈ ns) : e.2.weight ≤ weightSum ns := by
  induction ns with
  | nil => simp at he
  | cons e0 rest ih =>
    have h0 : 0 ≤ e0.2.weight := h e0 (List.mem_cons_self _ _)
    have hr : ∀ e ∈ rest, 0 ≤ e.2.weight := fun e he => h e (List.mem_cons_of_mem _ he)
    have hsum : 0 ≤ weightSum rest := by
      unfold weightSum
      apply List.sum_nonneg
      intro x hx
      simp only [List.mem_map] at hx
      obtain ⟨e', he', rfl⟩ := hx
      exact hr e' he'
    have hcons : weightSum (e0 :: rest) = e0.2.weight + weightSum rest := by
      simp [weightSum]
    rw [hcons]
    rcases List.mem_cons.mp he with h1 | h1
    · rw [h1]; linarith
    · have := ih hr h1
      linarith

/-- The weights stay within `[(1 - alpha)/N, 1]` along the passes of the loop body. -/
theorem iterate_bounds (alpha : ℚ) (ha0 : 0 ≤ alpha) (ha1 : alpha ≤ 1) (k : Nat) (h : Graph)
    (hst : Stochastic h) (hsum : weightSum h.nodes = 1)
    (hw : ∀ e ∈ h.nodes, (1 - alpha) / (h.nodes.length : ℚ) ≤ e.2.weight) :
    ∀ e ∈ ((nextGraph alpha)^[k] h).nodes,
      (1 - alpha) / (h.nodes.length : ℚ) ≤ e.2.weight ∧ e.2.weight ≤ 1 := by
  have hN := length_pos_of_ne_nil h hst.2.2.1
  have hlow : 0 ≤ (1 - alpha) / (h.nodes.length : ℚ) := div_nonneg (by linarith) (le_of_lt hN)
  induction k generalizing h with
  | zero =>
    intro e he
    have hnn : ∀ e ∈ h.nodes, 0 ≤ e.2.weight := fun e he => le_trans hlow (hw e he)
    exact ⟨hw e he, by rw [← hsum]; exact weight_le_weightSum h.nodes hnn e he⟩
  | succ n ih =>
    have hnn : ∀ e ∈ h.nodes, 0 ≤ e.2.weight := fun e he => le_trans hlow (hw e he)
    have hlen : (nextGraph alpha h).nodes.length = h.nodes.length := length_stepNodes alpha h
    have hsum' : weightSum (nextGraph alpha h).nodes = 1 := by
      show weightSum (stepNodes alpha h) = 1
      rw [weightSum_stepNodes alpha h hst, hsum]; ring
    have hw' : ∀ e ∈ (nextGraph alpha h).nodes,
        (1 - alpha) / ((nextGraph alpha h).nodes.length : ℚ) ≤ e.2.weight := by
      intro e he
      rw [hlen]
      simp only [nextGraph, stepNodes, List.mem_map] at he
      obtain ⟨e0, _, rfl⟩ := he
      exact specWeight_lower alpha h hst ha0 hnn e0.1
    have := ih (nextGraph alpha h) (nextGraph_Stochastic alpha h hst) hsum' hw'
      (by rw [hlen]; exact hN) (by rw [hlen]; exact hlow)
    rw [hlen] at this
    rw [Function.iterate_succ_apply]
    exact this

/-- C20: ranks are probabilities.  For a non-empty graph built by `Link` calls and
    `0 ≤ alpha ≤ 1`, after every number of passes of the loop of `Rank` (each of which
    succeeds) every node weight `w` satisfies `(1 - alpha)/N ≤ w ≤ 1`, `N` being the
    node count; the same holds for the ranks reported when `Rank` returns. -/
theorem ranks_are_probabilities (calls : List LinkCall) (alpha : ℚ)
    (hne : (build calls).nodes ≠ []) (ha0 : 0 ≤ alpha) (ha1 : alpha ≤ 1) :
    ∃ g0, rankInit (build calls) = some g0 ∧
      (∀ k, ∃ gk dk, loopIter alpha (inverseOf (build calls)) k (g0, 1) = some (gk, dk) ∧
        ∀ e ∈ gk.nodes, (1 - alpha) / ((build calls).nodes.length : ℚ) ≤ e.2.weight ∧
          e.2.weight ≤ 1) ∧
      (∀ fuel epsilon g' reported,
        Rank fuel (build calls) alpha epsilon recordCall [] = Outcome.ok (g', reported) →
        ∀ c ∈ reported, (1 - alpha) / ((build calls).nodes.length : ℚ) ≤ c.2 ∧ c.2 ≤ 1) := by
  have hst := build_rankInit_Stochastic calls hne
  have hw0 := weightSum_initWeights (build calls) hne
  have hN := length_pos_of_ne_nil (build calls) hne
  have hinv : inverseOf (⟨normEdges (build calls).nodes (build calls).edges,
      initWeights (inverseOf (build calls)) (build calls).nodes⟩ : Graph) =
      inverseOf (build calls) :=
    inverseOf_of_keys_eq _ _ (keys_initWeights _ _)
  have hlen : (⟨normEdges (build calls).nodes (build calls).edges,
      initWeights (inverseOf (build calls)) (build calls).nodes⟩ : Graph).nodes.length =
      (build calls).nodes.length := by
    simp [initWeights]
  have hinit : ∀ e ∈ (⟨normEdges (build calls).nodes (build calls).edges,
      initWeights (inverseOf (build calls)) (build calls).nodes⟩ : Graph).nodes,
      (1 - alpha) / ((⟨normEdges (build calls).nodes (build calls).edges,
        initWeights (inverseOf (build calls)) (build calls).nodes⟩ : Graph).nodes.length : ℚ) ≤
        e.2.weight := by
    intro e he
    rw [hlen]
    simp only [initWeights, List.mem_map] at he
    obtain ⟨e0, _, rfl⟩ := he
    simp only [inverseOf]
    exact div_le_div_of_nonneg_right (by linarith) (le_of_lt hN)
  have hiter : ∀ k, ∃ gk dk, loopIter alpha (inverseOf (build calls)) k
      (⟨normEdges (build calls).nodes (build calls).edges,
        initWeights (inverseOf (build calls)) (build calls).nodes⟩, 1) = some (gk, dk) ∧
      ∀ e ∈ gk.nodes, (1 - alpha) / ((build calls).nodes.length : ℚ) ≤ e.2.weight ∧
        e.2.weight ≤ 1 := by
    intro k
    have hb := iterate_bounds alpha ha0 ha1 k _ hst hw0 hinit
    rw [hlen] at hb
    cases k with
    | zero => exact ⟨_, 1, rfl, hb⟩
    | succ n =>
      have h1 := loopIter_succ_eq alpha n _ 1 hst
      rw [hinv] at h1
      exact ⟨_, _, h1, hb⟩
  refine ⟨_, build_rankInit calls, hiter, ?_⟩
  intro fuel epsilon g' reported hr c hc
  obtain ⟨g1, delta, h1, h2, h3⟩ := Rank_ok_inv fuel _ alpha epsilon recordCall [] g' reported hr
  rw [build_rankInit calls] at h1
  simp only [Option.some.injEq] at h1
  subst h1
  obtain ⟨k, _, hk⟩ := rankLoop_ok_loopIter _ _ _ _ _ _ _ h2
  obtain ⟨gk, dk, hk', hbound⟩ := hiter k
  rw [hk] at hk'
  simp only [Option.some.injEq, Prod.mk.injEq] at hk'
  rw [h3, report_recordCall, hk'.1] at hc
  simp only [List.nil_append, List.mem_map] at hc
  obtain ⟨e, he, rfl⟩ := hc
  exact hbound e he

/-- Witness of C20: one edge, damping one half, threshold one half. -/
theorem ranks_are_probabilities_witness :
    (build [⟨1, 2, "basic"⟩]).nodes ≠ [] ∧
    ∃ g0, rankInit (build [⟨1, 2, "basic"⟩]) = some g0 ∧
      ∀ k, ∃ gk dk, loopIter (1 / 2) (inverseOf (build [⟨1, 2, "basic"⟩])) k (g0, 1) =
          some (gk, dk) ∧
        ∀ e ∈ gk.nodes, (1 - 1 / 2) / ((build [⟨1, 2, "basic"⟩]).nodes.length : ℚ) ≤ e.2.weight ∧
          e.2.weight ≤ 1 := by
  have hne : (build [⟨1, 2, "basic"⟩]).nodes ≠ [] := by
    simp [build, linkAll, Link, NewGraph, ensureNode, mget, mset, mmodify, edgeLookup]
  obtain ⟨g0, h1, h2, _⟩ :=
    ranks_are_probabilities [⟨1, 2, "basic"⟩] (1 / 2) hne (by norm_num) (by norm_num)
  exact ⟨hne, g0, h1, h2⟩

theorem roundHalfEven_down (q : ℚ) (f : ℤ) (h1 : (f : ℚ) ≤ q) (h2 : q - f < 1 / 2) :
    roundHalfEven q = f := by
  have hf : ⌊q⌋ = f := by
    rw [Int.floor_eq_iff]
    exact ⟨h1, by linarith⟩
  unfold roundHalfEven
  rw [hf, if_pos h2]

theorem roundHalfEven_tie_even (q : ℚ) (f : ℤ) (h1 : q = f + 1 / 2) (he : f % 2 = 0) :
    roundHalfEven q = f := by
  have hf : ⌊q⌋ = f := by
    rw [Int.floor_eq_iff]
    exact ⟨by rw [h1]; linarith, by rw [h1]; linarith⟩
  have hr : q - f = 1 / 2 := by rw [h1]; ring
  unfold roundHalfEven
  rw [hf, hr, if_neg (lt_irrefl _), if_neg (lt_irrefl _), if_pos he]

theorem log2_eq (x : ℚ) (e : ℤ) (hx : 0 < x) (hlo : (2 : ℚ) ^ e ≤ x)
    (hhi : x < (2 : ℚ) ^ (e + 1)) : Int.log 2 x = e := by
  have h1 : e ≤ Int.log 2 x := by
    rw [← Int.zpow_le_iff_le_log (by norm_num) hx]
    exact_mod_cast hlo
  have h2 : Int.log 2 x < e + 1 := by
    rw [← Int.lt_zpow_iff_log_lt (by norm_num) hx]
    exact_mod_cast hhi
  omega

/-- The value of `fl64` at a positive `x` from its binade and its rounded significand. -/
theorem fl64_eval (x : ℚ) (e m : ℤ) (hx : 0 < x) (hlo : (2 : ℚ) ^ e ≤ x)
    (hhi : x < (2 : ℚ) ^ (e + 1)) (hm : roundHalfEven (x / (2 : ℚ) ^ (e - 52)) = m) :
    fl64 x = (m : ℚ) * (2 : ℚ) ^ (e - 52) := by
  unfold fl64
  rw [if_neg (ne_of_gt hx), abs_of_pos hx, log2_eq x e hx hlo hhi, hm]

theorem fl64_one_third : fl64 (1 / 3) = 6004799503160661 / 18014398509481984 := by
  rw [fl64_eval (1 / 3) (-2) 6004799503160661 (by norm_num) (by norm_num) (by norm_num)
    (roundHalfEven_down _ _ (by norm_num) (by norm_num))]
  norm_num

theorem fl64_one_quarter : fl64 (1 / 4) = 1 / 4 := by
  rw [fl64_eval (1 / 4) (-2) 4503599627370496 (by norm_num) (by norm_num) (by norm_num)
    (roundHalfEven_down _ _ (by norm_num) (by norm_num))]
  norm_num

theorem fl64_chain_sub :
    fl64 (3 - 6004799503160661 / 18014398509481984) =
      6004799503160661 / 2251799813685248 := by
  rw [fl64_eval _ 1 6004799503160661 (by norm_num) (by norm_num) (by norm_num)
    (roundHalfEven_down _ _ (by norm_num) (by norm_num))]
  norm_num

theorem fl64_chain_add_four :
    fl64 (6004799503160661 / 2251799813685248 + 4) =
      3752999689475413 / 562949953421312 := by
  rw [fl64_eval _ 2 7505999378950826 (by norm_num) (by norm_num) (by norm_num)
    (roundHalfEven_tie_even _ _ (by norm_num) (by decide))]
  norm_num

theorem fl64_chain_sub_four :
    fl64 (3752999689475413 / 562949953421312 - 4) =
      1501199875790165 / 562949953421312 := by
  rw [fl64_eval _ 1 6004799503160660 (by norm_num) (by norm_num) (by norm_num)
    (roundHalfEven_down _ _ (by norm_num) (by norm_num))]
  norm_num

theorem fl64_chain_add_one_twice :
    fl64 (1501199875790165 / 562949953421312 + 1) =
      8256599316845908 / 2251799813685248 := by
  rw [fl64_eval _ 1 8256599316845908 (by norm_num) (by norm_num) (by norm_num)
    (roundHalfEven_down _ _ (by norm_num) (by norm_num))]
  norm_num

theorem fl64_chain_add_one_once :
    fl64 (6004799503160661 / 2251799813685248 + 1) =
      8256599316845909 / 2251799813685248 := by
  rw [fl64_eval _ 1 8256599316845909 (by norm_num) (by norm_num) (by norm_num)
    (roundHalfEven_down _ _ (by norm_num) (by norm_num))]
  norm_num

/-- `LinkR` replacing the edge `(1, 2)` in a graph with the three edges of node 1. -/
theorem LinkR_replace (rnd : ℚ → ℚ) (a b c d ob w w3 w4 : ℚ) (level : String) :
    LinkR rnd ⟨[(1, [(2, w), (3, w3), (4, w4)])],
        [(1, ⟨a, ob⟩), (2, ⟨b, 0⟩), (3, ⟨c, 0⟩), (4, ⟨d, 0⟩)]⟩ 1 2 level =
      ⟨[(1, [(2, levelWeight level), (3, w3), (4, w4)])],
        [(1, ⟨a, rnd (rnd (ob - w) + levelWeight level)⟩), (2, ⟨b, 0⟩), (3, ⟨c, 0⟩),
          (4, ⟨d, 0⟩)]⟩ := by
  simp [LinkR, ensureNode, mget, mset, mmodify, edgeLookup]

theorem rankInitR_three_edges :
    rankInitR fl64 (build [⟨1, 2, "basic"⟩, ⟨1, 3, "basic"⟩, ⟨1, 4, "basic"⟩]) =
      some ⟨[(1, [(2, 6004799503160661 / 18014398509481984),
          (3, 6004799503160661 / 18014398509481984),
          (4, 6004799503160661 / 18014398509481984)])],
        [(1, ⟨1 / 4, 3⟩), (2, ⟨1 / 4, 0⟩), (3, ⟨1 / 4, 0⟩), (4, ⟨1 / 4, 0⟩)]⟩ := by
  have hb : build [⟨1, 2, "basic"⟩, ⟨1, 3, "basic"⟩, ⟨1, 4, "basic"⟩] =
      ⟨[(1, [(2, 1), (3, 1), (4, 1)])],
        [(1, ⟨0, 3⟩), (2, ⟨0, 0⟩), (3, ⟨0, 0⟩), (4, ⟨0, 0⟩)]⟩ := by
    simp [build, linkAll, Link, NewGraph, ensureNode, mget, mset, mmodify, edgeLookup,
      freshNode, levelWeight]
    norm_num
  rw [hb]
  have h4 : (1 : ℚ) / ((4 : ℕ) : ℚ) = 1 / 4 := by norm_num
  simp only [rankInitR, normalizeEdgesR, normalizeInnerR, mget, initWeights, List.length_cons,
    List.length_nil, List.map_cons, List.map_nil, Option.map_some', if_true]
  norm_num [fl64_one_third, fl64_one_quarter]

/-- C6 (counterexample): in float64, after `Link(1,2)`, `Link(1,3)`, `Link(1,4)` with
    "basic" and `Rank(0.85, 1)` (whose loop makes no pass) node 1 has `outbound = 3` and
    its edges hold the double nearest to 1/3; then `Link(1,2,"advanced")` followed by
    `Link(1,2,"basic")` leaves `outbound[1] = 8256599316845908/2^51`, whereas
    `Link(1,2,"basic")` alone leaves `8256599316845909/2^51`: the two states differ. -/
theorem Link_twice_differs_in_float64 :
    rankInitR fl64 (build [⟨1, 2, "basic"⟩, ⟨1, 3, "basic"⟩, ⟨1, 4, "basic"⟩]) =
      some ⟨[(1, [(2, 6004799503160661 / 18014398509481984),
          (3, 6004799503160661 / 18014398509481984),
          (4, 6004799503160661 / 18014398509481984)])],
        [(1, ⟨1 / 4, 3⟩), (2, ⟨1 / 4, 0⟩), (3, ⟨1 / 4, 0⟩), (4, ⟨1 / 4, 0⟩)]⟩ ∧
    rankLoop (85 / 100) 1 (1 / 4) 0 1
        ⟨[(1, [(2, 6004799503160661 / 18014398509481984),
          (3, 6004799503160661 / 18014398509481984),
          (4, 6004799503160661 / 18014398509481984)])],
        [(1, ⟨1 / 4, 3⟩), (2, ⟨1 / 4, 0⟩), (3, ⟨1 / 4, 0⟩), (4, ⟨1 / 4, 0⟩)]⟩ =
      Outcome.ok (⟨[(1, [(2, 6004799503160661 / 18014398509481984),
          (3, 6004799503160661 / 18014398509481984),
          (4, 6004799503160661 / 18014398509481984)])],
        [(1, ⟨1 / 4, 3⟩), (2, ⟨1 / 4, 0⟩), (3, ⟨1 / 4, 0⟩), (4, ⟨1 / 4, 0⟩)]⟩, 1) ∧
    outboundOf (LinkR fl64 (LinkR fl64
        ⟨[(1, [(2, 6004799503160661 / 18014398509481984),
          (3, 6004799503160661 / 18014398509481984),
          (4, 6004799503160661 / 18014398509481984)])],
        [(1, ⟨1 / 4, 3⟩), (2, ⟨1 / 4, 0⟩), (3, ⟨1 / 4, 0⟩), (4, ⟨1 / 4, 0⟩)]⟩
        1 2 "advanced") 1 2 "basic").nodes 1 = 8256599316845908 / 2251799813685248 ∧
    outboundOf (LinkR fl64
        ⟨[(1, [(2, 6004799503160661 / 18014398509481984),
          (3, 6004799503160661 / 18014398509481984),
          (4, 6004799503160661 / 18014398509481984)])],
        [(1, ⟨1 / 4, 3⟩), (2, ⟨1 / 4, 0⟩), (3, ⟨1 / 4, 0⟩), (4, ⟨1 / 4, 0⟩)]⟩
        1 2 "basic").nodes 1 = 8256599316845909 / 2251799813685248 ∧
    LinkR fl64 (LinkR fl64
        ⟨[(1, [(2, 6004799503160661 / 18014398509481984),
          (3, 6004799503160661 / 18014398509481984),
          (4, 6004799503160661 / 18014398509481984)])],
        [(1, ⟨1 / 4, 3⟩), (2, ⟨1 / 4, 0⟩), (3, ⟨1 / 4, 0⟩), (4, ⟨1 / 4, 0⟩)]⟩
        1 2 "advanced") 1 2 "basic" ≠
      LinkR fl64
        ⟨[(1, [(2, 6004799503160661 / 18014398509481984),
          (3, 6004799503160661 / 18014398509481984),
          (4, 6004799503160661 / 18014398509481984)])],
        [(1, ⟨1 / 4, 3⟩), (2, ⟨1 / 4, 0⟩), (3, ⟨1 / 4, 0⟩), (4, ⟨1 / 4, 0⟩)]⟩
        1 2 "basic" := by
  have hadv : levelWeight "advanced" = 4 := by simp [levelWeight]
  have hbas : levelWeight "basic" = 1 := by simp [levelWeight]
  have htwice : outboundOf (LinkR fl64 (LinkR fl64
        ⟨[(1, [(2, 6004799503160661 / 18014398509481984),
          (3, 6004799503160661 / 18014398509481984),
          (4, 6004799503160661 / 18014398509481984)])],
        [(1, ⟨1 / 4, 3⟩), (2, ⟨1 / 4, 0⟩), (3, ⟨1 / 4, 0⟩), (4, ⟨1 / 4, 0⟩)]⟩
        1 2 "advanced") 1 2 "basic").nodes 1 = 8256599316845908 / 2251799813685248 := by
    rw [LinkR_replace, LinkR_replace, hadv, hbas, fl64_chain_sub, fl64_chain_add_four,
      fl64_chain_sub_four, fl64_chain_add_one_twice]
    simp [outboundOf, mget]
  have honce : outboundOf (LinkR fl64
        ⟨[(1, [(2, 6004799503160661 / 18014398509481984),
          (3, 6004799503160661 / 18014398509481984),
          (4, 6004799503160661 / 18014398509481984)])],
        [(1, ⟨1 / 4, 3⟩), (2, ⟨1 / 4, 0⟩), (3, ⟨1 / 4, 0⟩), (4, ⟨1 / 4, 0⟩)]⟩
        1 2 "basic").nodes 1 = 8256599316845909 / 2251799813685248 := by
    rw [LinkR_replace, hbas, fl64_chain_sub, fl64_chain_add_one_once]
    simp [outboundOf, mget]
  refine ⟨rankInitR_three_edges, ?_, htwice, honce, ?_⟩
  · unfold rankLoop
    simp
  · intro h
    rw [h, honce] at htwice
    norm_num at htwice

theorem mmodify_congr_at {V : Type} (f f' : V → V) (m : List (Nat × V)) (k : Nat)
    (h : ∀ v, mget m k = some v → f v = f' v) : mmodify f m k = mmodify f' m k := by
  induction m with
  | nil => rfl
  | cons e rest ih =>
    obtain ⟨k0, v0⟩ := e
    by_cases h0 : k0 = k
    · simp [mmodify, h0, h v0 (by simp [mget, h0])]
    · simp only [mmodify, h0, if_false]
      rw [ih (fun v hv => h v (by simpa [mget, h0] using hv))]

/-- `LinkR rnd` is `Link` whenever `rnd` leaves the values of the two arithmetic
    statements as they are. -/
theorem LinkR_eq_Link (rnd : ℚ → ℚ) (g : Graph) (s t : Nat) (level : String)
    (hsub : ∀ old, edgeLookup g.edges s t = some old →
      rnd (((mget g.nodes s).getD freshNode).outbound - old) =
        ((mget g.nodes s).getD freshNode).outbound - old)
    (hadd : rnd (((mget g.nodes s).getD freshNode).outbound -
        (edgeLookup g.edges s t).getD 0 + levelWeight level) =
      ((mget g.nodes s).getD freshNode).outbound -
        (edgeLookup g.edges s t).getD 0 + levelWeight level) :
    LinkR rnd g s t level = Link g s t level := by
  have hs : mget (ensureNode g.nodes s) s = some ((mget g.nodes s).getD freshNode) := by
    rw [ensureNode_mget]; simp
  unfold LinkR Link
  simp only
  cases ho : edgeLookup g.edges s t with
  | none =>
    rw [ho] at hadd
    simp only [Option.getD_none, sub_zero] at hadd
    simp only
    rw [mmodify_congr_at (fun n : node => { n with outbound := rnd (n.outbound + levelWeight level) })
      (fun n : node => { n with outbound := n.outbound + levelWeight level }) _ s
      (by
        intro v hv
        rw [hs] at hv
        simp only [Option.some.injEq] at hv
        subst hv
        simp only [hadd])]
  | some old =>
    have h1 := hsub old ho
    rw [ho] at hadd
    simp only [Option.getD_some] at hadd
    simp only
    rw [mmodify_congr_at (fun n : node => { n with outbound := rnd (n.outbound - old) })
      (fun n : node => { n with outbound := n.outbound - old }) _ s
      (by
        intro v hv
        rw [hs] at hv
        simp only [Option.some.injEq] at hv
        subst hv
        simp only [h1])]
    rw [mmodify_congr_at (fun n : node => { n with outbound := rnd (n.outbound + levelWeight level) })
      (fun n : node => { n with outbound := n.outbound + levelWeight level }) _ s
      (by
        intro v hv
        rw [mget_mmodify_self, hs] at hv
        simp only [Option.map_some', Option.some.injEq] at hv
        subst hv
        simp only [hadd])]

/-- A natural number below `2^53` is a binary64 value: rounding leaves it as it is. -/
theorem fl64_natCast (n : ℕ) (h : n < 2 ^ 53) : fl64 (n : ℚ) = n := by
  rcases Nat.eq_zero_or_pos n with h0 | hpos
  · subst h0; simp [fl64]
  · have hx : (0 : ℚ) < (n : ℚ) := by exact_mod_cast hpos
    have hk : Nat.log 2 n ≤ 52 := by
      have := Nat.log_lt_of_lt_pow (Nat.pos_iff_ne_zero.mp hpos) h
      omega
    have hlog : Int.log 2 |(n : ℚ)| = (Nat.log 2 n : ℤ) := by
      rw [abs_of_pos hx, Int.log_natCast]
    have hu : (2 : ℚ) ^ ((Nat.log 2 n : ℤ) - 52) = ((2 : ℚ) ^ (52 - Nat.log 2 n))⁻¹ := by
      have : ((Nat.log 2 n : ℤ) - 52) = -((52 - Nat.log 2 n : ℕ) : ℤ) := by
        rw [Nat.cast_sub hk]; push_cast; ring
      rw [this, zpow_neg, zpow_natCast]
    have hq : (n : ℚ) / ((2 : ℚ) ^ (52 - Nat.log 2 n))⁻¹ =
        (((n * 2 ^ (52 - Nat.log 2 n) : ℕ) : ℤ) : ℚ) := by
      rw [div_inv_eq_mul]; push_cast; ring
    unfold fl64
    rw [if_neg (ne_of_gt hx), hlog, hu, hq,
      roundHalfEven_down _ ((n * 2 ^ (52 - Nat.log 2 n) : ℕ) : ℤ) (le_refl _) (by norm_num)]
    push_cast
    field_simp

/-- A rational that is a natural number. -/
theorem levelWeight_nat (level : String) :
    ∃ w : ℕ, levelWeight level = w ∧ w ≤ 4 := by
  unfold levelWeight
  split_ifs
  · exact ⟨1, by norm_num, by norm_num⟩
  · exact ⟨2, by norm_num, by norm_num⟩
  · exact ⟨4, by norm_num, by norm_num⟩
  · exact ⟨0, by norm_num, by norm_num⟩

theorem edgeSum_nat (inner : List (Nat × ℚ))
    (h : ∀ f ∈ inner, ∃ level : String, f.2 = levelWeight level) :
    ∃ a : ℕ, edgeSum inner = a ∧ a ≤ 4 * inner.length := by
  induction inner with
  | nil => exact ⟨0, by simp [edgeSum], by simp⟩
  | cons f rest ih =>
    obtain ⟨a, ha, hle⟩ := ih (fun f hf => h f (List.mem_cons_of_mem _ hf))
    obtain ⟨level, hl⟩ := h f (List.mem_cons_self _ _)
    obtain ⟨w, hw, hw4⟩ := levelWeight_nat level
    refine ⟨w + a, ?_, ?_⟩
    · simp only [edgeSum] at ha
      simp [edgeSum, ha, hl, hw]
    · simp only [List.length_cons]; omega

theorem mget_le_edgeSum (inner : List (Nat × ℚ)) (hnn : ∀ f ∈ inner, 0 ≤ f.2) (t : Nat)
    (w : ℚ) (h : mget inner t = some w) : w ≤ edgeSum inner := by
  induction inner with
  | nil => simp [mget] at h
  | cons f rest ih =>
    obtain ⟨k0, v0⟩ := f
    have h0 : 0 ≤ v0 := hnn (k0, v0) (List.mem_cons_self _ _)
    have hr := edgeSum_nonneg rest (fun f hf => hnn f (List.mem_cons_of_mem _ hf))
    have hcons : edgeSum ((k0, v0) :: rest) = v0 + edgeSum rest := by simp [edgeSum]
    rw [hcons]
    by_cases hk : k0 = t
    · simp [mget, hk] at h
      rw [← h]; linarith
    · simp [mget, hk] at h
      have := ih (fun f hf => hnn f (List.mem_cons_of_mem _ hf)) h
      linarith

/-- The adjacency map of a source in a graph built by `n` calls has at most `n` edges. -/
theorem linkAll_inner_length (calls : List LinkCall) (g : Graph) (B : Nat)
    (h : ∀ e ∈ g.edges, e.2.length ≤ B) :
    ∀ e ∈ (linkAll g calls).edges, e.2.length ≤ B + calls.length := by
  induction calls generalizing g B with
  | nil => simpa using h
  | cons c rest ih =>
    have hstep : ∀ e ∈ (Link g c.source c.target c.level).edges, e.2.length ≤ B + 1 := by
      intro e he
      rw [Link_edges_eq] at he
      have hbase : ∀ e' ∈ (match mget g.edges c.source with
            | some _ => g.edges
            | none => mset g.edges c.source []), e'.2.length ≤ B := by
        intro e' he'
        cases hs : mget g.edges c.source with
        | some inner => rw [hs] at he'; exact h e' he'
        | none =>
          rw [hs] at he'
          rcases mem_mset _ _ _ _ he' with h1 | h1
          · exact h e' h1
          · subst h1; simp
      rcases mem_mmodify _ _ _ _ he with h1 | ⟨inner, hv, rfl⟩
      · exact Nat.le_succ_of_le (hbase e h1)
      · have hl : (mset inner c.target (levelWeight c.level)).length ≤ inner.length + 1 := by
          by_cases hm : c.target ∈ keys inner
          · have := congrArg List.length (keys_mset_of_mem inner (levelWeight c.level) hm)
            simp only [keys, List.length_map] at this
            omega
          · have := congrArg List.length (keys_mset_of_not_mem inner (levelWeight c.level) hm)
            simp only [keys, List.length_map, List.length_append, List.length_singleton] at this
            omega
        have := hbase _ hv
        simp only at this ⊢
        omega
    have := ih (Link g c.source c.target c.level) (B + 1) hstep
    intro e he
    have h2 := this e he
    simp only [List.length_cons]
    omega

theorem build_inner_length (calls : List LinkCall) :
    ∀ e ∈ (build calls).edges, e.2.length ≤ calls.length := by
  have := linkAll_inner_length calls NewGraph 0 (by simp [NewGraph])
  simpa using this

theorem edgesFrom_tier (calls : List LinkCall) (s : Nat) :
    ∀ f ∈ edgesFrom (build calls).edges s, ∃ level : String, f.2 = levelWeight level := by
  intro f hf
  unfold edgesFrom at hf
  cases hs : mget (build calls).edges s with
  | none => simp [hs] at hf
  | some inner =>
    simp only [hs, Option.getD_some] at hf
    exact build_TierWeights calls _ (mem_of_mget _ _ _ hs) f hf

theorem edgesFrom_length (calls : List LinkCall) (s : Nat) :
    (edgesFrom (build calls).edges s).length ≤ calls.length := by
  unfold edgesFrom
  cases hs : mget (build calls).edges s with
  | none => simp
  | some inner => exact build_inner_length calls _ (mem_of_mget _ _ _ hs)

/-- In a graph built by `Link` calls the `outbound` of a node is a natural number,
    at most four times the number of calls. -/
theorem build_outbound_nat (calls : List LinkCall) (s t : Nat) :
    ∃ a : ℕ, ((mget (build calls).nodes s).getD freshNode).outbound = a ∧
      a ≤ 4 * calls.length ∧
      ∀ old, edgeLookup (build calls).edges s t = some old →
        ∃ b : ℕ, old = b ∧ b ≤ a := by
  obtain ⟨a, ha, hle⟩ := edgeSum_nat _ (edgesFrom_tier calls s)
  have hlen := edgesFrom_length calls s
  cases hn : mget (build calls).nodes s with
  | none =>
    refine ⟨0, by simp [freshNode], Nat.zero_le _, ?_⟩
    intro old ho
    rw [edgeLookup_eq_mget_edgesFrom, edgesFrom_of_absent _ (build_Closed calls) s hn] at ho
    simp [mget] at ho
  | some n =>
    have hob := build_OutboundInv calls s n hn
    refine ⟨a, by simp [hob, ha], by omega, ?_⟩
    intro old ho
    rw [edgeLookup_eq_mget_edgesFrom] at ho
    obtain ⟨level, hl⟩ := edgesFrom_tier calls s _ (mem_of_mget _ _ _ ho)
    obtain ⟨b, hb, _⟩ := levelWeight_nat level
    refine ⟨b, by rw [← hb]; exact hl, ?_⟩
    have h1 := mget_le_edgeSum _ (edgesFrom_nonneg _ (build_nonneg calls) s) t old ho
    have hold : old = (b : ℚ) := by rw [← hb]; exact hl
    rw [ha, hold] at h1
    exact_mod_cast h1

/-- On a graph built by fewer than `2^50` `Link` calls the float64 `Link` computes
    exactly: every value it rounds is a natural number below `2^53`. -/
theorem LinkR_fl64_build (calls : List LinkCall) (hlen : calls.length < 2 ^ 50)
    (s t : Nat) (level : String) :
    LinkR fl64 (build calls) s t level = Link (build calls) s t level := by
  obtain ⟨a, ha, hle, hold⟩ := build_outbound_nat calls s t
  obtain ⟨w, hw, hw4⟩ := levelWeight_nat level
  have hbig : (2 : ℕ) ^ 53 = 8 * 2 ^ 50 := by norm_num
  apply LinkR_eq_Link
  · intro old ho
    obtain ⟨b, hb, hba⟩ := hold old ho
    rw [ha, hb, ← Nat.cast_sub hba]
    exact fl64_natCast _ (by omega)
  · cases ho : edgeLookup (build calls).edges s t with
    | none =>
      rw [ha, hw]
      simp only [Option.getD_none, sub_zero]
      rw [← Nat.cast_add]
      exact fl64_natCast _ (by omega)
    | some old =>
      obtain ⟨b, hb, hba⟩ := hold old ho
      rw [ha, hw, hb]
      simp only [Option.getD_some]
      rw [← Nat.cast_sub hba, ← Nat.cast_add]
      exact fl64_natCast _ (by omega)

theorem build_snoc (calls : List LinkCall) (c : LinkCall) :
    build (calls ++ [c]) = Link (build calls) c.source c.target c.level := by
  simp [build, linkAll, List.foldl_append]

theorem buildR_snoc (rnd : ℚ → ℚ) (calls : List LinkCall) (c : LinkCall) :
    buildR rnd (calls ++ [c]) = LinkR rnd (buildR rnd calls) c.source c.target c.level := by
  simp [buildR, List.foldl_append]

/-- A graph built in float64 by at most `2^50` `Link` calls is the graph built in exact
    arithmetic. -/
theorem buildR_fl64_eq_build (calls : List LinkCall) (hlen : calls.length ≤ 2 ^ 50) :
    buildR fl64 calls = build calls := by
  induction calls using List.reverseRecOn with
  | nil => rfl
  | append_singleton l c ih =>
    have hl : l.length < 2 ^ 50 := by
      simp only [List.length_append, List.length_singleton] at hlen
      omega
    rw [buildR_snoc, build_snoc, ih (le_of_lt hl), LinkR_fl64_build l hl]

/-- C6 (amended): edge replacement is last-write-wins.  In exact arithmetic, for every
    graph the state after `Link(s,t,l1)` and then `Link(s,t,l2)` is the state after
    `Link(s,t,l2)` alone; the edge `(s,t)` carries the tier weight of `l2`, it is stored
    exactly once (in a graph whose maps hold no key twice), and `outbound[s]` is the old
    outbound less the weight the edge had before both calls plus the weight of `l2`: the
    weight of `l1` is not counted.  In float64 the same equality of states holds on every
    graph built from the empty graph by at most `2^50 - 2` `Link` calls, where the
    rounded `Link` computes exactly what the exact `Link` computes. -/
theorem Link_last_write_wins (g : Graph) (s t : Nat) (l1 l2 : String) :
    Link (Link g s t l1) s t l2 = Link g s t l2 ∧
    edgeLookup (Link (Link g s t l1) s t l2).edges s t = some (levelWeight l2) ∧
    (g.WF → (edgeList (Link (Link g s t l1) s t l2).edges).filter
        (fun e => e.1 = s ∧ e.2.1 = t) = [(s, t, levelWeight l2)]) ∧
    outboundOf (Link (Link g s t l1) s t l2).nodes s =
      outboundOf g.nodes s - edgeWeight g.edges s t + levelWeight l2 ∧
    (∀ calls : List LinkCall, calls.length + 2 ≤ 2 ^ 50 →
      buildR fl64 calls = build calls ∧
      LinkR fl64 (LinkR fl64 (buildR fl64 calls) s t l1) s t l2 =
        LinkR fl64 (buildR fl64 calls) s t l2 ∧
      LinkR fl64 (buildR fl64 calls) s t l2 = Link (build calls) s t l2) := by
  refine ⟨Link_Link g s t l1 l2, Link_edgeLookup _ s t l2, ?_, ?_, ?_⟩
  · intro hwf
    have h := Link_WF _ s t l2 (Link_WF g s t l1 hwf)
    exact filter_edgeList_single _ s t _ h.2.1 h.2.2 (Link_edgeLookup _ s t l2)
  · rw [Link_Link]; exact Link_outboundOf g s t l2
  · intro calls hlen
    have hb := buildR_fl64_eq_build calls (by omega)
    have h1 := LinkR_fl64_build calls (by omega) s t l1
    have h2 := LinkR_fl64_build calls (by omega) s t l2
    have h3 := LinkR_fl64_build (calls ++ [⟨s, t, l1⟩])
      (by simp only [List.length_append, List.length_singleton]; omega) s t l2
    rw [build_snoc] at h3
    refine ⟨hb, ?_, by rw [hb]; exact h2⟩
    rw [hb, h1, h2]
    show LinkR fl64 (Link (build calls) s t l1) s t l2 = Link (build calls) s t l2
    rw [h3, Link_Link]

/-- Witness of C6: "basic" replaced by "advanced" on the empty graph, and in float64
    after one earlier call. -/
theorem Link_last_write_wins_witness :
    NewGraph.WF ∧
    (edgeList (Link (Link NewGraph 1 2 "basic") 1 2 "advanced").edges).filter
        (fun e => e.1 = 1 ∧ e.2.1 = 2) = [(1, 2, levelWeight "advanced")] ∧
    LinkR fl64 (LinkR fl64 (buildR fl64 [⟨1, 3, "intermediate"⟩]) 1 2 "basic") 1 2 "advanced" =
      LinkR fl64 (buildR fl64 [⟨1, 3, "intermediate"⟩]) 1 2 "advanced" :=
  ⟨NewGraph_WF, (Link_last_write_wins NewGraph 1 2 "basic" "advanced").2.2.1 NewGraph_WF,
    ((Link_last_write_wins NewGraph 1 2 "basic" "advanced").2.2.2.2
      [⟨1, 3, "intermediate"⟩] (by norm_num)).2.1⟩

theorem fl64_one_sixth : fl64 (1 / 6) = 6004799503160661 / 36028797018963968 := by
  rw [fl64_eval (1 / 6) (-3) 6004799503160661 (by norm_num) (by norm_num) (by norm_num)
    (roundHalfEven_down _ _ (by norm_num) (by norm_num))]
  norm_num

/-- Why the sum of the normalised weights is 1 in exact arithmetic only: in float64 six
    "basic" edges of one source are each stored as the double nearest to 1/6, and these
    six doubles sum to `1 - 2^-54`. -/
theorem normalised_sixths_in_float64 :
    normalizeInnerR fl64 6 [(2, 1), (3, 1), (4, 1), (5, 1), (6, 1), (7, 1)] =
      [(2, 6004799503160661 / 36028797018963968), (3, 6004799503160661 / 36028797018963968),
       (4, 6004799503160661 / 36028797018963968), (5, 6004799503160661 / 36028797018963968),
       (6, 6004799503160661 / 36028797018963968),
       (7, 6004799503160661 / 36028797018963968)] ∧
    edgeSum (normalizeInnerR fl64 6 [(2, 1), (3, 1), (4, 1), (5, 1), (6, 1), (7, 1)]) =
      1 - 1 / 18014398509481984 := by
  have h : normalizeInnerR fl64 6 [(2, 1), (3, 1), (4, 1), (5, 1), (6, 1), (7, 1)] =
      [(2, 6004799503160661 / 36028797018963968), (3, 6004799503160661 / 36028797018963968),
       (4, 6004799503160661 / 36028797018963968), (5, 6004799503160661 / 36028797018963968),
       (6, 6004799503160661 / 36028797018963968),
       (7, 6004799503160661 / 36028797018963968)] := by
    simp only [normalizeInnerR, List.map_cons, List.map_nil]
    norm_num [fl64_one_sixth]
  refine ⟨h, ?_⟩
  rw [h]
  simp only [edgeSum, List.map_cons, List.map_nil, List.sum_cons, List.sum_nil]
  norm_num

end Skillrank
